import Mathlib

/-!
# Zyzzyva word graph (`src/src/WordGraph.cpp`)

A shallow embedding of the word graph of Zyzzyva: `addWord`, `containsWord`,
`matchesSpec` and the explicit-stack traversal of `search`, followed by the
properties proved about them.

Conventions of the embedding.

* A `QString` is a `List Char`; `QChar::lower` and `QChar::upper` are
  `Char.toLower` and `Char.toUpper` (they agree on the letters `A`-`Z`, which
  is all the stored words are made of when casing matters).
* A node is created by `Node (char c, bool e)`: the `QChar` of the word goes
  through a `char` (`narrow`), so a character above U+00FF is stored as 0 and
  the `while` of `addWord` that looks for it at the end of a chain never ends;
  `addAt`, `addWord` and `addWords` return `none` then.
* A `Node*` is a value of the inductive type `Node`; the null pointer is
  `Node.null`.  `compress` is empty in the source, so no node is ever shared
  and the pointer structure is a tree.
* `int` values are `Int`; string lengths are far below `2^31`, so no
  wrap-around is modelled.
-/

namespace WordGraph

/-- A Qt string, as the list of its characters. -/
abbrev QString := List Char

/-- A node of the graph (`WordGraph::Node`): a letter, the end-of-word flag,
the next sibling and the first child.  `null` is the null pointer. -/
inductive Node where
  | null : Node
  | mk (letter : Char) (eow : Bool) (next : Node) (child : Node) : Node
  deriving DecidableEq, Repr

/-- The graph object: the `top` pointer and the `numNodes` counter. -/
structure Graph where
  top : Node
  numNodes : Nat
  deriving DecidableEq, Repr

/-- The graph made by the constructor `WordGraph::WordGraph()`: `top (0)`; the
counter of nodes is taken to start at zero. -/
def Graph.empty : Graph := ⟨Node.null, 0⟩

/-- Test `!node` of a pointer. -/
def Node.isNull : Node → Bool
  | .null => true
  | .mk _ _ _ _ => false

/-! ## addWord -/

/-- The character a node gets from `new Node (c)`: the constructor is
`Node (char c, bool e)`, so the `QChar` goes through a `char`, which turns a
character above U+00FF into 0, and `letter (c)` stores the `QChar` of that
`char`. -/
def narrow (c : Char) : Char := if c.toNat ≤ 255 then c else Char.ofNat 0

/-- The nodes `addWord` creates once it walks off the existing graph (`!node`
at the head of the `for` loop): one fresh node per remaining letter, each the
only child of the one before, the last one with `eow` set.  Each letter is
stored through `Node (char c, ...)`. -/
def newChain : QString → Node
  | [] => .null
  | [c] => .mk (narrow c) true .null .null
  | c :: d :: rest => .mk (narrow c) false .null (newChain (d :: rest))

/-- The loop of `addWord` from position `i` on, `node` being the sibling chain
reached and `w` the letters from `i`: the inner `while` walks the chain to the
node holding the letter; the walk goes on in that node's child; the node of
the last letter gets `eow = true`.  At the end of a chain the `while` appends
`new Node (c)` and moves to it: the new node holds `narrow c`; when that is
`c` the loop ends there and the rest of the word goes below the new node;
when it is not, `node->letter != c` holds again at a node without `next`, so
the loop appends node after node and the call never returns: `none`. -/
def addAt : Node → QString → Option Node
  | n, [] => some n
  | .null, c :: rest => some (newChain (c :: rest))
  | .mk l e nx ch, c :: rest =>
    if l = c then
      match rest with
      | [] => some (.mk l true nx ch)
      | d :: rest1 => (addAt ch (d :: rest1)).map (fun ch1 => .mk l e nx ch1)
    else if nx.isNull then
      if narrow c = c then some (.mk l e (newChain (c :: rest)) ch) else none
    else (addAt nx (c :: rest)).map (fun nx1 => .mk l e nx1 ch)

/-- The number of `new Node` calls (`++numNodes`) of the same walk, when it
ends. -/
def addedNodes : Node → QString → Nat
  | _, [] => 0
  | .null, c :: rest => (c :: rest).length
  | .mk l _ nx ch, c :: rest =>
    if l = c then
      match rest with
      | [] => 0
      | d :: rest1 => addedNodes ch (d :: rest1)
    else addedNodes nx (c :: rest)

/-- `WordGraph::addWord`: the empty word is ignored; `none` when the call does
not return. -/
def addWord (g : Graph) (w : QString) : Option Graph :=
  if w.isEmpty then some g
  else (addAt g.top w).map (fun top1 => ⟨top1, g.numNodes + addedNodes g.top w⟩)

/-- The calls of `addWord` on each word of the list in order, from the graph
`g`: `none` when one of them does not return. -/
def addWords : Graph → List QString → Option Graph
  | g, [] => some g
  | g, w :: ws => (addWord g w).bind (fun g1 => addWords g1 ws)

/-- The graph obtained from the empty graph by `addWord` on each word in
order.  When a call does not return there is no such graph and `build` is the
empty graph; every call returns when the characters of the words fit in a
`char` (`addWords_char`). -/
def build (ws : List QString) : Graph := (addWords Graph.empty ws).getD Graph.empty

/-- The characters of the word fit in a `char`: none is above U+00FF. -/
def CharWord (w : QString) : Prop := ∀ c ∈ w, c.toNat ≤ 255

/-- The characters of the words fit in a `char`. -/
def CharWords (ws : List QString) : Prop := ∀ w ∈ ws, CharWord w

/-! ### Insertion of a word whose characters fit in a `char`

For such a word `narrow` changes nothing and the `while` of `addWord` always
ends; what `newChain`, `addAt`, `addWord` and `build` give then is written
without `narrow` and without `Option` (`newChain_char`, `addAt_char`,
`addWord_char`, `build_char`). -/

/-- The chain `newChain` makes of a word whose characters fit in a `char`. -/
def plainChain : QString → Node
  | [] => .null
  | [c] => .mk c true .null .null
  | c :: d :: rest => .mk c false .null (plainChain (d :: rest))

/-- The chain `addAt` returns for a word whose characters fit in a `char`. -/
def plainAt : Node → QString → Node
  | n, [] => n
  | .null, c :: rest => plainChain (c :: rest)
  | .mk l e nx ch, c :: rest =>
    if l = c then
      match rest with
      | [] => .mk l true nx ch
      | d :: rest1 => .mk l e nx (plainAt ch (d :: rest1))
    else .mk l e (plainAt nx (c :: rest)) ch

/-- The graph `addWord` returns for a word whose characters fit in a
`char`. -/
def plainAddWord (g : Graph) (w : QString) : Graph :=
  if w.isEmpty then g
  else ⟨plainAt g.top w, g.numNodes + addedNodes g.top w⟩

/-- The graph `build` gives for words whose characters fit in a `char`. -/
def plainBuild (ws : List QString) : Graph := ws.foldl plainAddWord Graph.empty

/-! ## containsWord -/

/-- The loop of `containsWord` from position `i` on: `node` is the chain
reached, `eow` the flag of the node matched last, `w` the letters left.  A
null `node` with letters left returns `false`, both at the head of the `for`
loop and for `!node->next` inside the `while`. -/
def containsAt : Node → Bool → QString → Bool
  | _, eow, [] => eow
  | .null, _, _ :: _ => false
  | .mk l e nx ch, eow, c :: rest =>
    if l = c then containsAt ch e rest
    else containsAt nx eow (c :: rest)

/-- `WordGraph::containsWord`. -/
def containsWord (g : Graph) (w : QString) : Bool :=
  if w.isEmpty || g.top.isNull then false
  else containsAt g.top false w

/-! ## Strings -/

/-- The null character `QChar::null`, which `QString::at` returns beyond the
end of the string. -/
def qnull : Char := Char.ofNat 0

/-- `QString::at (i)`. -/
def qat (s : QString) (i : Nat) : Char := s.getD i qnull

/-- `QString::right (n)`: the last `n` characters (all of them when `n` is
larger than the length). -/
def right (s : QString) (n : Nat) : QString := s.drop (s.length - n)

/-- `QString::find (c)`: the index of the first occurrence, `-1` when there is
none. -/
def find (s : QString) (c : Char) : Int :=
  if c ∈ s then (s.indexOf c : Int) else -1

/-- `s.replace (index, 1, "")`: the string without the character at `index`. -/
def remove (s : QString) (index : Int) : QString := s.eraseIdx index.toNat

/-- `QString::upper`, for strings of ASCII characters: `Char.toUpper` changes
the letters `a` to `z` and nothing else, where Qt also changes the cased
letters outside ASCII. -/
def upper (s : QString) : QString := s.map Char.toUpper

/-- `unmatched.replace (QRegExp ("\\*+"), "*")`: every run of stars becomes
one star. -/
def collapseStars : QString → QString
  | [] => []
  | [c] => [c]
  | c :: d :: rest =>
    if c = '*' ∧ d = '*' then collapseStars (d :: rest) else c :: collapseStars (d :: rest)

/-- `unmatched.replace ('*', "")`: all stars removed. -/
def removeStars (s : QString) : QString := s.filter (fun c => c != '*')

/-- The order `operator<` of `QString`, which orders the `set <QString>`:
lexicographic on the character codes, a proper prefix first. -/
def qlt : QString → QString → Bool
  | [], [] => false
  | [], _ :: _ => true
  | _ :: _, [] => false
  | a :: as, b :: bs => if a.toNat < b.toNat then true else if b.toNat < a.toNat then false else qlt as bs

/-- `wordSet.insert (word)` on the set kept as its ascending list of
elements: nothing changes when an equivalent element is there already. -/
def setInsert (w : QString) : List QString → List QString
  | [] => [w]
  | x :: xs =>
    if qlt w x then w :: x :: xs
    else if qlt x w then x :: setInsert w xs
    else x :: xs

/-! ## Search specifications and `matchesSpec` -/

/-- Modelled from the spec: the enumeration of `Defs.h` that `spec.type` is
compared with; `Defs.h` is not among the sources, the three kinds are those of
the query specification. -/
inductive SearchType where
  | Pattern
  | Anagram
  | Subanagram
  deriving DecidableEq, Repr

/-- Modelled from the spec: the `SearchSpec` of a query, declared outside the
sources; the fields are the ones `search` and `matchesSpec` read. -/
structure SearchSpec where
  type : SearchType
  pattern : QString
  minLength : Int
  maxLength : Int
  includeLetters : QString
  excludeLetters : QString
  consistLetters : QString
  consistPercent : Int
  deriving DecidableEq, Repr

/-- The `Include Letters` loop of `matchesSpec`: each letter in turn is looked
up in `tmpWord` and its first occurrence removed. -/
def includeLoop : QString → QString → Bool
  | _, [] => true
  | tmpWord, c :: rest =>
    if find tmpWord c < 0 then false
    else includeLoop (remove tmpWord (find tmpWord c)) rest

/-- The counting loop of `matchesSpec`: the number of positions of `word`
whose character occurs in `consistLetters`. -/
def consistCount (consistLetters : QString) : QString → Int
  | [] => 0
  | c :: rest =>
    (if c ∈ consistLetters then 1 else 0) + consistCount consistLetters rest

/-- `WordGraph::matchesSpec`.  (For an empty `word` and a positive
`consistPercent` the source divides by zero; here `x / 0 = 0`.) -/
def matchesSpec (word : QString) (spec : SearchSpec) : Bool :=
  if (word.length : Int) < spec.minLength then false
  else if !includeLoop word spec.includeLetters then false
  else if spec.consistPercent > 0 ∧
      (consistCount spec.consistLetters word * 100) / (word.length : Int) < spec.consistPercent then
    false
  else true

/-! ## search -/

/-- A `TraversalState`: a node, the word spelled so far and what is left of
the pattern. -/
structure TraversalState where
  node : Node
  word : QString
  unmatched : QString
  deriving DecidableEq, Repr

/-- The containers `search` writes to: the stack `states` (top first), the
`wordSet` (ascending) and the `wordList`. -/
structure Acc where
  states : List TraversalState
  wordSet : List QString
  wordList : List QString
  deriving DecidableEq, Repr

/-- The body of the `for` loop of `search` for one node of the sibling chain,
`word` and `unmatched` having been reset to `origWord` and `origUnmatched`.
A `continue` returns the containers unchanged.  `letter.lower ()` is
`Char.toLower`, which changes the letters `A` to `Z` and nothing else, where
Qt also changes the cased letters outside ASCII. -/
def visitNode (spec : SearchSpec) (wildcard : Bool) (c : Char)
    (origWord origUnmatched : QString) (letter : Char) (eow : Bool) (child : Node)
    (acc : Acc) : Acc :=
  if letter ∈ spec.excludeLetters then acc
  else
    match spec.type with
    | .Pattern =>
      if c = letter ∨ c = '*' ∨ c = '?' then
        let word := origWord ++ [if c = letter then letter else letter.toLower]
        let unmatched := origUnmatched
        let states1 :=
          if child.isNull then acc.states
          else
            ⟨child, word, right unmatched (unmatched.length - 1)⟩ ::
              (if c = '*' then ⟨child, word, unmatched⟩ :: acc.states else acc.states)
        let wordSet1 :=
          if eow && (unmatched.length == 1 ||
              (unmatched.length == 2 && qat unmatched 1 == '*')) &&
              matchesSpec (upper word) spec then
            setInsert word acc.wordSet
          else acc.wordSet
        ⟨states1, wordSet1, acc.wordList⟩
      else acc
    | _ =>
      let index0 := find origUnmatched letter
      let wildcardMatch : Bool := index0 < 0
      let index := if index0 < 0 then find origUnmatched '?' else index0
      let isMatch : Bool := index ≥ 0
      if isMatch || wildcard then
        let word := origWord ++ [if isMatch && !wildcardMatch then letter else letter.toLower]
        let unmatched := if isMatch then remove origUnmatched index else origUnmatched
        let states1 :=
          if !child.isNull && (wildcard || !unmatched.isEmpty) then
            ⟨child, word, unmatched⟩ :: acc.states
          else acc.states
        let wordList1 :=
          if eow && (spec.type == .Subanagram || unmatched.isEmpty) &&
              matchesSpec (upper word) spec then
            acc.wordList ++ [word]
          else acc.wordList
        ⟨states1, acc.wordSet, wordList1⟩
      else acc

/-- The `for (; node; node = node->next)` loop of `search`. -/
def siblings (spec : SearchSpec) (wildcard : Bool) (c : Char)
    (origWord origUnmatched : QString) : Node → Acc → Acc
  | .null, acc => acc
  | .mk letter eow next child, acc =>
    siblings spec wildcard c origWord origUnmatched next
      (visitNode spec wildcard c origWord origUnmatched letter eow child acc)

/-- The `while (node)` loop of `search`, run for at most `fuel` iterations:
`none` when the fuel runs out before the loop ends.  `c` is assigned at the
head of each iteration of a `Pattern` search and is not read by the other
kinds, for which it keeps its initial value. -/
def searchLoop (spec : SearchSpec) (wildcard : Bool) :
    Nat → Node → QString → QString → Acc → Option Acc
  | fuel, node, word, unmatched, acc =>
    if node.isNull then some acc
    else
      match fuel with
      | 0 => none
      | fuel1 + 1 =>
        let acc1 :=
          if (word.length : Int) < spec.maxLength then
            let c := if spec.type = .Pattern then qat unmatched 0 else qnull
            let acc0 : Acc :=
              if spec.type = .Pattern ∧ c = '*' then
                ⟨⟨node, word, right unmatched (unmatched.length - 1)⟩ :: acc.states,
                  acc.wordSet, acc.wordList⟩
              else acc
            siblings spec wildcard c word unmatched node acc0
          else acc
        match acc1.states with
        | [] => some acc1
        | st :: rest =>
          searchLoop spec wildcard fuel1 st.node st.word st.unmatched
            ⟨rest, acc1.wordSet, acc1.wordList⟩

/-- The pattern `search` starts from: for `Pattern` the empty pattern becomes
`*` and runs of stars collapse; for the other kinds the stars are removed. -/
def startPattern (spec : SearchSpec) : QString :=
  match spec.type with
  | .Pattern => if spec.pattern.isEmpty then ['*'] else collapseStars spec.pattern
  | _ => if '*' ∈ spec.pattern then removeStars spec.pattern else spec.pattern

/-- The flag `wildcard` of `search`: set when an `Anagram` or `Subanagram`
pattern contains a star. -/
def startWildcard (spec : SearchSpec) : Bool :=
  match spec.type with
  | .Pattern => false
  | _ => decide ('*' ∈ spec.pattern)

/-- `WordGraph::search` with the loop run for at most `fuel` iterations. -/
def searchFuel (fuel : Nat) (g : Graph) (spec : SearchSpec) : Option (List QString) :=
  if g.top.isNull then some []
  else
    match searchLoop spec (startWildcard spec) fuel g.top [] (startPattern spec) ⟨[], [], []⟩ with
    | none => none
    | some acc =>
      some (if spec.type = .Pattern then acc.wordList ++ acc.wordSet else acc.wordList)

/-! ## The traversal as a recursion over the graph

The stack of `search` holds the work still to do; run to its end, the loop
visits a state, then everything the state pushed, last push first.  The
functions below follow that order by recursion over the nodes: `sibSteps` and
`expandSteps` count the iterations of the `while` loop, `sibOut` and
`expandOut` list the words handed to `wordSet.insert` or `wordList <<` in the
order in which the loop produces them. -/

/-- What the `for` body does to `word` and `unmatched` at a node holding
`letter`: `none` when the body ends in a `continue`. -/
def visit (spec : SearchSpec) (wildcard : Bool) (c : Char) (origWord origUnmatched : QString)
    (letter : Char) : Option (QString × QString) :=
  if letter ∈ spec.excludeLetters then none
  else
    match spec.type with
    | .Pattern =>
      if c = letter ∨ c = '*' ∨ c = '?' then
        some (origWord ++ [if c = letter then letter else letter.toLower], origUnmatched)
      else none
    | _ =>
      if 0 ≤ find origUnmatched letter then
        some (origWord ++ [letter], remove origUnmatched (find origUnmatched letter))
      else if 0 ≤ find origUnmatched '?' then
        some (origWord ++ [letter.toLower], remove origUnmatched (find origUnmatched '?'))
      else if wildcard then some (origWord ++ [letter.toLower], origUnmatched)
      else none

/-- The `unmatched` strings of the states the `for` body pushes for a node
with a child, the top of the stack first. -/
def pushed (spec : SearchSpec) (wildcard : Bool) (c : Char) (unmatched : QString) :
    List QString :=
  match spec.type with
  | .Pattern =>
    right unmatched (unmatched.length - 1) :: (if c = '*' then [unmatched] else [])
  | _ => if wildcard || !unmatched.isEmpty then [unmatched] else []

/-- The test under which the `for` body hands `word` to the result. -/
def accepted (spec : SearchSpec) (eow : Bool) (word unmatched : QString) : Bool :=
  match spec.type with
  | .Pattern =>
    eow && (unmatched.length == 1 || (unmatched.length == 2 && qat unmatched 1 == '*')) &&
      matchesSpec (upper word) spec
  | _ =>
    eow && (spec.type == .Subanagram || unmatched.isEmpty) && matchesSpec (upper word) spec

/-- The character `c` of an iteration of the `while` loop. -/
def headChar (spec : SearchSpec) (unmatched : QString) : Char :=
  if spec.type = .Pattern then qat unmatched 0 else qnull

/-- Iterations of the `while` loop spent on a state with word `w` whose own
sibling chain costs `F`, and on the states a leading star pushes for the same
node. -/
def expandSteps (spec : SearchSpec) (w : QString) (F : QString → Nat) : QString → Nat
  | [] => 1 + (if (w.length : Int) < spec.maxLength then F [] else 0)
  | a :: rest =>
    1 + (if (w.length : Int) < spec.maxLength then
          F (a :: rest) +
            (if spec.type = .Pattern ∧ a = '*' then expandSteps spec w F rest else 0)
        else 0)

/-- Iterations of the `while` loop spent on the states pushed while the `for`
loop runs over a sibling chain, and on all that they push in turn. -/
def sibSteps (spec : SearchSpec) (wildcard : Bool) : Node → QString → QString → Nat
  | .null, _, _ => 0
  | .mk letter _ next child, w, u =>
    sibSteps spec wildcard next w u +
      (match visit spec wildcard (headChar spec u) w u letter with
        | none => 0
        | some (w1, u1) =>
          if child.isNull then 0
          else
            ((pushed spec wildcard (headChar spec u) u1).map
              (fun v => expandSteps spec w1 (fun v1 => sibSteps spec wildcard child w1 v1) v)).sum)

/-- Words produced from a state with word `w` whose own sibling chain
produces `F`, followed by those of the states a leading star pushes for the
same node. -/
def expandOut (spec : SearchSpec) (w : QString) (F : QString → List QString) :
    QString → List QString
  | [] => if (w.length : Int) < spec.maxLength then F [] else []
  | a :: rest =>
    if (w.length : Int) < spec.maxLength then
      F (a :: rest) ++
        (if spec.type = .Pattern ∧ a = '*' then expandOut spec w F rest else [])
    else []

/-- Words produced while the `for` loop runs over a sibling chain, followed
by those of the states it pushed, last push first. -/
def sibOut (spec : SearchSpec) (wildcard : Bool) : Node → QString → QString → List QString
  | .null, _, _ => []
  | .mk letter eow next child, w, u =>
    (match visit spec wildcard (headChar spec u) w u letter with
      | none => []
      | some (w1, u1) => if accepted spec eow w1 u1 then [w1] else []) ++
    sibOut spec wildcard next w u ++
    (match visit spec wildcard (headChar spec u) w u letter with
      | none => []
      | some (w1, u1) =>
        if child.isNull then []
        else
          ((pushed spec wildcard (headChar spec u) u1).map
            (fun v => expandOut spec w1 (fun v1 => sibOut spec wildcard child w1 v1) v)).flatten)

/-- The number of iterations the `while` loop of `search` makes. -/
def searchSteps (g : Graph) (spec : SearchSpec) : Nat :=
  expandSteps spec [] (sibSteps spec (startWildcard spec) g.top []) (startPattern spec)

/-- The words `search` produces, in the order of production. -/
def searchOut (g : Graph) (spec : SearchSpec) : List QString :=
  expandOut spec [] (sibOut spec (startWildcard spec) g.top []) (startPattern spec)

/-- `WordGraph::search`: the loop is given the fuel `searchSteps`, which is
enough for it to end (`search_eq`), so the result is never `none`. -/
def search (g : Graph) (spec : SearchSpec) : Option (List QString) :=
  searchFuel (searchSteps g spec) g spec

/-- The containers after the words `outs` have been handed to the result of a
search of the kind of `spec`, in order. -/
def Acc.emit (spec : SearchSpec) (acc : Acc) (outs : List QString) : Acc :=
  if spec.type = .Pattern then
    ⟨acc.states, outs.foldl (fun s w => setInsert w s) acc.wordSet, acc.wordList⟩
  else ⟨acc.states, acc.wordSet, acc.wordList ++ outs⟩

/-- The end of an iteration of the `while` loop and the iterations after it:
the top of the stack is popped and the loop goes on from it; an empty stack
ends the loop. -/
def runStack (spec : SearchSpec) (wildcard : Bool) (fuel : Nat) (acc : Acc) : Option Acc :=
  match acc.states with
  | [] => some acc
  | st :: rest =>
    searchLoop spec wildcard fuel st.node st.word st.unmatched ⟨rest, acc.wordSet, acc.wordList⟩

/-- The list `search` returns once the words `outs` have been produced. -/
def finish (spec : SearchSpec) (outs : List QString) : List QString :=
  if spec.type = .Pattern then outs.foldl (fun s w => setInsert w s) [] else outs

/-- The containers with the states `sts` pushed, the first of `sts` on top. -/
def Acc.push (sts : List TraversalState) (acc : Acc) : Acc :=
  ⟨sts ++ acc.states, acc.wordSet, acc.wordList⟩

/-- The states the `for` body pushes for the child of a node. -/
def childStates (spec : SearchSpec) (wildcard : Bool) (c : Char) (child : Node)
    (w1 u1 : QString) : List TraversalState :=
  if child.isNull then []
  else (pushed spec wildcard c u1).map (fun v => (⟨child, w1, v⟩ : TraversalState))

/-- The statement that the loop, started on the chain `n`, does what
`expandSteps` and `expandOut` say and goes on with the rest of the stack. -/
def LoopSpec (spec : SearchSpec) (wildcard : Bool) (n : Node) : Prop :=
  ∀ (w u : QString) (acc : Acc) (f : Nat),
    searchLoop spec wildcard
        (expandSteps spec w (fun v => sibSteps spec wildcard n w v) u + f) n w u acc =
      runStack spec wildcard f
        (acc.emit spec (expandOut spec w (fun v => sibOut spec wildcard n w v) u))

/-- The statement that the `for` loop over the chain `n`, followed by the
iterations for the states it pushed, does what `sibSteps` and `sibOut` say. -/
def SibSpec (spec : SearchSpec) (wildcard : Bool) (n : Node) : Prop :=
  ∀ (w u : QString) (acc : Acc) (f : Nat),
    runStack spec wildcard (sibSteps spec wildcard n w u + f)
        (siblings spec wildcard (headChar spec u) w u n acc) =
      runStack spec wildcard f (acc.emit spec (sibOut spec wildcard n w u))

/-- The non-empty word `v` is spelled by a path of the graph below the chain
`n`: a node of the chain holds the first letter and either `v` ends there and
the node is terminal, or the rest of `v` is spelled below the node's child. -/
def hasPath : Node → QString → Bool
  | .null, _ => false
  | .mk _ _ _ _, [] => false
  | .mk l e nx ch, c :: rest =>
    (l == c && (match rest with
      | [] => e
      | d :: rest1 => hasPath ch (d :: rest1))) || hasPath nx (c :: rest)

/-- `Der spec wildcard w u rest r`: the loop of `search`, popping a state with
word `w` and pattern `u`, hands over `r` at the end of a path spelling `rest`
from the state's node.  `zero` is the state a leading star pushed for the same
node, `last` a terminal node accepted by the `for` body, `next` a state the
`for` body pushed for a child. -/
inductive Der (spec : SearchSpec) (wildcard : Bool) :
    QString → QString → QString → QString → Prop
  | zero {w u rest r : QString} :
      (w.length : Int) < spec.maxLength → spec.type = .Pattern → headChar spec u = '*' →
      Der spec wildcard w u.tail rest r → Der spec wildcard w u rest r
  | last {w u w1 u1 : QString} {x : Char} :
      (w.length : Int) < spec.maxLength →
      visit spec wildcard (headChar spec u) w u x = some (w1, u1) →
      accepted spec true w1 u1 = true → Der spec wildcard w u [x] w1
  | next {w u w1 u1 v rest r : QString} {x y : Char} :
      (w.length : Int) < spec.maxLength →
      visit spec wildcard (headChar spec u) w u x = some (w1, u1) →
      v ∈ pushed spec wildcard (headChar spec u) u1 →
      Der spec wildcard w1 v (y :: rest) r → Der spec wildcard w u (x :: y :: rest) r

/-- The part of `Der` that is one run of the `for` loop: `r` is handed over at
a node of the chain, or by a state pushed for the child of one. -/
def SibDer (spec : SearchSpec) (wildcard : Bool) (w u rest r : QString) : Prop :=
  (∃ x w1 u1, rest = [x] ∧ visit spec wildcard (headChar spec u) w u x = some (w1, u1) ∧
      accepted spec true w1 u1 = true ∧ r = w1) ∨
  (∃ x y rest1 w1 u1 v, rest = x :: y :: rest1 ∧
      visit spec wildcard (headChar spec u) w u x = some (w1, u1) ∧
      v ∈ pushed spec wildcard (headChar spec u) u1 ∧ Der spec wildcard w1 v (y :: rest1) r)

/-- The words of `sibOut` are those derived along the paths from the chain. -/
def SibMem (spec : SearchSpec) (wildcard : Bool) (n : Node) : Prop :=
  ∀ (w u r : QString),
    r ∈ sibOut spec wildcard n w u ↔
      ∃ rest, hasPath n rest = true ∧ SibDer spec wildcard w u rest r

/-- The word `m` spells `rest` with some of the letters put in lower case. -/
def Marked (rest m : QString) : Prop :=
  List.Forall₂ (fun x y => y = x ∨ y = x.toLower) rest m

/-- The words are made of the upper-case letters `A` to `Z`. -/
def UpperWords (ws : List QString) : Prop :=
  ∀ w ∈ ws, ∀ c ∈ w, c.isUpper = true

/-- Glob matching as the specification words it: a letter of the pattern
matches itself, `?` matches exactly one letter and `*` matches zero or more
letters. -/
def globMatch : QString → QString → Bool
  | [], w => w.isEmpty
  | p :: ps, w =>
    if p = '*' then w.tails.any (fun t => globMatch ps t)
    else
      match w with
      | [] => false
      | x :: t => (p == '?' || p == x) && globMatch ps t

/-- No two stars of the pattern are next to each other. -/
def NoAdjStars (u : QString) : Prop :=
  List.Chain' (fun a b => ¬ (a = '*' ∧ b = '*')) u

/-- A query with no constraint but its pattern and `maxLength`. -/
def Plain (spec : SearchSpec) : Prop :=
  spec.minLength ≤ 0 ∧ spec.includeLetters = [] ∧ spec.excludeLetters = [] ∧
    spec.consistPercent = 0

/-- The character `search` writes for a stored letter `x` met under the
pattern character `c` (not a star): the letter itself when the pattern names
it, its lower-case form otherwise. -/
def mark (c x : Char) : Char := if c = x then x else x.toLower

/-- The string `r` fills the star-free pattern `p`: they have the same length
and at every position the character of `r` is the letter of the pattern, or,
under a `?`, the lower-case form of the letter stored there, which is the
upper-casing of the character of `r`. -/
def Fills (p r : QString) : Prop :=
  List.Forall₂ (fun c y => if c = '?' then y = y.toUpper.toLower else y = c) p r

/-- The letters of a path taken from the tiles `u` one by one, as the `for`
body of an `Anagram` or `Subanagram` search without star takes them: the
letter itself when it is among the tiles, a `?` otherwise, `none` when neither
is there.  The result is the string written and the tiles left. -/
def consume : QString → QString → Option (QString × QString)
  | u, [] => some ([], u)
  | u, x :: rest =>
    if x ∈ u then (consume (u.erase x) rest).map (fun p => (x :: p.1, p.2))
    else if '?' ∈ u then
      (consume (u.erase '?') rest).map (fun p => (x.toLower :: p.1, p.2))
    else none

/-- The letters of a pattern: its characters other than `?`. -/
def letters (p : QString) : QString := p.filter (fun c => c != '?')

/-! ## The shape of the graph -/

/-- The letters of the nodes of a sibling chain, followed through `next`. -/
def chainLetters : Node → List Char
  | .null => []
  | .mk l _ nx _ => l :: chainLetters nx

/-- Every sibling chain, the chain `n` itself and the child chain of every
node below it, holds each letter at most once. -/
def uniqueChains : Node → Bool
  | .null => true
  | .mk l _ nx ch => decide (l ∉ chainLetters nx) && uniqueChains nx && uniqueChains ch

/-- Every node of the chain `n` and below it holds an upper-case letter. -/
def lettersUpper : Node → Bool
  | .null => true
  | .mk l _ nx ch => l.isUpper && lettersUpper nx && lettersUpper ch

/-- The words spelled by the paths from the chain `n` to its terminal nodes,
in the order in which the `for` loop and the stack of `search` come to them:
the nodes of the chain first, then what lies below the children, last child
first. -/
def paths : Node → List QString
  | .null => []
  | .mk l e nx ch => (if e then [[l]] else []) ++ paths nx ++ (paths ch).map (fun p => l :: p)

/-- What an `Anagram` or `Subanagram` search, at a state with word `w` and
tiles `u`, hands over at the end of the path spelling the letters given, when
it gets there: the `for` body is followed letter by letter, each state pushed
for a child being popped while its word is shorter than `maxLength`. -/
def runSib (spec : SearchSpec) (wildcard : Bool) : QString → QString → QString → Option QString
  | _, _, [] => none
  | w, u, x :: rest =>
    match visit spec wildcard (headChar spec u) w u x with
    | none => none
    | some (w1, u1) =>
      match rest with
      | [] => if accepted spec true w1 u1 then some w1 else none
      | y :: rest1 =>
        if u1 ∈ pushed spec wildcard (headChar spec u) u1 ∧ (w1.length : Int) < spec.maxLength then
          runSib spec wildcard w1 u1 (y :: rest1)
        else none

/-- The query `spec` with `excludeLetters` emptied. -/
def withoutExclude (spec : SearchSpec) : SearchSpec :=
  ⟨spec.type, spec.pattern, spec.minLength, spec.maxLength, spec.includeLetters, [],
    spec.consistLetters, spec.consistPercent⟩

/-- The query `spec` with the pattern `p` in place of its own. -/
def withPattern (spec : SearchSpec) (p : QString) : SearchSpec :=
  ⟨spec.type, p, spec.minLength, spec.maxLength, spec.includeLetters, spec.excludeLetters,
    spec.consistLetters, spec.consistPercent⟩

/-- The entry `r`, upper-cased, contains no character of `excl`. -/
def noneExcluded (excl : QString) (r : QString) : Bool :=
  (upper r).all (fun c => decide (c ∉ excl))

/-- The tiles left when the letters of a path have been taken from the tiles
`u` one by one as the `for` body of an `Anagram` search with a star takes
them: the letter's own tile when there is one, a `?` otherwise, no tile when
neither is there. -/
def leftover : QString → QString → QString
  | u, [] => u
  | u, x :: rest =>
    if x ∈ u then leftover (u.erase x) rest
    else if '?' ∈ u then leftover (u.erase '?') rest
    else leftover u rest

/-! ## The calls of `matchesSpec` -/

/-- The argument of the call of `matchesSpec` that the `for` body of `search`
makes at a node, if it makes one: in both kinds of search the call is the last
operand of `&&`, evaluated only when the operands before it hold. -/
def visitArgs (spec : SearchSpec) (wildcard : Bool) (c : Char)
    (origWord origUnmatched : QString) (letter : Char) (eow : Bool) : List QString :=
  if letter ∈ spec.excludeLetters then []
  else
    match spec.type with
    | .Pattern =>
      if c = letter ∨ c = '*' ∨ c = '?' then
        let word := origWord ++ [if c = letter then letter else letter.toLower]
        let unmatched := origUnmatched
        if eow && (unmatched.length == 1 ||
            (unmatched.length == 2 && qat unmatched 1 == '*')) then [upper word]
        else []
      else []
    | _ =>
      let index0 := find origUnmatched letter
      let wildcardMatch : Bool := index0 < 0
      let index := if index0 < 0 then find origUnmatched '?' else index0
      let isMatch : Bool := index ≥ 0
      if isMatch || wildcard then
        let word := origWord ++ [if isMatch && !wildcardMatch then letter else letter.toLower]
        let unmatched := if isMatch then remove origUnmatched index else origUnmatched
        if eow && (spec.type == .Subanagram || unmatched.isEmpty) then [upper word]
        else []
      else []

/-- The arguments of the calls of `matchesSpec` made by one run of the `for`
loop of `search`, in order. -/
def siblingsArgs (spec : SearchSpec) (wildcard : Bool) (c : Char)
    (origWord origUnmatched : QString) : Node → List QString
  | .null => []
  | .mk letter eow next _ =>
    visitArgs spec wildcard c origWord origUnmatched letter eow ++
      siblingsArgs spec wildcard c origWord origUnmatched next

/-- The arguments of the calls of `matchesSpec` made by the `while (node)`
loop of `search`, run for at most `fuel` iterations as in `searchLoop`: the
containers go through the iterations as they do there. -/
def searchLoopArgs (spec : SearchSpec) (wildcard : Bool) :
    Nat → Node → QString → QString → Acc → Option (List QString)
  | fuel, node, word, unmatched, acc =>
    if node.isNull then some []
    else
      match fuel with
      | 0 => none
      | fuel1 + 1 =>
        let c := if spec.type = .Pattern then qat unmatched 0 else qnull
        let args :=
          if (word.length : Int) < spec.maxLength then
            siblingsArgs spec wildcard c word unmatched node
          else []
        let acc1 :=
          if (word.length : Int) < spec.maxLength then
            let acc0 : Acc :=
              if spec.type = .Pattern ∧ c = '*' then
                ⟨⟨node, word, right unmatched (unmatched.length - 1)⟩ :: acc.states,
                  acc.wordSet, acc.wordList⟩
              else acc
            siblings spec wildcard c word unmatched node acc0
          else acc
        match acc1.states with
        | [] => some args
        | st :: rest =>
          (searchLoopArgs spec wildcard fuel1 st.node st.word st.unmatched
            ⟨rest, acc1.wordSet, acc1.wordList⟩).map (fun more => args ++ more)

/-- The arguments of the calls of `matchesSpec` made by `search`, in order. -/
def searchArgs (g : Graph) (spec : SearchSpec) : Option (List QString) :=
  if g.top.isNull then some []
  else
    searchLoopArgs spec (startWildcard spec) (searchSteps g spec) g.top [] (startPattern spec)
      ⟨[], [], []⟩

/-! # Theorems -/

/-! ## The loop of `search` computes the recursion over the graph -/

theorem right_cons (a : Char) (u : QString) : right (a :: u) ((a :: u).length - 1) = u := by
  simp [right]

theorem right_nil (n : Nat) : right [] n = [] := by
  simp [right]

theorem right_pred (u : QString) : right u (u.length - 1) = u.tail := by
  cases u with
  | nil => simp [right]
  | cons a u => simp [right]

theorem emit_nil (spec : SearchSpec) (acc : Acc) : acc.emit spec [] = acc := by
  unfold Acc.emit
  split <;> simp

theorem emit_append (spec : SearchSpec) (acc : Acc) (xs ys : List QString) :
    acc.emit spec (xs ++ ys) = (acc.emit spec xs).emit spec ys := by
  unfold Acc.emit
  split <;> simp

theorem emit_states (spec : SearchSpec) (acc : Acc) (xs : List QString) :
    (acc.emit spec xs).states = acc.states := by
  unfold Acc.emit
  split <;> rfl

theorem searchLoop_null (spec : SearchSpec) (wildcard : Bool) (fuel : Nat) (w u : QString)
    (acc : Acc) : searchLoop spec wildcard fuel .null w u acc = some acc := by
  unfold searchLoop
  simp [Node.isNull]

theorem searchLoop_succ (spec : SearchSpec) (wildcard : Bool) (fuel : Nat)
    (l : Char) (e : Bool) (nx ch : Node) (w u : QString) (acc : Acc) :
    searchLoop spec wildcard (fuel + 1) (.mk l e nx ch) w u acc =
      runStack spec wildcard fuel
        (if (w.length : Int) < spec.maxLength then
          siblings spec wildcard (headChar spec u) w u (.mk l e nx ch)
            (if spec.type = .Pattern ∧ headChar spec u = '*' then
              ⟨⟨.mk l e nx ch, w, right u (u.length - 1)⟩ :: acc.states, acc.wordSet,
                acc.wordList⟩
            else acc)
        else acc) := by
  rw [searchLoop]
  simp only [Node.isNull, runStack, headChar]
  rfl

theorem find_nonneg_iff (s : QString) (c : Char) : 0 ≤ find s c ↔ c ∈ s := by
  unfold find
  split <;> simp_all

theorem find_neg_iff (s : QString) (c : Char) : find s c < 0 ↔ c ∉ s := by
  unfold find
  split <;> simp_all

theorem push_emit (spec : SearchSpec) (sts : List TraversalState) (acc : Acc)
    (xs : List QString) : (Acc.push sts acc).emit spec xs = Acc.push sts (acc.emit spec xs) := by
  unfold Acc.emit Acc.push
  split <;> rfl

theorem push_nil (acc : Acc) : Acc.push [] acc = acc := by
  simp [Acc.push]

theorem visitNode_pat (spec : SearchSpec) (wildcard : Bool) (c : Char) (w u : QString)
    (letter : Char) (eow : Bool) (child : Node) (acc : Acc) (ht : spec.type = .Pattern)
    (hx : letter ∉ spec.excludeLetters) :
    visitNode spec wildcard c w u letter eow child acc =
      match visit spec wildcard c w u letter with
      | none => acc
      | some (w1, u1) =>
        Acc.push (childStates spec wildcard c child w1 u1)
          (acc.emit spec (if accepted spec eow w1 u1 then [w1] else [])) := by
  unfold visitNode visit
  simp only [hx, if_false, ht]
  by_cases hm : c = letter ∨ c = '*' ∨ c = '?'
  · simp only [hm, if_true, pushed, accepted, ht, Acc.emit, Acc.push, childStates]
    cases child <;> by_cases hs : c = '*' <;> split_ifs <;> simp_all [Node.isNull]
  · simp [hm]

theorem visitNode_ana (spec : SearchSpec) (wildcard : Bool) (c : Char) (w u : QString)
    (letter : Char) (eow : Bool) (child : Node) (acc : Acc) (ht : spec.type ≠ .Pattern)
    (hx : letter ∉ spec.excludeLetters) :
    visitNode spec wildcard c w u letter eow child acc =
      match visit spec wildcard c w u letter with
      | none => acc
      | some (w1, u1) =>
        Acc.push (childStates spec wildcard c child w1 u1)
          (acc.emit spec (if accepted spec eow w1 u1 then [w1] else [])) := by
  have hv : visitNode spec wildcard c w u letter eow child acc =
      (let index0 := find u letter
      let wildcardMatch : Bool := index0 < 0
      let index := if index0 < 0 then find u '?' else index0
      let isMatch : Bool := index ≥ 0
      if isMatch || wildcard then
        let word := w ++ [if isMatch && !wildcardMatch then letter else letter.toLower]
        let unmatched := if isMatch then remove u index else u
        let states1 :=
          if !child.isNull && (wildcard || !unmatched.isEmpty) then
            ⟨child, word, unmatched⟩ :: acc.states
          else acc.states
        let wordList1 :=
          if eow && (spec.type == .Subanagram || unmatched.isEmpty) &&
              matchesSpec (upper word) spec then
            acc.wordList ++ [word]
          else acc.wordList
        ⟨states1, acc.wordSet, wordList1⟩
      else acc) := by
    unfold visitNode
    simp only [hx, if_false]
  have hvis : visit spec wildcard c w u letter =
      (if 0 ≤ find u letter then
        some (w ++ [letter], remove u (find u letter))
      else if 0 ≤ find u '?' then
        some (w ++ [letter.toLower], remove u (find u '?'))
      else if wildcard then some (w ++ [letter.toLower], u)
      else none) := by
    unfold visit
    simp only [hx, if_false]
  have hp : ∀ u1, pushed spec wildcard c u1 = if wildcard || !u1.isEmpty then [u1] else [] := by
    intro u1
    unfold pushed
    cases h : spec.type <;> simp_all
  have ha : ∀ w1 u1, accepted spec eow w1 u1 =
      (eow && (spec.type == .Subanagram || u1.isEmpty) && matchesSpec (upper w1) spec) := by
    intro w1 u1
    unfold accepted
    cases h : spec.type <;> simp_all
  have he : ∀ xs, acc.emit spec xs = ⟨acc.states, acc.wordSet, acc.wordList ++ xs⟩ := by
    intro xs
    simp [Acc.emit, ht]
  rw [hv, hvis]
  simp only [hp, ha, he, Acc.push, childStates]
  by_cases h1 : 0 ≤ find u letter
  · have h1b : ¬ find u letter < 0 := by omega
    simp only [h1, h1b, if_true, if_false, decide_True, decide_False, Bool.true_or, Bool.not_false, Bool.and_true]
    cases child <;> simp [Node.isNull] <;> split_ifs <;> simp_all
  · have h1b : find u letter < 0 := by omega
    simp only [h1, h1b, if_true, if_false, decide_True, decide_False]
    by_cases h2 : 0 ≤ find u '?'
    · simp only [h2, if_true, if_false, decide_True, decide_False, Bool.true_or, Bool.not_true, Bool.and_false]
      cases child <;> simp [Node.isNull] <;> split_ifs <;> simp_all
    · simp only [h2, if_true, if_false, decide_True, decide_False, Bool.false_or]
      cases wildcard
      · simp
      · simp
        cases child <;> simp [Node.isNull] <;> split_ifs <;> simp_all

/-- The body of the `for` loop pushes the states of the child and hands over
at most one word. -/
theorem visitNode_eq (spec : SearchSpec) (wildcard : Bool) (c : Char) (w u : QString)
    (letter : Char) (eow : Bool) (child : Node) (acc : Acc) :
    visitNode spec wildcard c w u letter eow child acc =
      match visit spec wildcard c w u letter with
      | none => acc
      | some (w1, u1) =>
        Acc.push (childStates spec wildcard c child w1 u1)
          (acc.emit spec (if accepted spec eow w1 u1 then [w1] else [])) := by
  by_cases hx : letter ∈ spec.excludeLetters
  · simp [visitNode, visit, hx]
  · by_cases ht : spec.type = .Pattern
    · exact visitNode_pat spec wildcard c w u letter eow child acc ht hx
    · exact visitNode_ana spec wildcard c w u letter eow child acc ht hx

theorem runStack_push_nil (spec : SearchSpec) (wildcard : Bool) (fuel : Nat) (acc : Acc) :
    runStack spec wildcard fuel (Acc.push [] acc) = runStack spec wildcard fuel acc := by
  rw [push_nil]

theorem runStack_push_cons (spec : SearchSpec) (wildcard : Bool) (fuel : Nat)
    (st : TraversalState) (sts : List TraversalState) (acc : Acc) :
    runStack spec wildcard fuel (Acc.push (st :: sts) acc) =
      searchLoop spec wildcard fuel st.node st.word st.unmatched (Acc.push sts acc) := by
  simp [runStack, Acc.push]

theorem runStack_children (spec : SearchSpec) (wildcard : Bool) (ch : Node) (w1 : QString)
    (hch : LoopSpec spec wildcard ch) (vs : List QString) (acc : Acc) (f : Nat) :
    runStack spec wildcard
        ((vs.map (fun v => expandSteps spec w1 (fun v1 => sibSteps spec wildcard ch w1 v1) v)).sum
          + f)
        (Acc.push (vs.map (fun v => (⟨ch, w1, v⟩ : TraversalState))) acc) =
      runStack spec wildcard f
        (acc.emit spec
          ((vs.map (fun v => expandOut spec w1 (fun v1 => sibOut spec wildcard ch w1 v1) v)).flatten)) := by
  induction vs generalizing acc with
  | nil => simp [push_nil, emit_nil]
  | cons v vs ih =>
    simp only [List.map_cons, List.sum_cons, List.flatten_cons, runStack_push_cons]
    rw [Nat.add_assoc, hch, push_emit, ih, emit_append]

theorem loopSpec_of_sibSpec (spec : SearchSpec) (wildcard : Bool)
    (l : Char) (e : Bool) (nx ch : Node) (h : SibSpec spec wildcard (.mk l e nx ch)) :
    LoopSpec spec wildcard (.mk l e nx ch) := by
  intro w u
  induction u with
  | nil =>
    intro acc f
    have hc : headChar spec [] ≠ '*' := by
      unfold headChar qat qnull
      split <;> decide
    simp only [expandSteps, expandOut]
    rw [Nat.add_assoc, Nat.add_comm 1, searchLoop_succ]
    by_cases hM : (w.length : Int) < spec.maxLength
    · simp only [hM, if_true, hc, and_false, if_false]
      exact h w [] acc f
    · simp [hM, emit_nil]
  | cons a rest ih =>
    intro acc f
    simp only [expandSteps, expandOut]
    rw [Nat.add_assoc, Nat.add_comm 1, searchLoop_succ]
    by_cases hM : (w.length : Int) < spec.maxLength
    · simp only [hM, if_true]
      by_cases hs : spec.type = .Pattern ∧ a = '*'
      · obtain ⟨ht, rfl⟩ := hs
        have hc : headChar spec ('*' :: rest) = '*' := by
          simp [headChar, ht, qat]
        have key := h w ('*' :: rest)
          ⟨⟨.mk l e nx ch, w, rest⟩ :: acc.states, acc.wordSet, acc.wordList⟩
          (expandSteps spec w (fun v => sibSteps spec wildcard (.mk l e nx ch) w v) rest + f)
        rw [hc] at key
        simp only [ht, hc, and_self, if_true, right_cons]
        rw [Nat.add_assoc, key]
        have hp : (⟨⟨.mk l e nx ch, w, rest⟩ :: acc.states, acc.wordSet, acc.wordList⟩ : Acc) =
            Acc.push [⟨.mk l e nx ch, w, rest⟩] acc := by
          simp [Acc.push]
        rw [hp, push_emit, runStack_push_cons, push_nil, ih, emit_append]
      · have hc : ¬ (spec.type = .Pattern ∧ headChar spec (a :: rest) = '*') := by
          intro hh
          apply hs
          refine ⟨hh.1, ?_⟩
          have := hh.2
          simpa [headChar, hh.1, qat] using this
        simp only [hs, hc, if_false, Nat.add_zero, List.append_nil]
        exact h w (a :: rest) acc f
    · simp [hM, emit_nil]

theorem sibSpec_all (spec : SearchSpec) (wildcard : Bool) (n : Node) :
    SibSpec spec wildcard n := by
  induction n with
  | null =>
    intro w u acc f
    simp [siblings, sibSteps, sibOut, emit_nil]
  | mk l e nx ch ihnx ihch =>
    intro w u acc f
    simp only [siblings, sibSteps, sibOut]
    rw [Nat.add_assoc, ihnx, visitNode_eq]
    cases hv : visit spec wildcard (headChar spec u) w u l with
    | none => simp
    | some p =>
      obtain ⟨w1, u1⟩ := p
      simp only
      cases ch with
      | null =>
        simp [childStates, Node.isNull, push_nil, emit_append]
      | mk l2 e2 nx2 ch2 =>
        have hch := loopSpec_of_sibSpec spec wildcard l2 e2 nx2 ch2 ihch
        simp only [childStates, Node.isNull, Bool.false_eq_true, if_false]
        rw [push_emit, runStack_children spec wildcard _ w1 hch, emit_append, emit_append]

/-- The loop of `search`, given the fuel `expandSteps` counts and any more,
ends the work of a state and goes on with the rest of the stack, having
produced the words of `expandOut`. -/
theorem searchLoop_eq (spec : SearchSpec) (wildcard : Bool) (l : Char) (e : Bool)
    (nx ch : Node) : LoopSpec spec wildcard (.mk l e nx ch) :=
  loopSpec_of_sibSpec spec wildcard l e nx ch (sibSpec_all spec wildcard _)

theorem expandOut_nil_fun (spec : SearchSpec) (w u : QString) :
    expandOut spec w (fun _ => []) u = [] := by
  induction u with
  | nil => simp [expandOut]
  | cons a rest ih => simp [expandOut, ih]

/-- With the fuel `searchSteps` or more, `search` returns the words of
`searchOut`: as they come for an `Anagram` or `Subanagram` search, through the
set for a `Pattern` search. -/
theorem searchFuel_eq (g : Graph) (spec : SearchSpec) (k : Nat) :
    searchFuel (searchSteps g spec + k) g spec = some (finish spec (searchOut g spec)) := by
  unfold searchFuel searchSteps searchOut
  cases htop : g.top with
  | null =>
    simp [Node.isNull, sibOut, expandOut_nil_fun, finish]
  | mk l e nx ch =>
    simp only [Node.isNull, Bool.false_eq_true, if_false]
    rw [searchLoop_eq spec (startWildcard spec) l e nx ch [] (startPattern spec) ⟨[], [], []⟩ k]
    simp only [runStack, emit_states]
    by_cases ht : spec.type = .Pattern <;> simp [finish, Acc.emit, ht]

/-- The loop of `search` ends: `search` returns a list, the one `searchOut`
describes. -/
theorem search_eq (g : Graph) (spec : SearchSpec) :
    search g spec = some (finish spec (searchOut g spec)) :=
  searchFuel_eq g spec 0

/-- The list `search` returns, from the words it produces. -/
theorem search_eval (g : Graph) (spec : SearchSpec) (res : List QString)
    (h : finish spec (searchOut g spec) = res) : search g spec = some res := by
  rw [search_eq, h]

/-! ## Membership -/

theorem containsAt_null (e : Bool) (c : Char) (v : QString) :
    containsAt .null e (c :: v) = false := by
  simp [containsAt]

theorem containsAt_eow (n : Node) (e1 e2 : Bool) (c : Char) (v : QString) :
    containsAt n e1 (c :: v) = containsAt n e2 (c :: v) := by
  induction n with
  | null => simp [containsAt]
  | mk l e nx ch ihnx _ =>
    simp only [containsAt]
    split
    · rfl
    · exact ihnx

theorem containsAt_plainChain (c : Char) (w : QString) (e0 : Bool) (d : Char) (v : QString) :
    containsAt (plainChain (c :: w)) e0 (d :: v) = true ↔ d :: v = c :: w := by
  induction w generalizing c d v e0 with
  | nil =>
    simp only [plainChain, containsAt]
    by_cases h : c = d
    · subst h
      cases v with
      | nil => simp [containsAt]
      | cons x v => simp [containsAt]
    · simp [h, containsAt]
      intro h2
      exact absurd h2.symm h
  | cons x w ih =>
    simp only [plainChain, containsAt]
    by_cases h : c = d
    · subst h
      cases v with
      | nil => simp [containsAt]
      | cons y v => simp [ih]
    · simp [h, containsAt]
      intro h2
      exact absurd h2.symm h

theorem containsAt_plainAt (n : Node) (c : Char) (w : QString) (e0 : Bool) (d : Char)
    (v : QString) :
    containsAt (plainAt n (c :: w)) e0 (d :: v) = true ↔
      containsAt n e0 (d :: v) = true ∨ d :: v = c :: w := by
  induction n generalizing c w e0 d v with
  | null =>
    simp only [plainAt, containsAt_plainChain, containsAt_null]
    simp
  | mk l e nx ch ihnx ihch =>
    simp only [plainAt]
    by_cases hlc : l = c
    · subst hlc
      simp only [if_true]
      cases w with
      | nil =>
        simp only [containsAt]
        by_cases hld : l = d
        · subst hld
          cases v with
          | nil => simp [containsAt]
          | cons y v => simp [containsAt_eow ch true e y v]
        · simp [hld]
          intro h2
          exact absurd h2.symm hld
      | cons x w =>
        simp only [containsAt]
        by_cases hld : l = d
        · subst hld
          cases v with
          | nil => simp [containsAt]
          | cons y v => simp [ihch]
        · simp [hld]
          intro h2
          exact absurd h2.symm hld
    · simp only [hlc, if_false, containsAt]
      by_cases hld : l = d
      · subst hld
        simp
        intro h2
        exact absurd h2 hlc
      · simp [hld, ihnx]

theorem containsWord_cons (g : Graph) (d : Char) (v : QString) :
    containsWord g (d :: v) = containsAt g.top false (d :: v) := by
  unfold containsWord
  cases h : g.top <;> simp [Node.isNull, containsAt]

theorem containsWord_nil (g : Graph) : containsWord g [] = false := by
  simp [containsWord]

theorem containsWord_plainAddWord (g : Graph) (w v : QString) :
    containsWord (plainAddWord g w) v = true ↔ containsWord g v = true ∨ (v ≠ [] ∧ v = w) := by
  cases v with
  | nil => simp [containsWord_nil]
  | cons d v =>
    cases w with
    | nil => simp [plainAddWord]
    | cons c w =>
      simp only [containsWord_cons, plainAddWord, List.isEmpty_cons, Bool.false_eq_true, if_false,
        containsAt_plainAt]
      simp

theorem containsWord_foldl (ws : List QString) (g : Graph) (v : QString) :
    containsWord (ws.foldl plainAddWord g) v = true ↔
      containsWord g v = true ∨ (v ≠ [] ∧ v ∈ ws) := by
  induction ws generalizing g with
  | nil => simp
  | cons w ws ih =>
    simp only [List.foldl_cons, ih, containsWord_plainAddWord, List.mem_cons]
    tauto

theorem containsWord_empty (v : QString) : containsWord Graph.empty v = false := by
  simp [containsWord, Graph.empty, Node.isNull]

/-- In the graph built from `ws`, `containsWord` holds of the non-empty words
of `ws` and of nothing else. -/
theorem containsWord_plainBuild (ws : List QString) (v : QString) :
    containsWord (plainBuild ws) v = true ↔ v ≠ [] ∧ v ∈ ws := by
  unfold plainBuild
  rw [containsWord_foldl]
  simp [containsWord_empty]

theorem hasPath_nil (n : Node) : hasPath n [] = false := by
  cases n <;> simp [hasPath]

theorem hasPath_plainChain (c : Char) (w : QString) (d : Char) (v : QString) :
    hasPath (plainChain (c :: w)) (d :: v) = true ↔ d :: v = c :: w := by
  induction w generalizing c d v with
  | nil =>
    by_cases h : c = d
    · subst h
      cases v <;> simp [plainChain, hasPath]
    · have h2 : ¬ d = c := fun h2 => h h2.symm
      cases v <;> simp [plainChain, hasPath, h, h2]
  | cons x w ih =>
    by_cases h : c = d
    · subst h
      cases v with
      | nil => simp [plainChain, hasPath]
      | cons y v => simp [plainChain, hasPath, ih]
    · have h2 : ¬ d = c := fun h2 => h h2.symm
      cases v <;> simp [plainChain, hasPath, h, h2]

theorem hasPath_plainAt (n : Node) (c : Char) (w : QString) (d : Char) (v : QString) :
    hasPath (plainAt n (c :: w)) (d :: v) = true ↔
      hasPath n (d :: v) = true ∨ d :: v = c :: w := by
  induction n generalizing c w d v with
  | null =>
    simp [plainAt, hasPath_plainChain, hasPath]
  | mk l e nx ch ihnx ihch =>
    simp only [plainAt]
    by_cases hlc : l = c
    · subst hlc
      simp only [if_true]
      by_cases hld : l = d
      · subst hld
        cases w with
        | nil =>
          cases v with
          | nil => simp [hasPath]
          | cons y v => simp [hasPath]
        | cons x w =>
          cases v with
          | nil => simp [hasPath]
          | cons y v =>
            simp only [hasPath, Bool.or_eq_true, Bool.and_eq_true, beq_self_eq_true, true_and,
              ihch, List.cons.injEq]
            tauto
      · have h2 : ¬ d = l := fun h2 => hld h2.symm
        cases w <;> cases v <;> simp [hasPath, hld, h2]
    · simp only [hlc, if_false]
      have key : ∀ b : Bool, ((l == d && b) || hasPath (plainAt nx (c :: w)) (d :: v)) = true ↔
          ((l == d && b) || hasPath nx (d :: v)) = true ∨ d :: v = c :: w := by
        intro b
        simp only [Bool.or_eq_true, ihnx]
        tauto
      cases v with
      | nil => simpa [hasPath] using key e
      | cons y v => simpa [hasPath] using key (hasPath ch (y :: v))

theorem hasPath_plainAddWord (g : Graph) (w v : QString) :
    hasPath (plainAddWord g w).top v = true ↔ hasPath g.top v = true ∨ (v ≠ [] ∧ v = w) := by
  cases v with
  | nil => simp [hasPath_nil]
  | cons d v =>
    cases w with
    | nil => simp [plainAddWord]
    | cons c w =>
      simp only [plainAddWord, List.isEmpty_cons, Bool.false_eq_true, if_false, hasPath_plainAt]
      simp

theorem hasPath_foldl (ws : List QString) (g : Graph) (v : QString) :
    hasPath (ws.foldl plainAddWord g).top v = true ↔
      hasPath g.top v = true ∨ (v ≠ [] ∧ v ∈ ws) := by
  induction ws generalizing g with
  | nil => simp
  | cons w ws ih =>
    simp only [List.foldl_cons, ih, hasPath_plainAddWord, List.mem_cons]
    tauto

/-- In the graph built from `ws`, the paths from the top spell the non-empty
words of `ws` and nothing else. -/
theorem hasPath_plainBuild (ws : List QString) (v : QString) :
    hasPath (plainBuild ws).top v = true ↔ v ≠ [] ∧ v ∈ ws := by
  unfold plainBuild
  rw [hasPath_foldl]
  simp [Graph.empty, hasPath]

theorem hasPath_iff_containsWord (ws : List QString) (v : QString) :
    hasPath (plainBuild ws).top v = true ↔ containsWord (plainBuild ws) v = true := by
  rw [hasPath_plainBuild, containsWord_plainBuild]

/-! ## The words produced, as derivations along paths -/

theorem der_iff (spec : SearchSpec) (wildcard : Bool) (w u rest r : QString) :
    Der spec wildcard w u rest r ↔
      (w.length : Int) < spec.maxLength ∧
        (SibDer spec wildcard w u rest r ∨
          (spec.type = .Pattern ∧ headChar spec u = '*' ∧ Der spec wildcard w u.tail rest r)) := by
  constructor
  · intro h
    cases h with
    | zero hM ht hc hd => exact ⟨hM, Or.inr ⟨ht, hc, hd⟩⟩
    | last hM hv ha => exact ⟨hM, Or.inl (Or.inl ⟨_, _, _, rfl, hv, ha, rfl⟩)⟩
    | next hM hv hp hd => exact ⟨hM, Or.inl (Or.inr ⟨_, _, _, _, _, _, rfl, hv, hp, hd⟩)⟩
  · rintro ⟨hM, h | ⟨ht, hc, hd⟩⟩
    · rcases h with ⟨x, w1, u1, rfl, hv, ha, rfl⟩ | ⟨x, y, rest1, w1, u1, v, rfl, hv, hp, hd⟩
      · exact Der.last hM hv ha
      · exact Der.next hM hv hp hd
    · exact Der.zero hM ht hc hd

theorem der_ne_nil (spec : SearchSpec) (wildcard : Bool) (w u rest r : QString)
    (h : Der spec wildcard w u rest r) : rest ≠ [] := by
  induction h with
  | zero _ _ _ _ ih => exact ih
  | last _ _ _ => simp
  | next _ _ _ _ _ => simp

theorem accepted_eow (spec : SearchSpec) (e : Bool) (w1 u1 : QString) :
    accepted spec e w1 u1 = true ↔ e = true ∧ accepted spec true w1 u1 = true := by
  unfold accepted
  cases spec.type <;> cases e <;> simp

theorem headChar_nil_ne (spec : SearchSpec) : headChar spec [] ≠ '*' := by
  unfold headChar qat qnull
  split <;> decide

theorem headChar_cons (spec : SearchSpec) (a : Char) (u : QString) :
    (spec.type = .Pattern ∧ headChar spec (a :: u) = '*') ↔ (spec.type = .Pattern ∧ a = '*') := by
  constructor
  · rintro ⟨ht, h⟩
    refine ⟨ht, ?_⟩
    simpa [headChar, ht, qat] using h
  · rintro ⟨ht, h⟩
    refine ⟨ht, ?_⟩
    simp [headChar, ht, qat, h]

theorem expandOut_mem_of (spec : SearchSpec) (wildcard : Bool) (n : Node)
    (h : SibMem spec wildcard n) (w u r : QString) :
    r ∈ expandOut spec w (fun v => sibOut spec wildcard n w v) u ↔
      ∃ rest, hasPath n rest = true ∧ Der spec wildcard w u rest r := by
  induction u with
  | nil =>
    simp only [expandOut, der_iff spec wildcard w []]
    by_cases hM : (w.length : Int) < spec.maxLength
    · simp only [hM, if_true, true_and, h w [] r, headChar_nil_ne, false_and, and_false,
        or_false]
    · simp [hM]
  | cons a u ih =>
    simp only [expandOut, der_iff spec wildcard w (a :: u), List.tail_cons]
    by_cases hM : (w.length : Int) < spec.maxLength
    · simp only [hM, if_true, true_and, List.mem_append, h w (a :: u) r]
      by_cases hs : spec.type = .Pattern ∧ a = '*'
      · have hs2 := (headChar_cons spec a u).2 hs
        simp only [hs, and_self, if_true, ih, true_and]
        constructor
        · rintro (⟨rest, h1, h2⟩ | ⟨rest, h1, h2⟩)
          · exact ⟨rest, h1, Or.inl h2⟩
          · exact ⟨rest, h1, Or.inr ⟨hs.2 ▸ hs2.2, h2⟩⟩
        · rintro ⟨rest, h1, h2 | h2⟩
          · exact Or.inl ⟨rest, h1, h2⟩
          · exact Or.inr ⟨rest, h1, h2.2⟩
      · have hs2 : ¬ (spec.type = .Pattern ∧ headChar spec (a :: u) = '*') :=
          fun hh => hs ((headChar_cons spec a u).1 hh)
        simp only [hs, if_false, List.not_mem_nil, or_false]
        constructor
        · rintro ⟨rest, h1, h2⟩
          exact ⟨rest, h1, Or.inl h2⟩
        · rintro ⟨rest, h1, h2 | ⟨h2, h3, _⟩⟩
          · exact ⟨rest, h1, h2⟩
          · exact absurd ⟨h2, h3⟩ hs2
    · simp [hM]

theorem sibOut_mem_mk (spec : SearchSpec) (wildcard : Bool) (l : Char) (e : Bool)
    (nx ch : Node) (w u r : QString) :
    r ∈ sibOut spec wildcard (.mk l e nx ch) w u ↔
      (∃ w1 u1, visit spec wildcard (headChar spec u) w u l = some (w1, u1) ∧
          accepted spec e w1 u1 = true ∧ r = w1) ∨
      r ∈ sibOut spec wildcard nx w u ∨
      (∃ w1 u1 v, visit spec wildcard (headChar spec u) w u l = some (w1, u1) ∧
          ch.isNull = false ∧ v ∈ pushed spec wildcard (headChar spec u) u1 ∧
          r ∈ expandOut spec w1 (fun v1 => sibOut spec wildcard ch w1 v1) v) := by
  simp only [sibOut, List.mem_append]
  cases hv : visit spec wildcard (headChar spec u) w u l with
  | none => simp
  | some p =>
    obtain ⟨w1, u1⟩ := p
    simp only [Option.some.injEq, Prod.mk.injEq]
    constructor
    · rintro ((h | h) | h)
      · left
        by_cases ha : accepted spec e w1 u1 = true
        · simp only [ha, if_true, List.mem_singleton] at h
          exact ⟨w1, u1, ⟨rfl, rfl⟩, ha, h⟩
        · simp [ha] at h
      · exact Or.inr (Or.inl h)
      · right
        right
        cases hn : ch.isNull with
        | true => simp [hn] at h
        | false =>
          simp only [hn, Bool.false_eq_true, if_false, List.mem_flatten, List.mem_map] at h
          obtain ⟨l1, ⟨v, hv1, rfl⟩, hr⟩ := h
          exact ⟨w1, u1, v, ⟨rfl, rfl⟩, rfl, hv1, hr⟩
    · rintro (⟨w2, u2, ⟨rfl, rfl⟩, ha, rfl⟩ | h | ⟨w2, u2, v, ⟨rfl, rfl⟩, hn, hp, hr⟩)
      · left
        left
        simp [ha]
      · exact Or.inl (Or.inr h)
      · right
        simp only [hn, Bool.false_eq_true, if_false, List.mem_flatten, List.mem_map]
        exact ⟨_, ⟨v, hp, rfl⟩, hr⟩

theorem hasPath_cons_mk (l : Char) (e : Bool) (nx ch : Node) (c : Char) (rest : QString) :
    hasPath (.mk l e nx ch) (c :: rest) = true ↔
      (l = c ∧ ((rest = [] ∧ e = true) ∨ (rest ≠ [] ∧ hasPath ch rest = true))) ∨
        hasPath nx (c :: rest) = true := by
  cases rest with
  | nil => simp [hasPath]
  | cons d rest => simp [hasPath]

theorem hasPath_ne_nil (n : Node) (rest : QString) (h : hasPath n rest = true) : rest ≠ [] := by
  intro h2
  subst h2
  simp [hasPath_nil] at h

theorem hasPath_not_null (n : Node) (rest : QString) (h : hasPath n rest = true) :
    n.isNull = false := by
  cases n with
  | null => simp [hasPath] at h
  | mk l e nx ch => rfl

theorem sibMem_all (spec : SearchSpec) (wildcard : Bool) (n : Node) : SibMem spec wildcard n := by
  induction n with
  | null =>
    intro w u r
    simp [sibOut, hasPath]
  | mk l e nx ch ihnx ihch =>
    intro w u r
    rw [sibOut_mem_mk, ihnx w u r]
    constructor
    · rintro (⟨w1, u1, hv, ha, rfl⟩ | ⟨rest, h1, h2⟩ | ⟨w1, u1, v, hv, hn, hp, hr⟩)
      · rw [accepted_eow] at ha
        refine ⟨[l], ?_, Or.inl ⟨l, _, _, rfl, hv, ha.2, rfl⟩⟩
        simp [hasPath, ha.1]
      · obtain ⟨c, rest1, rfl⟩ := List.exists_cons_of_ne_nil (hasPath_ne_nil _ _ h1)
        exact ⟨c :: rest1, (hasPath_cons_mk _ _ _ _ _ _).2 (Or.inr h1), h2⟩
      · rw [expandOut_mem_of spec wildcard ch ihch] at hr
        obtain ⟨rest, h1, h2⟩ := hr
        obtain ⟨y, rest1, rfl⟩ := List.exists_cons_of_ne_nil (hasPath_ne_nil _ _ h1)
        refine ⟨l :: y :: rest1, ?_, Or.inr ⟨l, y, rest1, _, _, v, rfl, hv, hp, h2⟩⟩
        rw [hasPath_cons_mk]
        exact Or.inl ⟨rfl, Or.inr ⟨by simp, h1⟩⟩
    · rintro ⟨rest, h1, h2⟩
      obtain ⟨c, rest1, rfl⟩ := List.exists_cons_of_ne_nil (hasPath_ne_nil _ _ h1)
      rw [hasPath_cons_mk] at h1
      rcases h1 with ⟨rfl, h1⟩ | h1
      · rcases h2 with ⟨x, w1, u1, hrest, hv, ha, rfl⟩ | ⟨x, y, rest2, w1, u1, v, hrest, hv, hp, hd⟩
        · simp only [List.cons.injEq] at hrest
          obtain ⟨rfl, rfl⟩ := hrest
          rcases h1 with ⟨_, he⟩ | ⟨hne, _⟩
          · exact Or.inl ⟨_, _, hv, (accepted_eow _ _ _ _).2 ⟨he, ha⟩, rfl⟩
          · exact absurd rfl hne
        · simp only [List.cons.injEq] at hrest
          obtain ⟨rfl, rfl⟩ := hrest
          rcases h1 with ⟨hnil, _⟩ | ⟨_, hp1⟩
          · simp at hnil
          · refine Or.inr (Or.inr ⟨_, _, v, hv, hasPath_not_null _ _ hp1, hp, ?_⟩)
            rw [expandOut_mem_of spec wildcard ch ihch]
            exact ⟨_, hp1, hd⟩
      · exact Or.inr (Or.inl ⟨_, h1, h2⟩)

/-- The words `search` produces are those derived along the paths of the
graph from the start pattern. -/
theorem searchOut_mem (g : Graph) (spec : SearchSpec) (r : QString) :
    r ∈ searchOut g spec ↔
      ∃ rest, hasPath g.top rest = true ∧
        Der spec (startWildcard spec) [] (startPattern spec) rest r := by
  unfold searchOut
  exact expandOut_mem_of spec _ g.top (sibMem_all spec _ g.top) [] _ r

/-! ## The set of a `Pattern` search -/

theorem qlt_irrefl (a : QString) : qlt a a = false := by
  induction a with
  | nil => rfl
  | cons x a ih => simp [qlt, ih]

theorem qlt_total (a b : QString) (h1 : qlt a b = false) (h2 : qlt b a = false) : a = b := by
  induction a generalizing b with
  | nil =>
    cases b with
    | nil => rfl
    | cons y b => simp [qlt] at h1
  | cons x a ih =>
    cases b with
    | nil => simp [qlt] at h2
    | cons y b =>
      simp only [qlt] at h1 h2
      by_cases hxy : x.toNat < y.toNat
      · simp [hxy] at h1
      · by_cases hyx : y.toNat < x.toNat
        · simp [hyx] at h2
        · simp only [hxy, hyx, if_false] at h1 h2
          have hc : x = y := by
            apply Char.ext
            apply UInt32.ext
            have : x.toNat = y.toNat := by omega
            exact this
          rw [hc, ih b h1 h2]

theorem mem_setInsert (r w : QString) (s : List QString) :
    r ∈ setInsert w s ↔ r = w ∨ r ∈ s := by
  induction s with
  | nil => simp [setInsert]
  | cons x s ih =>
    simp only [setInsert]
    by_cases h1 : qlt w x = true
    · simp [h1]
    · by_cases h2 : qlt x w = true
      · have h1f : qlt w x = false := by simpa using h1
        simp only [h1f, h2, if_true, Bool.false_eq_true, if_false, List.mem_cons, ih]
        tauto
      · have : w = x := qlt_total w x (by simpa using h1) (by simpa using h2)
        subst this
        simp [h1]

theorem mem_foldl_setInsert (r : QString) (outs s : List QString) :
    r ∈ outs.foldl (fun s w => setInsert w s) s ↔ r ∈ s ∨ r ∈ outs := by
  induction outs generalizing s with
  | nil => simp
  | cons w outs ih =>
    simp only [List.foldl_cons, ih, mem_setInsert, List.mem_cons]
    tauto

theorem mem_finish (spec : SearchSpec) (outs : List QString) (r : QString) :
    r ∈ finish spec outs ↔ r ∈ outs := by
  unfold finish
  split
  · simp [mem_foldl_setInsert]
  · rfl

/-- The entries of the list `search` returns are the words derived along the
paths of the graph. -/
theorem search_mem (g : Graph) (spec : SearchSpec) (r : QString) :
    r ∈ finish spec (searchOut g spec) ↔
      ∃ rest, hasPath g.top rest = true ∧
        Der spec (startWildcard spec) [] (startPattern spec) rest r := by
  rw [mem_finish, searchOut_mem]

/-! ## What every derivation has -/

theorem visit_some (spec : SearchSpec) (wildcard : Bool) (c : Char) (w u : QString) (x : Char)
    (w1 u1 : QString) (h : visit spec wildcard c w u x = some (w1, u1)) :
    x ∉ spec.excludeLetters ∧ ∃ y, (y = x ∨ y = x.toLower) ∧ w1 = w ++ [y] := by
  unfold visit at h
  by_cases hx : x ∈ spec.excludeLetters
  · simp [hx] at h
  · refine ⟨hx, ?_⟩
    simp only [hx, if_false] at h
    cases ht : spec.type <;> simp only [ht] at h
    · split at h
      · simp only [Option.some.injEq, Prod.mk.injEq] at h
        refine ⟨_, ?_, h.1.symm⟩
        split <;> simp
      · simp at h
    all_goals
      split at h
      · simp only [Option.some.injEq, Prod.mk.injEq] at h
        exact ⟨_, Or.inl rfl, h.1.symm⟩
      · split at h
        · simp only [Option.some.injEq, Prod.mk.injEq] at h
          exact ⟨_, Or.inr rfl, h.1.symm⟩
        · split at h
          · simp only [Option.some.injEq, Prod.mk.injEq] at h
            exact ⟨_, Or.inr rfl, h.1.symm⟩
          · simp at h

theorem accepted_matches (spec : SearchSpec) (e : Bool) (w1 u1 : QString)
    (h : accepted spec e w1 u1 = true) : matchesSpec (upper w1) spec = true := by
  unfold accepted at h
  cases ht : spec.type <;> simp [ht] at h <;> exact h.2

/-- Every word handed over spells its path, some letters in lower case, after
the word of the state; it is no longer than `maxLength`, passes `matchesSpec`,
and its path has no excluded letter. -/
theorem der_facts (spec : SearchSpec) (wildcard : Bool) (w u rest r : QString)
    (h : Der spec wildcard w u rest r) :
    (∃ m, r = w ++ m ∧ Marked rest m) ∧ (r.length : Int) ≤ spec.maxLength ∧
      matchesSpec (upper r) spec = true ∧ ∀ x ∈ rest, x ∉ spec.excludeLetters := by
  induction h with
  | zero _ _ _ _ ih => exact ih
  | @last w u w1 u1 x hM hv ha =>
    obtain ⟨hx, y, hy, rfl⟩ := visit_some _ _ _ _ _ _ _ _ hv
    refine ⟨⟨[y], rfl, ?_⟩, ?_, accepted_matches _ _ _ _ ha, ?_⟩
    · exact List.Forall₂.cons hy List.Forall₂.nil
    · simp only [List.length_append, List.length_singleton, Nat.cast_add, Nat.cast_one]
      omega
    · simpa using hx
  | @next w u w1 u1 v rest r x y hM hv hp hd ih =>
    obtain ⟨hx, z, hz, rfl⟩ := visit_some _ _ _ _ _ _ _ _ hv
    obtain ⟨⟨m, rfl, hm⟩, h2, h3, h4⟩ := ih
    refine ⟨⟨z :: m, by simp, List.Forall₂.cons hz hm⟩, h2, h3, ?_⟩
    intro a ha
    rcases List.mem_cons.1 ha with rfl | ha
    · exact hx
    · exact h4 a ha

/-! ## Letter case -/

theorem isUpper_bounds (c : Char) (h : c.isUpper = true) : 65 ≤ c.toNat ∧ c.toNat ≤ 90 := by
  simp only [Char.isUpper, Bool.and_eq_true, decide_eq_true_eq] at h
  have h1 : (65 : UInt32) ≤ c.val := h.1
  have h2 : c.val ≤ (90 : UInt32) := h.2
  rw [UInt32.le_def] at h1 h2
  constructor
  · exact h1
  · exact h2

theorem char_eq_ofNat (c : Char) : c = Char.ofNat c.toNat := by
  simp

theorem toUpper_of_isUpper (c : Char) (h : c.isUpper = true) : c.toUpper = c := by
  obtain ⟨h1, h2⟩ := isUpper_bounds c h
  rw [char_eq_ofNat c]
  generalize c.toNat = n at h1 h2
  interval_cases n <;> decide

theorem toUpper_toLower_of_isUpper (c : Char) (h : c.isUpper = true) :
    c.toLower.toUpper = c := by
  obtain ⟨h1, h2⟩ := isUpper_bounds c h
  rw [char_eq_ofNat c]
  generalize c.toNat = n at h1 h2
  interval_cases n <;> decide

theorem upper_of_marked (rest m : QString) (hu : ∀ x ∈ rest, x.isUpper = true)
    (h : Marked rest m) : upper m = rest := by
  unfold Marked at h
  induction h with
  | nil => rfl
  | @cons x y rest m hxy _ ih =>
    have hx : x.isUpper = true := hu x (by simp)
    have ih2 := ih (fun z hz => hu z (by simp [hz]))
    simp only [upper, List.map_cons, List.cons.injEq]
    refine ⟨?_, ih2⟩
    rcases hxy with rfl | rfl
    · exact toUpper_of_isUpper _ hx
    · exact toUpper_toLower_of_isUpper _ hx

theorem marked_length (rest m : QString) (h : Marked rest m) : m.length = rest.length :=
  (List.Forall₂.length_eq h).symm

theorem upper_length (s : QString) : (upper s).length = s.length := by
  simp [upper]

theorem matchesSpec_minLength (word : QString) (spec : SearchSpec)
    (h : matchesSpec word spec = true) : spec.minLength ≤ (word.length : Int) := by
  unfold matchesSpec at h
  by_cases h1 : (word.length : Int) < spec.minLength
  · simp [h1] at h
  · omega

/-- What holds of every entry of the list `search` returns. -/
theorem search_entry (g : Graph) (spec : SearchSpec) (r : QString)
    (h : r ∈ finish spec (searchOut g spec)) :
    ∃ rest, hasPath g.top rest = true ∧ Marked rest r ∧ (r.length : Int) ≤ spec.maxLength ∧
      matchesSpec (upper r) spec = true ∧ ∀ x ∈ rest, x ∉ spec.excludeLetters := by
  rw [search_mem] at h
  obtain ⟨rest, hp, hd⟩ := h
  obtain ⟨⟨m, hm, hmark⟩, h2, h3, h4⟩ := der_facts _ _ _ _ _ _ hd
  simp only [List.nil_append] at hm
  subst hm
  exact ⟨rest, hp, hmark, h2, h3, h4⟩

/-- In a graph built from upper-case words every entry of the result spells,
in upper case, a word of the list. -/
theorem search_entry_upper (ws : List QString) (hws : UpperWords ws) (spec : SearchSpec)
    (r : QString) (h : r ∈ finish spec (searchOut (plainBuild ws) spec)) :
    upper r ≠ [] ∧ upper r ∈ ws ∧ Marked (upper r) r ∧
      ∀ x ∈ upper r, x ∉ spec.excludeLetters := by
  obtain ⟨rest, hp, hmark, _, _, h4⟩ := search_entry _ _ _ h
  rw [hasPath_plainBuild] at hp
  have hu : upper r = rest := upper_of_marked rest r (hws rest hp.2) hmark
  rw [hu]
  exact ⟨hp.1, hp.2, hmark, h4⟩

/-! ## Words whose characters fit in a `char` -/

theorem narrow_of_le (c : Char) (h : c.toNat ≤ 255) : narrow c = c := by
  simp [narrow, h]

theorem newChain_char (w : QString) (hw : CharWord w) : newChain w = plainChain w := by
  induction w with
  | nil => rfl
  | cons c w ih =>
    have hc := narrow_of_le c (hw c (by simp))
    have ih2 := ih (fun x hx => hw x (by simp [hx]))
    cases w with
    | nil => simp [newChain, plainChain, hc]
    | cons d w => simp [newChain, plainChain, hc, ih2]

/-- For a word whose characters fit in a `char` the walk of `addWord` ends,
with the chain `plainAt` describes. -/
theorem addAt_char (n : Node) : ∀ w : QString, CharWord w → addAt n w = some (plainAt n w) := by
  induction n with
  | null =>
    intro w hw
    cases w with
    | nil => rfl
    | cons c w => simp [addAt, plainAt, newChain_char _ hw]
  | mk l e nx ch ihnx ihch =>
    intro w hw
    cases w with
    | nil => rfl
    | cons c w =>
      have hc := narrow_of_le c (hw c (by simp))
      have hw2 : CharWord w := fun x hx => hw x (by simp [hx])
      by_cases hlc : l = c
      · cases w with
        | nil => simp [addAt, plainAt, hlc]
        | cons d w => simp [addAt, plainAt, hlc, ihch (d :: w) hw2]
      · have h1 : addAt (.mk l e nx ch) (c :: w) =
            if nx.isNull then
              (if narrow c = c then some (.mk l e (newChain (c :: w)) ch) else none)
            else (addAt nx (c :: w)).map (fun nx1 => .mk l e nx1 ch) := by
          cases w <;> simp [addAt, hlc]
        have h2 : plainAt (.mk l e nx ch) (c :: w) = .mk l e (plainAt nx (c :: w)) ch := by
          cases w <;> simp [plainAt, hlc]
        rw [h1, h2]
        cases nx with
        | null => simp [Node.isNull, hc, newChain_char _ hw, plainAt]
        | mk l2 e2 nx2 ch2 =>
          simp only [Node.isNull, Bool.false_eq_true, if_false]
          rw [ihnx (c :: w) hw]
          rfl

theorem addWord_char (g : Graph) (w : QString) (hw : CharWord w) :
    addWord g w = some (plainAddWord g w) := by
  unfold addWord plainAddWord
  split
  · rfl
  · rw [addAt_char g.top w hw]
    rfl

theorem addWords_char (ws : List QString) (hws : CharWords ws) :
    ∀ g : Graph, addWords g ws = some (ws.foldl plainAddWord g) := by
  induction ws with
  | nil => intro g; rfl
  | cons w ws ih =>
    intro g
    rw [addWords, addWord_char g w (hws w (by simp)), Option.some_bind, List.foldl_cons]
    exact ih (fun v hv => hws v (by simp [hv])) _

/-- The graph built from words whose characters fit in a `char`. -/
theorem build_char (ws : List QString) (hws : CharWords ws) : build ws = plainBuild ws := by
  unfold build plainBuild
  rw [addWords_char ws hws]
  rfl

/-- Every call of `addWord` returns on words whose characters fit in a
`char`, and `build` is the graph they leave. -/
theorem addWords_build (ws : List QString) (hws : CharWords ws) :
    addWords Graph.empty ws = some (build ws) := by
  rw [build_char ws hws, addWords_char ws hws]
  rfl

theorem charWords_of_upper (ws : List QString) (hws : UpperWords ws) : CharWords ws := by
  intro w hw c hc
  have := (isUpper_bounds c (hws w hw c hc)).2
  omega

/-- The graph built from upper-case words. -/
theorem build_upper (ws : List QString) (hws : UpperWords ws) : build ws = plainBuild ws :=
  build_char ws (charWords_of_upper ws hws)

/-! ## Claims -/

/-- C1, as stated, fails for a word with a character that does not fit in a
`char`: `addWord` of the one-letter word `Ω` (U+03A9) on the empty graph
returns, with a node that holds the character 0, and `containsWord` then does
not find the word. -/
theorem C1_counterexample :
    ∃ g, addWords Graph.empty [['Ω']] = some g ∧
      ¬ (containsWord g ['Ω'] = true ↔
        (['Ω'] : QString) ≠ [] ∧ (['Ω'] : QString) ∈ [(['Ω'] : QString)]) :=
  ⟨_, rfl, by decide⟩

/-- C1, amended. Membership round trip for words whose characters fit in a
`char` (none above U+00FF): every call of `addWord` on the words of `ws` in
order, from the empty graph, returns, and in the graph they leave
`containsWord v` is true if and only if `v` is non-empty and occurs in
`ws`. -/
theorem C1_membership_round_trip (ws : List QString) (hws : CharWords ws) (v : QString) :
    ∃ g, addWords Graph.empty ws = some g ∧ build ws = g ∧
      (containsWord g v = true ↔ v ≠ [] ∧ v ∈ ws) := by
  refine ⟨build ws, addWords_build ws hws, rfl, ?_⟩
  rw [build_char ws hws]
  exact containsWord_plainBuild ws v

theorem C1_membership_round_trip_witness :
    CharWords [['C', 'A', 'T'], [], ['é'], ['C', 'A']] ∧
      ∃ g, addWords Graph.empty [['C', 'A', 'T'], [], ['é'], ['C', 'A']] = some g ∧
        build [['C', 'A', 'T'], [], ['é'], ['C', 'A']] = g ∧
        (containsWord g ['C', 'A'] = true ↔
          (['C', 'A'] : QString) ≠ [] ∧
            (['C', 'A'] : QString) ∈ [['C', 'A', 'T'], [], ['é'], ['C', 'A']]) :=
  ⟨by simp [CharWords, CharWord],
    C1_membership_round_trip [['C', 'A', 'T'], [], ['é'], ['C', 'A']]
      (by simp [CharWords, CharWord]) ['C', 'A']⟩

/-- C6. Search soundness: over a graph built from upper-case words, for a
query of any kind with any constraints, `search` returns a list and every
entry of it, once upper-cased, is a word for which `containsWord` is true. -/
theorem C6_search_sound (ws : List QString) (spec : SearchSpec) (hws : UpperWords ws) :
    ∃ res, search (build ws) spec = some res ∧
      ∀ r ∈ res, containsWord (build ws) (upper r) = true := by
  rw [build_upper ws hws]
  refine ⟨_, search_eq _ _, ?_⟩
  intro r hr
  obtain ⟨h1, h2, _, _⟩ := search_entry_upper ws hws spec r hr
  exact (containsWord_plainBuild ws _).2 ⟨h1, h2⟩

/-- C6 at a `Subanagram` query with a blank over the graph built from `CAT`
and `AT`. -/
theorem C6_search_sound_witness :
    UpperWords [['C', 'A', 'T'], ['A', 'T']] ∧
      ∃ res, search (build [['C', 'A', 'T'], ['A', 'T']])
          ⟨.Subanagram, ['T', 'A', '?'], 0, 5, [], [], [], 0⟩ = some res ∧
        ∀ r ∈ res, containsWord (build [['C', 'A', 'T'], ['A', 'T']]) (upper r) = true :=
  ⟨by simp [UpperWords], C6_search_sound _ _ (by simp [UpperWords])⟩

/-- C9. Exclude-letters pruning: over a graph built from upper-case words,
for a query of any kind, `search` returns a list and no entry of it contains,
after upper-casing, a character of `excludeLetters`. -/
theorem C9_exclude_letters (ws : List QString) (spec : SearchSpec) (hws : UpperWords ws) :
    ∃ res, search (build ws) spec = some res ∧
      ∀ r ∈ res, ∀ c ∈ upper r, c ∉ spec.excludeLetters := by
  rw [build_upper ws hws]
  refine ⟨_, search_eq _ _, ?_⟩
  intro r hr
  exact (search_entry_upper ws hws spec r hr).2.2.2

/-- C9 at the `Pattern` query `*T` excluding `C` over the graph built from
`CAT` and `AT`. -/
theorem C9_exclude_letters_witness :
    UpperWords [['C', 'A', 'T'], ['A', 'T']] ∧
      ∃ res, search (build [['C', 'A', 'T'], ['A', 'T']])
          ⟨.Pattern, ['*', 'T'], 0, 5, [], ['C'], [], 0⟩ = some res ∧
        ∀ r ∈ res, ∀ c ∈ upper r, c ∉ ['C'] :=
  ⟨by simp [UpperWords], C9_exclude_letters _ _ (by simp [UpperWords])⟩

/-- C10. Length bounds: for every graph and every query of any kind, `search`
returns a list and every entry `r` of it has `minLength ≤ |r| ≤ maxLength`; so
the list is empty when `maxLength ≤ 0` or `minLength > maxLength`. -/
theorem C10_length_bounds (g : Graph) (spec : SearchSpec) :
    ∃ res, search g spec = some res ∧
      (∀ r ∈ res, spec.minLength ≤ (r.length : Int) ∧ (r.length : Int) ≤ spec.maxLength) ∧
      (spec.maxLength ≤ 0 ∨ spec.maxLength < spec.minLength → res = []) := by
  refine ⟨_, search_eq _ _, ?_⟩
  have key : ∀ r ∈ finish spec (searchOut g spec),
      spec.minLength ≤ (r.length : Int) ∧ (r.length : Int) ≤ spec.maxLength ∧ 1 ≤ r.length := by
    intro r hr
    obtain ⟨rest, hp, hm, h2, h3, _⟩ := search_entry _ _ _ hr
    have h4 := matchesSpec_minLength _ _ h3
    rw [upper_length] at h4
    have h5 := marked_length _ _ hm
    have h6 : rest ≠ [] := hasPath_ne_nil _ _ hp
    have h7 : 1 ≤ rest.length := by
      cases rest with
      | nil => exact absurd rfl h6
      | cons x rest => simp
    exact ⟨h4, h2, by omega⟩
  refine ⟨fun r hr => ⟨(key r hr).1, (key r hr).2.1⟩, ?_⟩
  intro h
  cases hres : finish spec (searchOut g spec) with
  | nil => rfl
  | cons r res =>
    have := key r (by simp [hres])
    omega

/-! ## `Pattern` searches -/

theorem matchesSpec_plain (word : QString) (spec : SearchSpec)
    (h1 : spec.minLength ≤ (word.length : Int)) (h2 : spec.includeLetters = [])
    (h3 : spec.consistPercent ≤ 0) : matchesSpec word spec = true := by
  unfold matchesSpec
  have h4 : ¬ ((word.length : Int) < spec.minLength) := by omega
  have h5 : ¬ (spec.consistPercent > 0) := by omega
  simp [h4, h2, includeLoop, h5]

theorem visit_pattern (spec : SearchSpec) (wildcard : Bool) (c : Char) (w u : QString)
    (x : Char) (ht : spec.type = .Pattern) :
    visit spec wildcard c w u x =
      if x ∈ spec.excludeLetters then none
      else if c = x ∨ c = '*' ∨ c = '?' then
        some (w ++ [if c = x then x else x.toLower], u)
      else none := by
  unfold visit
  simp only [ht]

theorem pushed_pattern (spec : SearchSpec) (wildcard : Bool) (c : Char) (u : QString)
    (ht : spec.type = .Pattern) :
    pushed spec wildcard c u = u.tail :: (if c = '*' then [u] else []) := by
  unfold pushed
  simp only [ht, right_pred]

theorem accepted_pattern (spec : SearchSpec) (e : Bool) (w u : QString)
    (ht : spec.type = .Pattern) :
    accepted spec e w u =
      (e && (u.length == 1 || (u.length == 2 && qat u 1 == '*')) &&
        matchesSpec (upper w) spec) := by
  unfold accepted
  simp only [ht]

theorem headChar_pattern (spec : SearchSpec) (u : QString) (ht : spec.type = .Pattern) :
    headChar spec u = qat u 0 := by
  simp [headChar, ht]

theorem qat_zero_cons (a : Char) (u : QString) : qat (a :: u) 0 = a := by
  simp [qat]

theorem qat_zero_nil : qat [] 0 = qnull := by
  simp [qat]

theorem isUpper_ne_qnull (x : Char) (h : x.isUpper = true) : x ≠ qnull := by
  intro hx
  subst hx
  simp [qnull, Char.isUpper] at h

theorem globMatch_star (ps w : QString) :
    globMatch ('*' :: ps) w = true ↔ ∃ t, t <:+ w ∧ globMatch ps t = true := by
  simp [globMatch, List.any_eq_true, List.mem_tails]

theorem globMatch_cons_cons (p : Char) (ps : QString) (x : Char) (t : QString) (hp : p ≠ '*') :
    globMatch (p :: ps) (x :: t) = true ↔ (p = '?' ∨ p = x) ∧ globMatch ps t = true := by
  simp [globMatch, hp]

theorem globMatch_cons_nil (p : Char) (ps : QString) (hp : p ≠ '*') :
    globMatch (p :: ps) [] = false := by
  simp [globMatch, hp]

theorem globMatch_nil_right (u : QString) :
    globMatch u [] = true ↔ ∀ c ∈ u, c = '*' := by
  induction u with
  | nil => simp [globMatch]
  | cons c u ih =>
    by_cases hc : c = '*'
    · subst hc
      rw [globMatch_star]
      simp [ih]
    · simp [globMatch_cons_nil c u hc, hc]

theorem visit_pattern_some (spec : SearchSpec) (wildcard : Bool) (c : Char) (w u : QString)
    (x : Char) (w1 u1 : QString) (ht : spec.type = .Pattern)
    (h : visit spec wildcard c w u x = some (w1, u1)) :
    (c = x ∨ c = '*' ∨ c = '?') ∧ w1 = w ++ [if c = x then x else x.toLower] ∧ u1 = u := by
  rw [visit_pattern _ _ _ _ _ _ ht] at h
  split at h
  · simp at h
  · split at h
    · simp only [Option.some.injEq, Prod.mk.injEq] at h
      exact ⟨by assumption, h.1.symm, h.2.symm⟩
    · simp at h

theorem qat_zero_eq (u : QString) (c : Char) (hc : c ≠ qnull) (h : qat u 0 = c) :
    ∃ u1, u = c :: u1 := by
  cases u with
  | nil => exact absurd h.symm hc
  | cons a u1 =>
    rw [qat_zero_cons] at h
    exact ⟨u1, by rw [h]⟩

/-- The head of the pattern of a state at which a node with an upper-case
letter is not skipped. -/
theorem pattern_head (u : QString) (x : Char) (hx : x.isUpper = true)
    (h : qat u 0 = x ∨ qat u 0 = '*' ∨ qat u 0 = '?') :
    ∃ c u1, u = c :: u1 ∧ (c = x ∨ c = '*' ∨ c = '?') := by
  cases u with
  | nil =>
    rw [qat_zero_nil] at h
    rcases h with h | h | h
    · exact absurd h.symm (isUpper_ne_qnull x hx)
    · exact absurd h (by decide)
    · exact absurd h (by decide)
  | cons a u1 =>
    rw [qat_zero_cons] at h
    exact ⟨a, u1, rfl, h⟩

/-- A word handed over by a `Pattern` search matches the pattern of the state
as a glob. -/
theorem der_globMatch (spec : SearchSpec) (wildcard : Bool) (ht : spec.type = .Pattern)
    (w u rest r : QString) (h : Der spec wildcard w u rest r)
    (hu : ∀ x ∈ rest, x.isUpper = true) : globMatch u rest = true := by
  induction h with
  | @zero w u rest r hM _ hc hd ih =>
    rw [headChar_pattern _ _ ht] at hc
    obtain ⟨u1, rfl⟩ := qat_zero_eq u '*' (by decide) hc
    rw [globMatch_star]
    exact ⟨rest, List.suffix_refl _, ih hu⟩
  | @last w u w1 u1 x hM hv ha =>
    obtain ⟨hc, _, rfl⟩ := visit_pattern_some _ _ _ _ _ _ _ _ ht hv
    rw [headChar_pattern _ _ ht] at hc
    rw [accepted_pattern _ _ _ _ ht] at ha
    simp only [Bool.true_and, Bool.and_eq_true, Bool.or_eq_true, beq_iff_eq] at ha
    obtain ⟨c, u2, rfl, hc2⟩ := pattern_head u1 x (hu x (by simp)) hc
    have hlen := ha.1
    by_cases hs : c = '*'
    · subst hs
      rw [globMatch_star]
      refine ⟨[], by simp, ?_⟩
      rw [globMatch_nil_right]
      rcases hlen with hlen | ⟨hlen, hq⟩
      · have : u2 = [] := by
          cases u2 with
          | nil => rfl
          | cons a u3 => simp at hlen
        simp [this]
      · cases u2 with
        | nil => simp at hlen
        | cons a u3 =>
          have h3 : u3 = [] := by
            cases u3 with
            | nil => rfl
            | cons b u4 => simp at hlen
          subst h3
          simp only [qat, List.getD_cons_succ, List.getD_cons_zero] at hq
          simp [hq]
    · rw [globMatch_cons_cons _ _ _ _ hs, globMatch_nil_right]
      refine ⟨?_, ?_⟩
      · rcases hc2 with h | h | h
        · exact Or.inr h
        · exact absurd h hs
        · exact Or.inl h
      · rcases hlen with hlen | ⟨hlen, hq⟩
        · have : u2 = [] := by
            cases u2 with
            | nil => rfl
            | cons a u3 => simp at hlen
          simp [this]
        · cases u2 with
          | nil => simp at hlen
          | cons a u3 =>
            have h3 : u3 = [] := by
              cases u3 with
              | nil => rfl
              | cons b u4 => simp at hlen
            subst h3
            simp only [qat, List.getD_cons_succ, List.getD_cons_zero] at hq
            simp [hq]
  | @next w u w1 u1 v rest r x y hM hv hp hd ih =>
    obtain ⟨hc, _, rfl⟩ := visit_pattern_some _ _ _ _ _ _ _ _ ht hv
    rw [headChar_pattern _ _ ht] at hc hp
    rw [pushed_pattern _ _ _ _ ht] at hp
    obtain ⟨c, u2, rfl, hc2⟩ := pattern_head u1 x (hu x (by simp)) hc
    have ih2 := ih (fun z hz => hu z (by simp [hz]))
    rw [qat_zero_cons] at hp
    simp only [List.tail_cons, List.mem_cons] at hp
    by_cases hs : c = '*'
    · subst hs
      rw [globMatch_star]
      simp only [if_true, List.mem_singleton, List.not_mem_nil, or_false] at hp
      rcases hp with rfl | rfl
      · exact ⟨y :: rest, List.suffix_cons _ _, ih2⟩
      · rw [globMatch_star] at ih2
        obtain ⟨t, ht1, ht2⟩ := ih2
        exact ⟨t, ht1.trans (List.suffix_cons _ _), ht2⟩
    · simp only [hs, if_false, List.not_mem_nil, or_false] at hp
      subst hp
      rw [globMatch_cons_cons _ _ _ _ hs]
      refine ⟨?_, ih2⟩
      rcases hc2 with h | h | h
      · exact Or.inr h
      · exact absurd h hs
      · exact Or.inl h

theorem visit_pattern_ok (spec : SearchSpec) (wildcard : Bool) (c : Char) (w u : QString)
    (x : Char) (ht : spec.type = .Pattern) (hx : spec.excludeLetters = [])
    (hc : c = x ∨ c = '*' ∨ c = '?') :
    visit spec wildcard c w u x = some (w ++ [if c = x then x else x.toLower], u) := by
  rw [visit_pattern _ _ _ _ _ _ ht]
  simp [hx, hc]

theorem noAdjStars_tail (c : Char) (u : QString) (h : NoAdjStars (c :: u)) : NoAdjStars u :=
  List.Chain'.tail h

theorem noAdjStars_stars (u : QString) (h : NoAdjStars u) (hs : ∀ c ∈ u, c = '*') :
    u = [] ∨ u = ['*'] := by
  cases u with
  | nil => exact Or.inl rfl
  | cons a u1 =>
    right
    have ha : a = '*' := hs a (by simp)
    subst ha
    cases u1 with
    | nil => rfl
    | cons b u2 =>
      have hb : b = '*' := hs b (by simp)
      subst hb
      unfold NoAdjStars at h
      rw [List.chain'_cons] at h
      exact absurd ⟨rfl, rfl⟩ h.1

theorem noAdjStars_star_stars (u : QString) (h : NoAdjStars ('*' :: u))
    (hs : ∀ c ∈ u, c = '*') : u = [] := by
  cases u with
  | nil => rfl
  | cons b u2 =>
    have hb : b = '*' := hs b (by simp)
    subst hb
    unfold NoAdjStars at h
    rw [List.chain'_cons] at h
    exact absurd ⟨rfl, rfl⟩ h.1

/-- A `Pattern` search with no constraint but the lengths hands over a word
for every path that matches the pattern of the state as a glob. -/
theorem globMatch_der (spec : SearchSpec) (wildcard : Bool) (ht : spec.type = .Pattern)
    (hx : spec.excludeLetters = []) (hi : spec.includeLetters = [])
    (hcp : spec.consistPercent ≤ 0) (rest : QString) :
    ∀ (u w : QString), NoAdjStars u → rest ≠ [] →
      ((w.length + rest.length : Nat) : Int) ≤ spec.maxLength →
      spec.minLength ≤ ((w.length + rest.length : Nat) : Int) →
      globMatch u rest = true → ∃ r, Der spec wildcard w u rest r := by
  induction rest with
  | nil => intro u w _ h; exact absurd rfl h
  | cons x rest ih =>
    intro u
    induction u with
    | nil =>
      intro w _ _ _ _ hg
      simp [globMatch] at hg
    | cons c u ihu =>
      intro w hna _ hM hmin hg
      have hM1 : (w.length : Int) < spec.maxLength := by
        simp only [List.length_cons] at hM
        omega
      have hch : headChar spec (c :: u) = c := by
        rw [headChar_pattern _ _ ht, qat_zero_cons]
      have hlen : (w ++ [if c = x then x else x.toLower]).length = w.length + 1 := by simp
      by_cases hs : c = '*'
      · subst hs
        rw [globMatch_star] at hg
        obtain ⟨t, ht1, ht2⟩ := hg
        rw [List.suffix_cons_iff] at ht1
        have hv := visit_pattern_ok spec wildcard '*' w ('*' :: u) x ht hx (Or.inr (Or.inl rfl))
        rcases ht1 with rfl | ht1
        · obtain ⟨r, hr⟩ := ihu w (noAdjStars_tail _ _ hna) (by simp) hM hmin ht2
          exact ⟨r, Der.zero hM1 ht hch hr⟩
        · cases rest with
          | nil =>
            have ht0 : t = [] := List.eq_nil_of_suffix_nil ht1
            subst ht0
            rw [globMatch_nil_right] at ht2
            have hu0 := noAdjStars_star_stars u hna ht2
            subst hu0
            refine ⟨_, Der.last hM1 (by rw [hch]; exact hv) ?_⟩
            rw [accepted_pattern _ _ _ _ ht]
            simp only [List.length_singleton, beq_self_eq_true, Bool.true_or, Bool.true_and]
            apply matchesSpec_plain _ _ _ hi hcp
            rw [upper_length, hlen]
            simpa using hmin
          | cons y rest =>
            have hg2 : globMatch ('*' :: u) (y :: rest) = true :=
              (globMatch_star _ _).2 ⟨t, ht1, ht2⟩
            obtain ⟨r, hr⟩ := ih ('*' :: u) (w ++ [if '*' = x then x else x.toLower]) hna
              (by simp) (by rw [hlen]; simp only [List.length_cons] at hM ⊢; omega)
              (by rw [hlen]; simp only [List.length_cons] at hmin ⊢; omega) hg2
            refine ⟨r, Der.next hM1 (by rw [hch]; exact hv) ?_ hr⟩
            rw [pushed_pattern _ _ _ _ ht, hch]
            simp
      · cases rest with
        | nil =>
          rw [globMatch_cons_cons _ _ _ _ hs, globMatch_nil_right] at hg
          have hv := visit_pattern_ok spec wildcard c w (c :: u) x ht hx
            (by rcases hg.1 with h | h
                · exact Or.inr (Or.inr h)
                · exact Or.inl h)
          refine ⟨_, Der.last hM1 (by rw [hch]; exact hv) ?_⟩
          rw [accepted_pattern _ _ _ _ ht]
          have hm : matchesSpec (upper (w ++ [if c = x then x else x.toLower])) spec = true := by
            apply matchesSpec_plain _ _ _ hi hcp
            rw [upper_length, hlen]
            simpa using hmin
          rcases noAdjStars_stars u (noAdjStars_tail _ _ hna) hg.2 with rfl | rfl
          · simp [hm]
          · simp [hm, qat]
        | cons y rest =>
          rw [globMatch_cons_cons _ _ _ _ hs] at hg
          have hv := visit_pattern_ok spec wildcard c w (c :: u) x ht hx
            (by rcases hg.1 with h | h
                · exact Or.inr (Or.inr h)
                · exact Or.inl h)
          obtain ⟨r, hr⟩ := ih u (w ++ [if c = x then x else x.toLower])
            (noAdjStars_tail _ _ hna) (by simp)
            (by rw [hlen]; simp only [List.length_cons] at hM ⊢; omega)
            (by rw [hlen]; simp only [List.length_cons] at hmin ⊢; omega) hg.2
          refine ⟨r, Der.next hM1 (by rw [hch]; exact hv) ?_ hr⟩
          rw [pushed_pattern _ _ _ _ ht, hch]
          simp

theorem collapseStars_head (c : Char) (rest : QString) :
    ∃ t, collapseStars (c :: rest) = c :: t := by
  induction rest generalizing c with
  | nil => exact ⟨[], rfl⟩
  | cons d rest ih =>
    by_cases h : c = '*' ∧ d = '*'
    · obtain ⟨hc, hd⟩ := h
      subst hc
      subst hd
      simp only [collapseStars, and_self, if_true]
      exact ih '*'
    · simp [collapseStars, h]

theorem collapseStars_noAdj (p : QString) : NoAdjStars (collapseStars p) := by
  unfold NoAdjStars
  induction p with
  | nil => simp [collapseStars]
  | cons c rest ih =>
    cases rest with
    | nil => simp [collapseStars]
    | cons d rest1 =>
      by_cases h : c = '*' ∧ d = '*'
      · simpa [collapseStars, h] using ih
      · obtain ⟨t, ht⟩ := collapseStars_head d rest1
        simp only [collapseStars, h, if_false]
        rw [ht] at ih ⊢
        rw [List.chain'_cons]
        exact ⟨h, ih⟩

theorem globMatch_star_star (ps w : QString) :
    globMatch ('*' :: '*' :: ps) w = globMatch ('*' :: ps) w := by
  rw [Bool.eq_iff_iff, globMatch_star, globMatch_star]
  constructor
  · rintro ⟨t, h1, h2⟩
    rw [globMatch_star] at h2
    obtain ⟨t2, h3, h4⟩ := h2
    exact ⟨t2, h3.trans h1, h4⟩
  · rintro ⟨t, h1, h2⟩
    exact ⟨t, h1, (globMatch_star _ _).2 ⟨t, List.suffix_refl _, h2⟩⟩

theorem globMatch_congr_tail (c : Char) (ps qs : QString)
    (h : ∀ w, globMatch ps w = globMatch qs w) (w : QString) :
    globMatch (c :: ps) w = globMatch (c :: qs) w := by
  by_cases hc : c = '*'
  · subst hc
    rw [Bool.eq_iff_iff, globMatch_star, globMatch_star]
    simp only [h]
  · cases w with
    | nil => simp [globMatch, hc]
    | cons x t => simp [globMatch, hc, h]

theorem globMatch_collapseStars (p : QString) :
    ∀ w, globMatch (collapseStars p) w = globMatch p w := by
  induction p with
  | nil => intro w; rfl
  | cons c rest ih =>
    intro w
    cases rest with
    | nil => rfl
    | cons d rest1 =>
      by_cases h : c = '*' ∧ d = '*'
      · obtain ⟨hc, hd⟩ := h
        subst hc
        subst hd
        simp only [collapseStars, and_self, if_true]
        rw [ih w, globMatch_star_star]
      · simp only [collapseStars, h, if_false]
        exact globMatch_congr_tail _ _ _ ih w

theorem startPattern_pattern (spec : SearchSpec) (ht : spec.type = .Pattern) :
    startPattern spec = if spec.pattern = [] then ['*'] else collapseStars spec.pattern := by
  unfold startPattern
  simp only [ht]
  cases spec.pattern <;> simp

theorem startPattern_noAdj (spec : SearchSpec) (ht : spec.type = .Pattern) :
    NoAdjStars (startPattern spec) := by
  rw [startPattern_pattern _ ht]
  split
  · simp [NoAdjStars]
  · exact collapseStars_noAdj _

theorem startPattern_glob (spec : SearchSpec) (ht : spec.type = .Pattern) (w : QString) :
    globMatch (startPattern spec) w =
      globMatch (if spec.pattern = [] then ['*'] else spec.pattern) w := by
  rw [startPattern_pattern _ ht]
  split
  · rfl
  · exact globMatch_collapseStars _ w

/-- The entries of an unconstrained `Pattern` search over upper-case words
are, up to letter case, the stored words within `maxLength` that match the
start pattern as a glob. -/
theorem pattern_search_upper (ws : List QString) (spec : SearchSpec) (hws : UpperWords ws)
    (ht : spec.type = .Pattern) (hp : Plain spec) (w : QString) :
    (∃ r ∈ finish spec (searchOut (plainBuild ws) spec), upper r = w) ↔
      w ∈ ws ∧ 1 ≤ w.length ∧ (w.length : Int) ≤ spec.maxLength ∧
        globMatch (if spec.pattern = [] then ['*'] else spec.pattern) w = true := by
  obtain ⟨hmin, hi, hx, hcp⟩ := hp
  rw [← startPattern_glob _ ht]
  constructor
  · rintro ⟨r, hr, rfl⟩
    rw [search_mem] at hr
    obtain ⟨rest, hpath, hd⟩ := hr
    rw [hasPath_plainBuild] at hpath
    obtain ⟨⟨m, hm, hmark⟩, h2, _, _⟩ := der_facts _ _ _ _ _ _ hd
    simp only [List.nil_append] at hm
    subst hm
    have hu : upper r = rest := upper_of_marked rest r (hws rest hpath.2) hmark
    rw [hu]
    have hlen := marked_length _ _ hmark
    refine ⟨hpath.2, ?_, by rw [← hlen]; exact h2, der_globMatch _ _ ht _ _ _ _ hd (hws rest hpath.2)⟩
    cases rest with
    | nil => exact absurd rfl hpath.1
    | cons x rest => simp
  · rintro ⟨hw, h1, h2, h3⟩
    have hne : w ≠ [] := by
      intro h
      subst h
      simp at h1
    obtain ⟨r, hr⟩ := globMatch_der spec (startWildcard spec) ht hx hi (by omega) w
      (startPattern spec) [] (startPattern_noAdj _ ht) hne (by simpa using h2)
      (by simp only [List.length_nil, Nat.zero_add]; omega) h3
    refine ⟨r, ?_, ?_⟩
    · rw [search_mem]
      exact ⟨w, (hasPath_plainBuild ws w).2 ⟨hne, hw⟩, hr⟩
    · obtain ⟨⟨m, hm, hmark⟩, _, _, _⟩ := der_facts _ _ _ _ _ _ hr
      simp only [List.nil_append] at hm
      subst hm
      exact upper_of_marked w r (hws w hw) hmark

/-! ## Star-free patterns -/

/-- A word handed over by a `Pattern` search from a star-free pattern has the
length of the pattern, agrees with it at its letters, and is written with
`mark`. -/
theorem der_starfree (spec : SearchSpec) (wildcard : Bool) (ht : spec.type = .Pattern)
    (w u rest r : QString) (h : Der spec wildcard w u rest r)
    (hu : ∀ x ∈ rest, x.isUpper = true) (hs : ∀ c ∈ u, c ≠ '*') :
    List.Forall₂ (fun c x => c = x ∨ c = '?') u rest ∧ r = w ++ List.zipWith mark u rest := by
  induction h with
  | @zero w u rest r hM _ hc hd ih =>
    rw [headChar_pattern _ _ ht] at hc
    obtain ⟨u1, rfl⟩ := qat_zero_eq u '*' (by decide) hc
    exact absurd rfl (hs '*' (by simp))
  | @last w u w1 u1 x hM hv ha =>
    obtain ⟨hc, rfl, rfl⟩ := visit_pattern_some _ _ _ _ _ _ _ _ ht hv
    rw [headChar_pattern _ _ ht] at hc ⊢
    rw [accepted_pattern _ _ _ _ ht] at ha
    simp only [Bool.true_and, Bool.and_eq_true, Bool.or_eq_true, beq_iff_eq] at ha
    obtain ⟨c, u2, rfl, hc2⟩ := pattern_head u1 x (hu x (by simp)) hc
    have hcs : c ≠ '*' := hs c (by simp)
    have hu2 : u2 = [] := by
      rcases ha.1 with hlen | ⟨hlen, hq⟩
      · cases u2 with
        | nil => rfl
        | cons a u3 => simp at hlen
      · cases u2 with
        | nil => simp at hlen
        | cons a u3 =>
          simp only [qat, List.getD_cons_succ, List.getD_cons_zero] at hq
          exact absurd hq (hs a (by simp))
    subst hu2
    rw [qat_zero_cons]
    refine ⟨List.Forall₂.cons ?_ List.Forall₂.nil, by simp [mark]⟩
    rcases hc2 with h | h | h
    · exact Or.inl h
    · exact absurd h hcs
    · exact Or.inr h
  | @next w u w1 u1 v rest r x y hM hv hp hd ih =>
    obtain ⟨hc, rfl, rfl⟩ := visit_pattern_some _ _ _ _ _ _ _ _ ht hv
    rw [headChar_pattern _ _ ht] at hc hp
    rw [pushed_pattern _ _ _ _ ht] at hp
    obtain ⟨c, u2, rfl, hc2⟩ := pattern_head u1 x (hu x (by simp)) hc
    have hcs : c ≠ '*' := hs c (by simp)
    rw [qat_zero_cons] at hp
    simp only [List.tail_cons, hcs, if_false, List.mem_singleton] at hp
    subst hp
    obtain ⟨ih1, ih2⟩ := ih (fun z hz => hu z (by simp [hz])) (fun z hz => hs z (by simp [hz]))
    rw [headChar_pattern _ _ ht, qat_zero_cons] at ih2
    refine ⟨List.Forall₂.cons ?_ ih1, ?_⟩
    · rcases hc2 with h | h | h
      · exact Or.inl h
      · exact absurd h hcs
      · exact Or.inr h
    · rw [ih2]
      simp [mark]

/-- A `Pattern` search with no constraint but the lengths hands over the
`mark`ed word of every path that agrees with the pattern at its letters. -/
theorem starfree_der (spec : SearchSpec) (wildcard : Bool) (ht : spec.type = .Pattern)
    (hx : spec.excludeLetters = []) (hi : spec.includeLetters = [])
    (hcp : spec.consistPercent ≤ 0) (rest : QString) :
    ∀ (u w : QString), rest ≠ [] →
      ((w.length + rest.length : Nat) : Int) ≤ spec.maxLength →
      spec.minLength ≤ ((w.length + rest.length : Nat) : Int) →
      List.Forall₂ (fun c x => c = x ∨ c = '?') u rest →
      Der spec wildcard w u rest (w ++ List.zipWith mark u rest) := by
  induction rest with
  | nil => intro u w h; exact absurd rfl h
  | cons x rest ih =>
    intro u w _ hM hmin hf
    cases hf with
    | @cons c _ u2 _ hcx hf2 =>
      have hM1 : (w.length : Int) < spec.maxLength := by
        simp only [List.length_cons] at hM
        omega
      have hch : headChar spec (c :: u2) = c := by
        rw [headChar_pattern _ _ ht, qat_zero_cons]
      have hv : visit spec wildcard (headChar spec (c :: u2)) w (c :: u2) x =
          some (w ++ [mark c x], c :: u2) := by
        rw [hch]
        exact visit_pattern_ok spec wildcard c w (c :: u2) x ht hx
          (by rcases hcx with h | h
              · exact Or.inl h
              · exact Or.inr (Or.inr h))
      have hlen : (w ++ [mark c x]).length = w.length + 1 := by simp
      cases rest with
      | nil =>
        cases hf2
        simp only [List.zipWith_cons_cons, List.zipWith_nil_right]
        refine Der.last hM1 hv ?_
        rw [accepted_pattern _ _ _ _ ht]
        simp only [List.length_singleton, beq_self_eq_true, Bool.true_or, Bool.true_and]
        apply matchesSpec_plain _ _ _ hi hcp
        rw [upper_length, hlen]
        simpa using hmin
      | cons y rest =>
        have := ih u2 (w ++ [mark c x]) (by simp)
          (by rw [hlen]; simp only [List.length_cons] at hM ⊢; omega)
          (by rw [hlen]; simp only [List.length_cons] at hmin ⊢; omega) hf2
        simp only [List.zipWith_cons_cons]
        rw [List.append_assoc] at this
        refine Der.next hM1 hv ?_ this
        rw [pushed_pattern _ _ _ _ ht, hch]
        simp

theorem collapseStars_starfree (p : QString) (hs : ∀ c ∈ p, c ≠ '*') : collapseStars p = p := by
  induction p with
  | nil => rfl
  | cons c rest ih =>
    cases rest with
    | nil => rfl
    | cons d rest1 =>
      have hc : c ≠ '*' := hs c (by simp)
      have := ih (fun z hz => hs z (by simp [hz]))
      simp [collapseStars, hc, this]

theorem startPattern_starfree (spec : SearchSpec) (ht : spec.type = .Pattern)
    (hne : spec.pattern ≠ []) (hs : ∀ c ∈ spec.pattern, c ≠ '*') :
    startPattern spec = spec.pattern := by
  rw [startPattern_pattern _ ht]
  simp [hne, collapseStars_starfree _ hs]

/-- The entries of a `Pattern` search from a non-empty star-free pattern,
with no constraint but the lengths, over upper-case words. -/
theorem starfree_search_mem (ws : List QString) (spec : SearchSpec) (hws : UpperWords ws)
    (ht : spec.type = .Pattern) (hx : spec.excludeLetters = []) (hi : spec.includeLetters = [])
    (hcp : spec.consistPercent ≤ 0) (hne : spec.pattern ≠ [])
    (hs : ∀ c ∈ spec.pattern, c ≠ '*') (r : QString) :
    r ∈ finish spec (searchOut (plainBuild ws) spec) ↔
      ∃ rest, rest ∈ ws ∧ (rest.length : Int) ≤ spec.maxLength ∧
        spec.minLength ≤ (rest.length : Int) ∧
        List.Forall₂ (fun c x => c = x ∨ c = '?') spec.pattern rest ∧
        r = List.zipWith mark spec.pattern rest := by
  rw [search_mem, startPattern_starfree _ ht hne hs]
  constructor
  · rintro ⟨rest, hpath, hd⟩
    rw [hasPath_plainBuild] at hpath
    obtain ⟨⟨m, hm, hmark⟩, h2, h3, _⟩ := der_facts _ _ _ _ _ _ hd
    simp only [List.nil_append] at hm
    subst hm
    have hlen := marked_length _ _ hmark
    have h4 := matchesSpec_minLength _ _ h3
    rw [upper_length] at h4
    obtain ⟨h5, h6⟩ := der_starfree _ _ ht _ _ _ _ hd (hws rest hpath.2) hs
    exact ⟨rest, hpath.2, by rw [← hlen]; exact h2, by rw [← hlen]; exact h4, h5,
      by simpa using h6⟩
  · rintro ⟨rest, hw, hM, hmin, hf, rfl⟩
    have hne2 : rest ≠ [] := by
      intro h
      subst h
      exact hne (List.forall₂_nil_right_iff.1 hf)
    refine ⟨rest, (hasPath_plainBuild ws rest).2 ⟨hne2, hw⟩, ?_⟩
    have := starfree_der spec (startWildcard spec) ht hx hi hcp rest spec.pattern [] hne2
      (by simpa using hM) (by simpa using hmin) hf
    simpa using this

theorem isUpper_ne_question (x : Char) (h : x.isUpper = true) : x ≠ '?' := by
  intro hx
  subst hx
  simp [Char.isUpper] at h

theorem fills_of_zipWith (p rest : QString) (hu : ∀ x ∈ rest, x.isUpper = true)
    (hf : List.Forall₂ (fun c x => c = x ∨ c = '?') p rest) :
    Fills p (List.zipWith mark p rest) ∧ upper (List.zipWith mark p rest) = rest := by
  unfold Fills
  induction hf with
  | nil => exact ⟨List.Forall₂.nil, rfl⟩
  | @cons c x p rest hcx _ ih =>
    have hx : x.isUpper = true := hu x (by simp)
    obtain ⟨ih1, ih2⟩ := ih (fun z hz => hu z (by simp [hz]))
    simp only [List.zipWith_cons_cons, upper, List.map_cons, List.cons.injEq]
    simp only [upper] at ih2
    by_cases hq : c = '?'
    · subst hq
      have hm : mark '?' x = x.toLower := by
        simp [mark, (isUpper_ne_question x hx).symm]
      rw [hm]
      refine ⟨List.Forall₂.cons ?_ ih1, toUpper_toLower_of_isUpper x hx, ih2⟩
      simp only [if_true]
      rw [toUpper_toLower_of_isUpper x hx]
    · have hcx2 : c = x := by
        rcases hcx with h | h
        · exact h
        · exact absurd h hq
      subst hcx2
      have hm : mark c c = c := by simp [mark]
      rw [hm, toUpper_of_isUpper c hx]
      exact ⟨List.Forall₂.cons (by simp [hq]) ih1, rfl, ih2⟩

theorem zipWith_of_fills (p r : QString) (hu : ∀ x ∈ upper r, x.isUpper = true)
    (hp : ∀ c ∈ p, c.isUpper = true ∨ c = '?') (hf : Fills p r) :
    List.Forall₂ (fun c x => c = x ∨ c = '?') p (upper r) ∧
      r = List.zipWith mark p (upper r) := by
  unfold Fills at hf
  induction hf with
  | nil => exact ⟨List.Forall₂.nil, rfl⟩
  | @cons c y p r hcy _ ih =>
    have hy : y.toUpper.isUpper = true := hu y.toUpper (by simp [upper])
    obtain ⟨ih1, ih2⟩ := ih (fun z hz => hu z (by simp only [upper, List.map_cons, List.mem_cons]; exact Or.inr hz))
      (fun z hz => hp z (by simp [hz]))
    simp only [upper, List.map_cons, List.zipWith_cons_cons, List.cons.injEq]
    simp only [upper] at ih1 ih2
    by_cases hq : c = '?'
    · subst hq
      simp only [if_true] at hcy
      have hm : mark '?' y.toUpper = y := by
        simp only [mark, (isUpper_ne_question _ hy).symm, if_false]
        exact hcy.symm
      exact ⟨List.Forall₂.cons (Or.inr rfl) ih1, hm.symm, ih2⟩
    · simp only [hq, if_false] at hcy
      subst hcy
      have hyu : y.isUpper = true := by
        rcases hp y (by simp) with h | h
        · exact h
        · exact absurd h hq
      have hm : mark y y.toUpper = y := by
        simp [mark, toUpper_of_isUpper y hyu]
      exact ⟨List.Forall₂.cons (Or.inl (toUpper_of_isUpper y hyu).symm) ih1, hm.symm, ih2⟩

theorem foldl_setInsert_const (p : QString) (outs : List QString) (h : ∀ r ∈ outs, r = p) :
    ∀ s, (s = [] ∨ s = [p]) →
      outs.foldl (fun s w => setInsert w s) s = if outs = [] then s else [p] := by
  induction outs with
  | nil => intro s _; rfl
  | cons r outs ih =>
    intro s hs
    have hr : r = p := h r (by simp)
    subst hr
    have hs2 : setInsert r s = [r] := by
      rcases hs with rfl | rfl
      · rfl
      · simp [setInsert, qlt_irrefl]
    simp only [List.foldl_cons, hs2]
    rw [ih (fun z hz => h z (by simp [hz])) [r] (Or.inr rfl)]
    simp

theorem forall₂_eq_of_no_question (p rest : QString) (hp : ∀ c ∈ p, c ≠ '?')
    (hf : List.Forall₂ (fun c x => c = x ∨ c = '?') p rest) : p = rest := by
  induction hf with
  | nil => rfl
  | @cons c x p rest hcx _ ih =>
    have hc : c = x := by
      rcases hcx with h | h
      · exact h
      · exact absurd h (hp c (by simp))
    rw [hc, ih (fun z hz => hp z (by simp [hz]))]

theorem forall₂_refl_left (p : QString) : List.Forall₂ (fun c x => c = x ∨ c = '?') p p := by
  induction p with
  | nil => exact List.Forall₂.nil
  | cons c p ih => exact List.Forall₂.cons (Or.inl rfl) ih

theorem zipWith_mark_self (p : QString) : List.zipWith mark p p = p := by
  induction p with
  | nil => rfl
  | cons c p ih => simp [mark, ih]

/-- The list a `Pattern` search returns for a non-empty pattern of upper-case
letters only, with no constraint but the lengths. -/
theorem literal_search (ws : List QString) (spec : SearchSpec) (hws : UpperWords ws)
    (ht : spec.type = .Pattern) (hx : spec.excludeLetters = []) (hi : spec.includeLetters = [])
    (hcp : spec.consistPercent ≤ 0) (hne : spec.pattern ≠ [])
    (hp : ∀ c ∈ spec.pattern, c.isUpper = true)
    (hM : (spec.pattern.length : Int) ≤ spec.maxLength)
    (hmin : spec.minLength ≤ (spec.pattern.length : Int)) :
    finish spec (searchOut (plainBuild ws) spec) =
      if containsWord (plainBuild ws) spec.pattern = true then [spec.pattern] else [] := by
  have hs : ∀ c ∈ spec.pattern, c ≠ '*' := by
    intro c hc h
    subst h
    have := hp _ hc
    simp [Char.isUpper] at this
  have hq : ∀ c ∈ spec.pattern, c ≠ '?' := fun c hc => isUpper_ne_question c (hp c hc)
  have hmem : ∀ r, r ∈ searchOut (plainBuild ws) spec ↔ (spec.pattern ∈ ws ∧ r = spec.pattern) := by
    intro r
    rw [← mem_finish spec, starfree_search_mem ws spec hws ht hx hi hcp hne hs r]
    constructor
    · rintro ⟨rest, h1, _, _, h4, h5⟩
      have := forall₂_eq_of_no_question _ _ hq h4
      rw [← this] at h1 h5
      rw [zipWith_mark_self] at h5
      exact ⟨h1, h5⟩
    · rintro ⟨h1, rfl⟩
      exact ⟨spec.pattern, h1, hM, hmin, forall₂_refl_left _, (zipWith_mark_self _).symm⟩
  have hall : ∀ r ∈ searchOut (plainBuild ws) spec, r = spec.pattern := fun r hr => ((hmem r).1 hr).2
  unfold finish
  simp only [ht, if_true]
  rw [foldl_setInsert_const spec.pattern _ hall [] (Or.inl rfl)]
  by_cases hc : containsWord (plainBuild ws) spec.pattern = true
  · have h1 := ((containsWord_plainBuild ws _).1 hc).2
    have h2 : searchOut (plainBuild ws) spec ≠ [] := by
      intro h3
      have := (hmem spec.pattern).2 ⟨h1, rfl⟩
      rw [h3] at this
      simp at this
    simp [hc, h2]
  · have h2 : searchOut (plainBuild ws) spec = [] := by
      cases h3 : searchOut (plainBuild ws) spec with
      | nil => rfl
      | cons r rs =>
        have := (hmem r).1 (by simp [h3])
        exact absurd ((containsWord_plainBuild ws _).2 ⟨hne, this.1⟩) hc
    simp [hc, h2]

/-- C5. Pattern exactness: over a graph built from upper-case words, for a
non-empty pattern `p` of upper-case letters only, a `Pattern` query for `p`
with `maxLength ≥ |p|`, `minLength ≤ |p|` and no include, exclude or consist
constraint returns the one-element list `[p]` when `containsWord p` is true
and the empty list when it is false. -/
theorem C5_pattern_exact (ws : List QString) (spec : SearchSpec) (hws : UpperWords ws)
    (ht : spec.type = .Pattern) (hne : spec.pattern ≠ [])
    (hp : ∀ c ∈ spec.pattern, c.isUpper = true)
    (hM : (spec.pattern.length : Int) ≤ spec.maxLength)
    (hmin : spec.minLength ≤ (spec.pattern.length : Int))
    (hi : spec.includeLetters = []) (hx : spec.excludeLetters = [])
    (hcp : spec.consistPercent = 0) :
    search (build ws) spec =
      some (if containsWord (build ws) spec.pattern = true then [spec.pattern] else []) := by
  rw [build_upper ws hws]
  rw [search_eq, literal_search ws spec hws ht hx hi (by omega) hne hp hM hmin]

/-- C5 at the `Pattern` query `CA` with both lengths 2 over the graph built
from `CAT` and `CA`. -/
theorem C5_pattern_exact_witness :
    UpperWords [['C', 'A', 'T'], ['C', 'A']] ∧
      search (build [['C', 'A', 'T'], ['C', 'A']])
          ⟨.Pattern, ['C', 'A'], 2, 2, [], [], [], 0⟩ =
        some (if containsWord (build [['C', 'A', 'T'], ['C', 'A']]) ['C', 'A'] = true
          then [['C', 'A']] else []) :=
  ⟨by simp [UpperWords],
    C5_pattern_exact [['C', 'A', 'T'], ['C', 'A']] ⟨.Pattern, ['C', 'A'], 2, 2, [], [], [], 0⟩
      (by simp [UpperWords]) rfl (by simp) (by decide) (by decide) (by decide) rfl rfl rfl⟩

/-- C7. Wildcard coverage and casing for star-free patterns: over a graph
built from upper-case words, for a non-empty pattern `p` of upper-case letters
and `?` only, a `Pattern` query with `maxLength ≥ |p|` and no other constraint
returns exactly the strings `r` of the length of `p` for which `upper r` was
inserted and, at every position, `r` has the letter of `p`, or under a `?` the
lower-case form of the stored letter. -/
theorem C7_wildcard_casing (ws : List QString) (spec : SearchSpec) (hws : UpperWords ws)
    (ht : spec.type = .Pattern) (hplain : Plain spec) (hne : spec.pattern ≠ [])
    (hp : ∀ c ∈ spec.pattern, c.isUpper = true ∨ c = '?')
    (hM : (spec.pattern.length : Int) ≤ spec.maxLength) :
    ∃ res, search (build ws) spec = some res ∧
      ∀ r, r ∈ res ↔ (Fills spec.pattern r ∧ upper r ∈ ws) := by
  rw [build_upper ws hws]
  obtain ⟨hmin, hi, hx, hcp⟩ := hplain
  refine ⟨_, search_eq _ _, ?_⟩
  have hs : ∀ c ∈ spec.pattern, c ≠ '*' := by
    intro c hc h
    subst h
    rcases hp _ hc with h | h
    · simp [Char.isUpper] at h
    · exact absurd h (by decide)
  intro r
  rw [starfree_search_mem ws spec hws ht hx hi (by omega) hne hs r]
  constructor
  · rintro ⟨rest, h1, _, _, h4, rfl⟩
    obtain ⟨h5, h6⟩ := fills_of_zipWith _ _ (hws rest h1) h4
    rw [h6]
    exact ⟨h5, h1⟩
  · rintro ⟨h1, h2⟩
    obtain ⟨h3, h4⟩ := zipWith_of_fills _ r (hws _ h2) hp h1
    have hlen : (upper r).length = spec.pattern.length := by
      rw [upper_length]
      exact (List.Forall₂.length_eq h1).symm
    exact ⟨upper r, h2, by rw [hlen]; exact hM, by rw [hlen]; omega, h3, h4⟩

/-- C7 at the example of the specification: the `Pattern` query `?AT` over
the graph built from `CAT`, `BAT`, `EAT` and `HATE` returns `bAT`, `cAT` and
`eAT`, and nothing for `HATE`. -/
theorem C7_wildcard_casing_witness :
    (UpperWords [['C', 'A', 'T'], ['B', 'A', 'T'], ['E', 'A', 'T'], ['H', 'A', 'T', 'E']] ∧
      Plain ⟨.Pattern, ['?', 'A', 'T'], 0, 4, [], [], [], 0⟩ ∧
      ∃ res, search (build [['C', 'A', 'T'], ['B', 'A', 'T'], ['E', 'A', 'T'],
            ['H', 'A', 'T', 'E']]) ⟨.Pattern, ['?', 'A', 'T'], 0, 4, [], [], [], 0⟩ = some res ∧
        ∀ r, r ∈ res ↔ (Fills ['?', 'A', 'T'] r ∧
          upper r ∈ [['C', 'A', 'T'], ['B', 'A', 'T'], ['E', 'A', 'T'], ['H', 'A', 'T', 'E']])) ∧
    search (build [['C', 'A', 'T'], ['B', 'A', 'T'], ['E', 'A', 'T'], ['H', 'A', 'T', 'E']])
        ⟨.Pattern, ['?', 'A', 'T'], 0, 4, [], [], [], 0⟩ =
      some [['b', 'A', 'T'], ['c', 'A', 'T'], ['e', 'A', 'T']] :=
  ⟨⟨by simp [UpperWords], by simp [Plain],
    C7_wildcard_casing [['C', 'A', 'T'], ['B', 'A', 'T'], ['E', 'A', 'T'], ['H', 'A', 'T', 'E']]
      ⟨.Pattern, ['?', 'A', 'T'], 0, 4, [], [], [], 0⟩ (by simp [UpperWords]) rfl
      (by simp [Plain]) (by simp) (by decide) (by decide)⟩, search_eval _ _ _ (by decide)⟩

/-- C2, as stated, fails for the empty pattern: over the graph built from `A`,
the `Pattern` query with the empty pattern and `maxLength = 1` returns `a`;
its upper-casing `A` is in the list and has length 1, and does not match the
empty pattern as a glob. -/
theorem C2_counterexample :
    ∃ res, search (build [['A']]) ⟨.Pattern, [], 0, 1, [], [], [], 0⟩ = some res ∧
      ¬ ((∃ r ∈ res, upper r = ['A']) ↔
        (['A'] ∈ [['A']] ∧ 1 ≤ ['A'].length ∧ ((['A'].length : Nat) : Int) ≤ 1 ∧
          globMatch [] ['A'] = true)) :=
  ⟨[['a']], search_eval _ _ _ (by decide), by decide⟩

/-- C2, amended. Pattern matching is glob matching, the empty pattern being
read as `*`: over a graph built from upper-case words, for a `Pattern` query
with `maxLength = M` and no other constraint, `search` returns a list, and a
word `w` is the upper-casing of an entry of it if and only if `w` occurs in
`ws`, `1 ≤ |w| ≤ M` and `w` matches the pattern (`*` for the empty pattern),
a letter matching itself, `?` one letter and `*` zero or more letters. -/
theorem C2_pattern_glob (ws : List QString) (spec : SearchSpec) (hws : UpperWords ws)
    (ht : spec.type = .Pattern) (hp : Plain spec) :
    ∃ res, search (build ws) spec = some res ∧
      ∀ w, (∃ r ∈ res, upper r = w) ↔
        w ∈ ws ∧ 1 ≤ w.length ∧ (w.length : Int) ≤ spec.maxLength ∧
          globMatch (if spec.pattern = [] then ['*'] else spec.pattern) w = true := by
  rw [build_upper ws hws]
  exact
    ⟨_, search_eq _ _, fun w => pattern_search_upper ws spec hws ht hp w⟩

/-- C2 at the `Pattern` query `C*` with `maxLength = 3` over the graph built
from `CAT` and `CA`. -/
theorem C2_pattern_glob_witness :
    UpperWords [['C', 'A', 'T'], ['C', 'A']] ∧
      (⟨.Pattern, ['C', '*'], 0, 3, [], [], [], 0⟩ : SearchSpec).type = .Pattern ∧
      Plain ⟨.Pattern, ['C', '*'], 0, 3, [], [], [], 0⟩ ∧
      ∃ res, search (build [['C', 'A', 'T'], ['C', 'A']])
          ⟨.Pattern, ['C', '*'], 0, 3, [], [], [], 0⟩ = some res ∧
        ∀ w, (∃ r ∈ res, upper r = w) ↔
          w ∈ [['C', 'A', 'T'], ['C', 'A']] ∧ 1 ≤ w.length ∧
            (w.length : Int) ≤ (⟨.Pattern, ['C', '*'], 0, 3, [], [], [], 0⟩ : SearchSpec).maxLength ∧
            globMatch (if (⟨.Pattern, ['C', '*'], 0, 3, [], [], [], 0⟩ : SearchSpec).pattern = []
              then ['*'] else (⟨.Pattern, ['C', '*'], 0, 3, [], [], [], 0⟩ : SearchSpec).pattern) w
              = true :=
  ⟨by simp [UpperWords], rfl, by simp [Plain],
    C2_pattern_glob _ _ (by simp [UpperWords]) rfl (by simp [Plain])⟩

/-! ## `Anagram` and `Subanagram` searches without star -/

theorem remove_find (u : QString) (x : Char) (h : x ∈ u) :
    remove u (find u x) = u.erase x := by
  unfold remove find
  simp [h]

theorem visit_anagram (spec : SearchSpec) (c : Char) (w u : QString) (x : Char)
    (ht : spec.type ≠ .Pattern) :
    visit spec false c w u x =
      if x ∈ spec.excludeLetters then none
      else if x ∈ u then some (w ++ [x], u.erase x)
      else if '?' ∈ u then some (w ++ [x.toLower], u.erase '?')
      else none := by
  have key : visit spec false c w u x =
      if x ∈ spec.excludeLetters then none
      else if 0 ≤ find u x then some (w ++ [x], remove u (find u x))
      else if 0 ≤ find u '?' then some (w ++ [x.toLower], remove u (find u '?'))
      else none := by
    unfold visit
    cases h : spec.type with
    | Pattern => exact absurd h ht
    | Anagram => simp
    | Subanagram => simp
  rw [key]
  simp only [find_nonneg_iff]
  by_cases h1 : x ∈ u
  · simp [h1, remove_find u x h1]
  · by_cases h2 : '?' ∈ u
    · simp [h1, h2, remove_find u '?' h2]
    · simp [h1, h2]

theorem pushed_anagram (spec : SearchSpec) (c : Char) (u : QString)
    (ht : spec.type ≠ .Pattern) :
    pushed spec false c u = if u = [] then [] else [u] := by
  unfold pushed
  cases h : spec.type with
  | Pattern => exact absurd h ht
  | Anagram => cases u <;> simp
  | Subanagram => cases u <;> simp

theorem accepted_anagram (spec : SearchSpec) (w u : QString) (ht : spec.type ≠ .Pattern) :
    accepted spec true w u = true ↔
      (spec.type = .Subanagram ∨ u = []) ∧ matchesSpec (upper w) spec = true := by
  unfold accepted
  cases h : spec.type with
  | Pattern => exact absurd h ht
  | Anagram => simp
  | Subanagram => simp

theorem consume_cons_mem (u : QString) (x : Char) (rest : QString) (h : x ∈ u) :
    consume u (x :: rest) = (consume (u.erase x) rest).map (fun p => (x :: p.1, p.2)) := by
  simp [consume, h]

theorem consume_cons_blank (u : QString) (x : Char) (rest : QString) (h : x ∉ u)
    (hq : '?' ∈ u) :
    consume u (x :: rest) =
      (consume (u.erase '?') rest).map (fun p => (x.toLower :: p.1, p.2)) := by
  simp [consume, h, hq]

theorem consume_cons_none (u : QString) (x : Char) (rest : QString) (h : x ∉ u)
    (hq : '?' ∉ u) : consume u (x :: rest) = none := by
  simp [consume, h, hq]

/-- A word handed over by an `Anagram` or `Subanagram` search without star is
written by `consume`; for `Anagram` no tile is left. -/
theorem der_consume (spec : SearchSpec) (ht : spec.type ≠ .Pattern)
    (w u rest r : QString) (h : Der spec false w u rest r) :
    ∃ m u1, consume u rest = some (m, u1) ∧ r = w ++ m ∧ (spec.type = .Anagram → u1 = []) := by
  induction h with
  | zero _ hp _ _ _ => exact absurd hp ht
  | @last w u w1 u1 x hM hv ha =>
    rw [visit_anagram _ _ _ _ _ ht] at hv
    rw [accepted_anagram _ _ _ ht] at ha
    have hend : spec.type = .Anagram → u1 = [] := by
      intro h
      rcases ha.1 with h2 | h2
      · rw [h] at h2
        exact absurd h2 (by decide)
      · exact h2
    split at hv
    · simp at hv
    · split at hv
      · simp only [Option.some.injEq, Prod.mk.injEq] at hv
        obtain ⟨rfl, rfl⟩ := hv
        refine ⟨[x], _, ?_, rfl, hend⟩
        rw [consume_cons_mem _ _ _ (by assumption)]
        simp [consume]
      · split at hv
        · simp only [Option.some.injEq, Prod.mk.injEq] at hv
          obtain ⟨rfl, rfl⟩ := hv
          refine ⟨[x.toLower], _, ?_, rfl, hend⟩
          rw [consume_cons_blank _ _ _ (by assumption) (by assumption)]
          simp [consume]
        · simp at hv
  | @next w u w1 u1 v rest r x y hM hv hp hd ih =>
    rw [visit_anagram _ _ _ _ _ ht] at hv
    rw [pushed_anagram _ _ _ ht] at hp
    obtain ⟨m, u2, h1, h2, h3⟩ := ih
    have hv1 : v = u1 := by
      split at hp
      · simp at hp
      · simpa using hp
    subst hv1
    split at hv
    · simp at hv
    · split at hv
      · simp only [Option.some.injEq, Prod.mk.injEq] at hv
        obtain ⟨rfl, rfl⟩ := hv
        refine ⟨x :: m, u2, ?_, by simp [h2], h3⟩
        rw [consume_cons_mem _ _ _ (by assumption), h1]
        rfl
      · split at hv
        · simp only [Option.some.injEq, Prod.mk.injEq] at hv
          obtain ⟨rfl, rfl⟩ := hv
          refine ⟨x.toLower :: m, u2, ?_, by simp [h2], h3⟩
          rw [consume_cons_blank _ _ _ (by assumption) (by assumption), h1]
          rfl
        · simp at hv

theorem consume_nil_left (x : Char) (rest : QString) : consume [] (x :: rest) = none := by
  simp [consume]

/-- An `Anagram` or `Subanagram` search without star and with no constraint
but the lengths hands over what `consume` writes for a path, when `consume`
ends and, for `Anagram`, leaves no tile. -/
theorem consume_der (spec : SearchSpec) (ht : spec.type ≠ .Pattern)
    (hx : spec.excludeLetters = []) (hi : spec.includeLetters = [])
    (hcp : spec.consistPercent ≤ 0) (rest : QString) :
    ∀ (u w m u1 : QString), rest ≠ [] →
      ((w.length + rest.length : Nat) : Int) ≤ spec.maxLength →
      spec.minLength ≤ ((w.length + rest.length : Nat) : Int) →
      consume u rest = some (m, u1) → (spec.type = .Subanagram ∨ u1 = []) →
      Der spec false w u rest (w ++ m) := by
  induction rest with
  | nil => intro u w m u1 h; exact absurd rfl h
  | cons x rest ih =>
    intro u w m u1 _ hM hmin hc hend
    have hM1 : (w.length : Int) < spec.maxLength := by
      simp only [List.length_cons] at hM
      omega
    have key : ∀ (y : Char) (u2 m2 : QString),
        visit spec false (headChar spec u) w u x = some (w ++ [y], u2) →
        consume u2 rest = some (m2, u1) → Der spec false w u (x :: rest) (w ++ y :: m2) := by
      intro y u2 m2 hv hc2
      have hlen : (w ++ [y]).length = w.length + 1 := by simp
      cases rest with
      | nil =>
        simp only [consume, Option.some.injEq, Prod.mk.injEq] at hc2
        obtain ⟨rfl, rfl⟩ := hc2
        refine Der.last hM1 hv ?_
        rw [accepted_anagram _ _ _ ht]
        refine ⟨hend, ?_⟩
        apply matchesSpec_plain _ _ _ hi hcp
        rw [upper_length, hlen]
        simpa using hmin
      | cons z rest =>
        have hu2 : u2 ≠ [] := by
          intro h
          subst h
          rw [consume_nil_left] at hc2
          simp at hc2
        have := ih u2 (w ++ [y]) m2 u1 (by simp)
          (by rw [hlen]; simp only [List.length_cons] at hM ⊢; omega)
          (by rw [hlen]; simp only [List.length_cons] at hmin ⊢; omega) hc2 hend
        rw [List.append_assoc] at this
        refine Der.next hM1 hv ?_ this
        rw [pushed_anagram _ _ _ ht]
        simp [hu2]
    by_cases h1 : x ∈ u
    · rw [consume_cons_mem _ _ _ h1] at hc
      cases hc2 : consume (u.erase x) rest with
      | none => simp [hc2] at hc
      | some p =>
        obtain ⟨m2, u3⟩ := p
        simp only [hc2, Option.map_some', Option.some.injEq, Prod.mk.injEq] at hc
        obtain ⟨rfl, rfl⟩ := hc
        exact key x (u.erase x) m2 (by rw [visit_anagram _ _ _ _ _ ht]; simp [hx, h1]) hc2
    · by_cases h2 : '?' ∈ u
      · rw [consume_cons_blank _ _ _ h1 h2] at hc
        cases hc2 : consume (u.erase '?') rest with
        | none => simp [hc2] at hc
        | some p =>
          obtain ⟨m2, u3⟩ := p
          simp only [hc2, Option.map_some', Option.some.injEq, Prod.mk.injEq] at hc
          obtain ⟨rfl, rfl⟩ := hc
          exact key x.toLower (u.erase '?') m2
            (by rw [visit_anagram _ _ _ _ _ ht]; simp [hx, h1, h2]) hc2
      · rw [consume_cons_none _ _ _ h1 h2] at hc
        simp at hc

/-! ## What `consume` does, in terms of multisets -/

theorem mem_letters (u : QString) (x : Char) : x ∈ letters u ↔ x ∈ u ∧ x ≠ '?' := by
  simp [letters]

theorem letters_erase_ne (u : QString) (x : Char) (hx : x ≠ '?') :
    letters (u.erase x) = (letters u).erase x := by
  induction u with
  | nil => rfl
  | cons a u ih =>
    by_cases ha : a = x
    · subst ha
      simp [letters, hx]
    · have hb : ¬ (a == x) = true := by simpa using ha
      rw [List.erase_cons_tail hb]
      by_cases hq : a = '?'
      · subst hq
        simpa [letters] using ih
      · have hl : ∀ v, letters (a :: v) = a :: letters v := by
          intro v
          simp [letters, hq]
        rw [hl, hl, List.erase_cons_tail hb, ih]

theorem letters_erase_question (u : QString) : letters (u.erase '?') = letters u := by
  induction u with
  | nil => rfl
  | cons a u ih =>
    by_cases ha : a = '?'
    · subst ha
      simp [letters]
    · have hb : ¬ (a == '?') = true := by simpa using ha
      rw [List.erase_cons_tail hb]
      simp only [letters] at ih ⊢
      simp [List.filter_cons, ha, ih]

theorem count_question_erase_ne (u : QString) (x : Char) (hx : x ≠ '?') :
    (u.erase x).count '?' = u.count '?' := by
  rw [List.count_erase_of_ne (Ne.symm hx)]

theorem count_question_pos (u : QString) (h : '?' ∈ u) : 1 ≤ u.count '?' :=
  List.count_pos_iff.2 h

theorem consume_length (rest : QString) :
    ∀ (u m u1 : QString), consume u rest = some (m, u1) →
      u1.length + rest.length = u.length ∧ m.length = rest.length := by
  induction rest with
  | nil =>
    intro u m u1 h
    simp only [consume, Option.some.injEq, Prod.mk.injEq] at h
    obtain ⟨rfl, rfl⟩ := h
    simp
  | cons x rest ih =>
    intro u m u1 h
    by_cases h1 : x ∈ u
    · rw [consume_cons_mem _ _ _ h1] at h
      cases hc : consume (u.erase x) rest with
      | none => simp [hc] at h
      | some p =>
        obtain ⟨m2, u2⟩ := p
        simp only [hc, Option.map_some', Option.some.injEq, Prod.mk.injEq] at h
        obtain ⟨rfl, rfl⟩ := h
        obtain ⟨h3, h4⟩ := ih _ _ _ hc
        have h5 := List.length_erase_of_mem h1
        have h6 : 1 ≤ u.length := List.length_pos_of_mem h1
        simp only [List.length_cons]
        omega
    · by_cases h2 : '?' ∈ u
      · rw [consume_cons_blank _ _ _ h1 h2] at h
        cases hc : consume (u.erase '?') rest with
        | none => simp [hc] at h
        | some p =>
          obtain ⟨m2, u2⟩ := p
          simp only [hc, Option.map_some', Option.some.injEq, Prod.mk.injEq] at h
          obtain ⟨rfl, rfl⟩ := h
          obtain ⟨h3, h4⟩ := ih _ _ _ hc
          have h5 := List.length_erase_of_mem h2
          have h6 : 1 ≤ u.length := List.length_pos_of_mem h2
          simp only [List.length_cons]
          omega
      · rw [consume_cons_none _ _ _ h1 h2] at h
        simp at h

theorem consume_isSome_cons_mem (u : QString) (x : Char) (rest : QString) (h : x ∈ u) :
    (∃ m u1, consume u (x :: rest) = some (m, u1)) ↔
      ∃ m u1, consume (u.erase x) rest = some (m, u1) := by
  rw [consume_cons_mem _ _ _ h]
  constructor
  · rintro ⟨m, u1, hc⟩
    cases hc2 : consume (u.erase x) rest with
    | none => simp [hc2] at hc
    | some p => exact ⟨p.1, p.2, rfl⟩
  · rintro ⟨m, u1, hc⟩
    exact ⟨x :: m, u1, by simp [hc]⟩

theorem consume_isSome_cons_blank (u : QString) (x : Char) (rest : QString) (h : x ∉ u)
    (hq : '?' ∈ u) :
    (∃ m u1, consume u (x :: rest) = some (m, u1)) ↔
      ∃ m u1, consume (u.erase '?') rest = some (m, u1) := by
  rw [consume_cons_blank _ _ _ h hq]
  constructor
  · rintro ⟨m, u1, hc⟩
    cases hc2 : consume (u.erase '?') rest with
    | none => simp [hc2] at hc
    | some p => exact ⟨p.1, p.2, rfl⟩
  · rintro ⟨m, u1, hc⟩
    exact ⟨x.toLower :: m, u1, by simp [hc]⟩

theorem multiset_cons_sub_of_mem (x : Char) (r l : QString) (h : x ∈ l) :
    ((x :: r : QString) : Multiset Char) - (l : Multiset Char) =
      (r : Multiset Char) - ((l.erase x : QString) : Multiset Char) := by
  ext a
  simp only [Multiset.count_sub, Multiset.coe_count, List.count_cons]
  by_cases ha : x = a
  · subst ha
    have h1 := List.count_erase_self x l
    have h2 : 1 ≤ l.count x := List.count_pos_iff.2 h
    simp only [beq_self_eq_true, if_true]
    omega
  · have h1 := List.count_erase_of_ne (Ne.symm ha) l
    have hb : (x == a) = false := by simpa using ha
    simp only [hb, Bool.false_eq_true, if_false]
    omega

theorem multiset_cons_sub_of_not_mem (x : Char) (r l : QString) (h : x ∉ l) :
    ((x :: r : QString) : Multiset Char) - (l : Multiset Char) =
      x ::ₘ ((r : Multiset Char) - (l : Multiset Char)) := by
  ext a
  simp only [Multiset.count_sub, Multiset.coe_count, List.count_cons, Multiset.count_cons]
  by_cases ha : x = a
  · subst ha
    have h1 : l.count x = 0 := List.count_eq_zero_of_not_mem h
    simp only [beq_self_eq_true, if_true]
    omega
  · have hb : (x == a) = false := by simpa using ha
    have hc : ¬ a = x := fun h => ha h.symm
    simp only [hb, Bool.false_eq_true, if_false, hc]
    omega

/-- Whether `consume` ends: the letters of the path left over after the
letters of the tiles are taken away are no more than the blanks. -/
theorem consume_isSome_iff (rest : QString) (hr : ∀ x ∈ rest, x ≠ '?') :
    ∀ u : QString, (∃ m u1, consume u rest = some (m, u1)) ↔
      Multiset.card ((rest : Multiset Char) - (letters u : Multiset Char)) ≤ u.count '?' := by
  induction rest with
  | nil =>
    intro u
    have h0 : ((([] : QString) : Multiset Char)) - (letters u : Multiset Char) = 0 := by
      rw [Multiset.coe_nil]
      exact Multiset.zero_sub _
    rw [h0]
    simp [consume]
  | cons x rest ih =>
    intro u
    have hx : x ≠ '?' := hr x (by simp)
    have ih2 := ih (fun z hz => hr z (by simp [hz]))
    by_cases h1 : x ∈ u
    · rw [consume_isSome_cons_mem _ _ _ h1, ih2,
        multiset_cons_sub_of_mem x rest (letters u) ((mem_letters _ _).2 ⟨h1, hx⟩),
        letters_erase_ne _ _ hx, count_question_erase_ne _ _ hx]
    · have h1l : x ∉ letters u := fun h => h1 ((mem_letters _ _).1 h).1
      rw [multiset_cons_sub_of_not_mem x rest (letters u) h1l, Multiset.card_cons]
      by_cases h2 : '?' ∈ u
      · rw [consume_isSome_cons_blank _ _ _ h1 h2, ih2, letters_erase_question,
          List.count_erase_self]
        have := count_question_pos u h2
        omega
      · rw [consume_cons_none _ _ _ h1 h2]
        have h3 : u.count '?' = 0 := List.count_eq_zero_of_not_mem h2
        simp [h3]

/-- When `consume` uses up the tiles: the path has as many letters as there
are tiles and contains the letters of the tiles. -/
theorem consume_all_iff (rest : QString) (hr : ∀ x ∈ rest, x ≠ '?') :
    ∀ u : QString, (∃ m, consume u rest = some (m, [])) ↔
      rest.length = u.length ∧ (letters u : Multiset Char) ≤ (rest : Multiset Char) := by
  intro u
  constructor
  · rintro ⟨m, hc⟩
    obtain ⟨h1, _⟩ := consume_length _ _ _ _ hc
    simp only [List.length_nil, Nat.zero_add] at h1
    refine ⟨h1, ?_⟩
    have h2 := (consume_isSome_iff rest hr u).1 ⟨m, [], hc⟩
    have h3 : Multiset.card (letters u : Multiset Char) + u.count '?' = u.length := by
      simp only [Multiset.coe_card, letters]
      have := List.length_eq_countP_add_countP (fun c => c != '?') u
      rw [this, List.countP_eq_length_filter]
      congr 1
      rw [List.count, List.countP_congr]
      intro a _
      simp
    have h4 := Multiset.sub_add_inter (rest : Multiset Char) (letters u : Multiset Char)
    have h5 : Multiset.card ((rest : Multiset Char) - (letters u : Multiset Char)) +
        Multiset.card ((rest : Multiset Char) ∩ (letters u : Multiset Char)) = rest.length := by
      rw [← Multiset.card_add, h4, Multiset.coe_card]
    have h6 : (rest : Multiset Char) ∩ (letters u : Multiset Char) = (letters u : Multiset Char) :=
      Multiset.eq_of_le_of_card_le (Multiset.inter_le_right _ _) (by omega)
    rw [← h6]
    exact Multiset.inter_le_left _ _
  · rintro ⟨h1, h2⟩
    have h3 : Multiset.card (letters u : Multiset Char) + u.count '?' = u.length := by
      simp only [Multiset.coe_card, letters]
      have := List.length_eq_countP_add_countP (fun c => c != '?') u
      rw [this, List.countP_eq_length_filter]
      congr 1
      rw [List.count, List.countP_congr]
      intro a _
      simp
    have h4 : Multiset.card ((rest : Multiset Char) - (letters u : Multiset Char)) =
        rest.length - Multiset.card (letters u : Multiset Char) := by
      rw [Multiset.card_sub h2, Multiset.coe_card]
    obtain ⟨m, u1, hc⟩ := (consume_isSome_iff rest hr u).2 (by omega)
    obtain ⟨h5, _⟩ := consume_length _ _ _ _ hc
    have h6 : u1 = [] := List.length_eq_zero.1 (by omega)
    subst h6
    exact ⟨m, hc⟩

theorem isLower_of_isUpper (c : Char) (h : c.isUpper = true) : c.isLower = false := by
  obtain ⟨h1, h2⟩ := isUpper_bounds c h
  rw [char_eq_ofNat c]
  generalize c.toNat = n at h1 h2
  interval_cases n <;> decide

theorem isUpper_toLower_of_isUpper (c : Char) (h : c.isUpper = true) :
    c.toLower.isUpper = false := by
  obtain ⟨h1, h2⟩ := isUpper_bounds c h
  rw [char_eq_ofNat c]
  generalize c.toNat = n at h1 h2
  interval_cases n <;> decide

theorem isLower_toLower_of_isUpper (c : Char) (h : c.isUpper = true) :
    c.toLower.isLower = true := by
  obtain ⟨h1, h2⟩ := isUpper_bounds c h
  rw [char_eq_ofNat c]
  generalize c.toNat = n at h1 h2
  interval_cases n <;> decide

/-- The casing of what `consume` writes: the upper-case characters and the
letters of the tiles left make up the letters of the tiles, the lower-case
characters and the blanks left make up the blanks. -/
theorem consume_casing (rest : QString) (hr : ∀ x ∈ rest, x.isUpper = true) :
    ∀ (u m u1 : QString), consume u rest = some (m, u1) →
      ((m.filter Char.isUpper : QString) : Multiset Char) + (letters u1 : Multiset Char) =
          (letters u : Multiset Char) ∧
        (m.filter Char.isLower).length + u1.count '?' = u.count '?' := by
  induction rest with
  | nil =>
    intro u m u1 h
    simp only [consume, Option.some.injEq, Prod.mk.injEq] at h
    obtain ⟨rfl, rfl⟩ := h
    simp
  | cons x rest ih =>
    intro u m u1 h
    have hx : x.isUpper = true := hr x (by simp)
    have hxq : x ≠ '?' := isUpper_ne_question x hx
    have ih2 := ih (fun z hz => hr z (by simp [hz]))
    by_cases h1 : x ∈ u
    · rw [consume_cons_mem _ _ _ h1] at h
      cases hc : consume (u.erase x) rest with
      | none => simp [hc] at h
      | some p =>
        obtain ⟨m2, u2⟩ := p
        simp only [hc, Option.map_some', Option.some.injEq, Prod.mk.injEq] at h
        obtain ⟨rfl, rfl⟩ := h
        obtain ⟨h3, h4⟩ := ih2 _ _ _ hc
        rw [letters_erase_ne _ _ hxq] at h3
        rw [count_question_erase_ne _ _ hxq] at h4
        have hxl : x ∈ letters u := (mem_letters _ _).2 ⟨h1, hxq⟩
        refine ⟨?_, ?_⟩
        · rw [List.filter_cons_of_pos hx, ← Multiset.cons_coe, Multiset.cons_add, h3,
            ← Multiset.coe_erase, Multiset.cons_erase hxl]
        · rw [List.filter_cons_of_neg (by simp [isLower_of_isUpper x hx])]
          exact h4
    · by_cases h2 : '?' ∈ u
      · rw [consume_cons_blank _ _ _ h1 h2] at h
        cases hc : consume (u.erase '?') rest with
        | none => simp [hc] at h
        | some p =>
          obtain ⟨m2, u2⟩ := p
          simp only [hc, Option.map_some', Option.some.injEq, Prod.mk.injEq] at h
          obtain ⟨rfl, rfl⟩ := h
          obtain ⟨h3, h4⟩ := ih2 _ _ _ hc
          rw [letters_erase_question] at h3
          rw [List.count_erase_self] at h4
          have := count_question_pos u h2
          refine ⟨?_, ?_⟩
          · rw [List.filter_cons_of_neg (by simp [isUpper_toLower_of_isUpper x hx])]
            exact h3
          · rw [List.filter_cons_of_pos (isLower_toLower_of_isUpper x hx)]
            simp only [List.length_cons]
            omega
      · rw [consume_cons_none _ _ _ h1 h2] at h
        simp at h

theorem startWildcard_of_no_star (spec : SearchSpec) (h : '*' ∉ spec.pattern) :
    startWildcard spec = false := by
  unfold startWildcard
  cases spec.type <;> simp [h]

theorem startPattern_of_no_star (spec : SearchSpec) (ht : spec.type ≠ .Pattern)
    (h : '*' ∉ spec.pattern) : startPattern spec = spec.pattern := by
  unfold startPattern
  cases hty : spec.type with
  | Pattern => exact absurd hty ht
  | Anagram => simp [h]
  | Subanagram => simp [h]

/-- The entries of an `Anagram` or `Subanagram` search without star over
upper-case words: each is written by `consume` from the pattern along a
stored word, its upper-casing. -/
theorem anagram_entry (ws : List QString) (spec : SearchSpec) (hws : UpperWords ws)
    (ht : spec.type ≠ .Pattern) (hs : '*' ∉ spec.pattern) (r : QString)
    (h : r ∈ finish spec (searchOut (plainBuild ws) spec)) :
    upper r ∈ ws ∧ upper r ≠ [] ∧ (r.length : Int) ≤ spec.maxLength ∧
      ∃ u1, consume spec.pattern (upper r) = some (r, u1) ∧ (spec.type = .Anagram → u1 = []) := by
  rw [search_mem, startWildcard_of_no_star _ hs, startPattern_of_no_star _ ht hs] at h
  obtain ⟨rest, hpath, hd⟩ := h
  rw [hasPath_plainBuild] at hpath
  obtain ⟨⟨m, hm, hmark⟩, h2, _, _⟩ := der_facts _ _ _ _ _ _ hd
  simp only [List.nil_append] at hm
  subst hm
  have hu : upper r = rest := upper_of_marked rest r (hws rest hpath.2) hmark
  obtain ⟨m, u1, h3, h4, h5⟩ := der_consume spec ht _ _ _ _ hd
  simp only [List.nil_append] at h4
  subst h4
  rw [hu]
  exact ⟨hpath.2, hpath.1, h2, u1, h3, h5⟩

/-- The words an unconstrained `Anagram` or `Subanagram` search without star
finds, up to letter case: the stored words within `maxLength` for which
`consume` ends, with no tile left for `Anagram`. -/
theorem anagram_search_upper (ws : List QString) (spec : SearchSpec) (hws : UpperWords ws)
    (ht : spec.type ≠ .Pattern) (hs : '*' ∉ spec.pattern) (hp : Plain spec) (w : QString) :
    (∃ r ∈ finish spec (searchOut (plainBuild ws) spec), upper r = w) ↔
      w ∈ ws ∧ w ≠ [] ∧ (w.length : Int) ≤ spec.maxLength ∧
        ∃ m u1, consume spec.pattern w = some (m, u1) ∧
          (spec.type = .Subanagram ∨ u1 = []) := by
  obtain ⟨hmin, hi, hx, hcp⟩ := hp
  constructor
  · rintro ⟨r, hr, rfl⟩
    obtain ⟨h1, h2, h3, u1, h4, h5⟩ := anagram_entry ws spec hws ht hs r hr
    refine ⟨h1, h2, by rw [upper_length]; exact h3, r, u1, h4, ?_⟩
    cases hty : spec.type with
    | Pattern => exact absurd hty ht
    | Anagram => exact Or.inr (h5 hty)
    | Subanagram => exact Or.inl rfl
  · rintro ⟨h1, h2, h3, m, u1, h4, h5⟩
    have hd := consume_der spec ht hx hi (by omega) w spec.pattern [] m u1 h2
      (by simpa using h3) (by simp only [List.length_nil, Nat.zero_add]; omega) h4 h5
    simp only [List.nil_append] at hd
    refine ⟨m, ?_, ?_⟩
    · rw [search_mem, startWildcard_of_no_star _ hs, startPattern_of_no_star _ ht hs]
      exact ⟨w, (hasPath_plainBuild ws w).2 ⟨h2, h1⟩, hd⟩
    · obtain ⟨⟨m2, hm, hmark⟩, _, _, _⟩ := der_facts _ _ _ _ _ _ hd
      simp only [List.nil_append] at hm
      subst hm
      exact upper_of_marked w m (hws w h1) hmark

/-- C3, as stated, fails for the empty pattern when the list holds the empty
word: `addWord` ignores the empty word, the graph is empty and `search`
returns nothing, while the empty word is in the list, has the length of the
pattern and contains its letters. -/
theorem C3_counterexample :
    ∃ res, search (build [[]]) ⟨.Anagram, [], 0, 5, [], [], [], 0⟩ = some res ∧
      ¬ ((∃ r ∈ res, upper r = []) ↔
        (([] : QString) ∈ [([] : QString)] ∧ ([] : QString).length = ([] : QString).length ∧
          ((([] : QString).length : Nat) : Int) ≤ 5 ∧
          (letters [] : Multiset Char) ≤ (([] : QString) : Multiset Char))) :=
  ⟨[], search_eval _ _ _ (by decide), by simp [letters]⟩

/-- C3, amended. Anagram exactness for non-empty words: over a graph built
from upper-case words, for an `Anagram` query whose pattern has no `*`, with
`maxLength = M` and no other constraint, `search` returns a list whose entries
upper-cased are exactly the non-empty words `w` of `ws` with
`|w| = |pattern| ≤ M` whose letters contain the letters of the pattern other
than `?`; for a pattern without `?` these are the non-empty words of `ws` of
length at most `M` that are permutations of the pattern. -/
theorem C3_anagram_exact (ws : List QString) (spec : SearchSpec) (hws : UpperWords ws)
    (ht : spec.type = .Anagram) (hs : '*' ∉ spec.pattern) (hp : Plain spec) :
    ∃ res, search (build ws) spec = some res ∧
      (∀ w, (∃ r ∈ res, upper r = w) ↔
        (w ∈ ws ∧ w ≠ [] ∧ w.length = spec.pattern.length ∧
          (spec.pattern.length : Int) ≤ spec.maxLength ∧
          (letters spec.pattern : Multiset Char) ≤ (w : Multiset Char))) ∧
      ('?' ∉ spec.pattern → ∀ w, (∃ r ∈ res, upper r = w) ↔
        (w ∈ ws ∧ w ≠ [] ∧ (w.length : Int) ≤ spec.maxLength ∧ w.Perm spec.pattern)) := by
  rw [build_upper ws hws]
  have htp : spec.type ≠ .Pattern := by rw [ht]; decide
  have hqw : ∀ w ∈ ws, ∀ x ∈ w, x ≠ '?' := fun w hw x hx => isUpper_ne_question x (hws w hw x hx)
  have key : ∀ w, (∃ r ∈ finish spec (searchOut (plainBuild ws) spec), upper r = w) ↔
      (w ∈ ws ∧ w ≠ [] ∧ w.length = spec.pattern.length ∧
        (spec.pattern.length : Int) ≤ spec.maxLength ∧
        (letters spec.pattern : Multiset Char) ≤ (w : Multiset Char)) := by
    intro w
    rw [anagram_search_upper ws spec hws htp hs hp w]
    constructor
    · rintro ⟨h1, h2, h3, m, u1, h4, h5⟩
      have hu1 : u1 = [] := by
        rcases h5 with h5 | h5
        · rw [ht] at h5
          exact absurd h5 (by decide)
        · exact h5
      subst hu1
      obtain ⟨h6, h7⟩ := (consume_all_iff w (hqw w h1) spec.pattern).1 ⟨m, h4⟩
      exact ⟨h1, h2, h6, by rw [← h6]; exact h3, h7⟩
    · rintro ⟨h1, h2, h3, h4, h5⟩
      obtain ⟨m, hm⟩ := (consume_all_iff w (hqw w h1) spec.pattern).2 ⟨h3, h5⟩
      exact ⟨h1, h2, by rw [h3]; exact h4, m, [], hm, Or.inr rfl⟩
  refine ⟨_, search_eq _ _, key, ?_⟩
  intro hq w
  rw [key w]
  have hl : letters spec.pattern = spec.pattern := by
    unfold letters
    rw [List.filter_eq_self]
    intro a ha
    have : a ≠ '?' := fun h => hq (h ▸ ha)
    simpa using this
  rw [hl]
  constructor
  · rintro ⟨h1, h2, h3, h4, h5⟩
    refine ⟨h1, h2, by rw [h3]; exact h4, ?_⟩
    have := Multiset.eq_of_le_of_card_le h5 (by simp [h3])
    exact (Multiset.coe_eq_coe.1 this).symm
  · rintro ⟨h1, h2, h3, h4⟩
    refine ⟨h1, h2, h4.length_eq, by rw [← h4.length_eq]; exact h3, ?_⟩
    exact le_of_eq (Multiset.coe_eq_coe.2 h4.symm)

/-- C3 at the example of the specification: the `Anagram` query `ACT` over the
graph built from `CAT`, `ACT`, `TAC` and `TACO` returns `TAC`, `ACT` and `CAT`,
and not `TACO`. -/
theorem C3_anagram_exact_witness :
    (UpperWords [['C', 'A', 'T'], ['A', 'C', 'T'], ['T', 'A', 'C'], ['T', 'A', 'C', 'O']] ∧
      '*' ∉ ['A', 'C', 'T'] ∧ Plain ⟨.Anagram, ['A', 'C', 'T'], 0, 9, [], [], [], 0⟩ ∧
      ∃ res, search (build [['C', 'A', 'T'], ['A', 'C', 'T'], ['T', 'A', 'C'],
            ['T', 'A', 'C', 'O']]) ⟨.Anagram, ['A', 'C', 'T'], 0, 9, [], [], [], 0⟩ = some res ∧
        (∀ w, (∃ r ∈ res, upper r = w) ↔
          (w ∈ [['C', 'A', 'T'], ['A', 'C', 'T'], ['T', 'A', 'C'], ['T', 'A', 'C', 'O']] ∧
            w ≠ [] ∧ w.length = ['A', 'C', 'T'].length ∧
            ((['A', 'C', 'T'].length : Nat) : Int) ≤ 9 ∧
            (letters ['A', 'C', 'T'] : Multiset Char) ≤ (w : Multiset Char))) ∧
        ('?' ∉ ['A', 'C', 'T'] → ∀ w, (∃ r ∈ res, upper r = w) ↔
          (w ∈ [['C', 'A', 'T'], ['A', 'C', 'T'], ['T', 'A', 'C'], ['T', 'A', 'C', 'O']] ∧
            w ≠ [] ∧ (w.length : Int) ≤ 9 ∧ w.Perm ['A', 'C', 'T']))) ∧
    search (build [['C', 'A', 'T'], ['A', 'C', 'T'], ['T', 'A', 'C'], ['T', 'A', 'C', 'O']])
        ⟨.Anagram, ['A', 'C', 'T'], 0, 9, [], [], [], 0⟩ =
      some [['T', 'A', 'C'], ['A', 'C', 'T'], ['C', 'A', 'T']] :=
  ⟨⟨by simp [UpperWords], by decide, by simp [Plain],
    C3_anagram_exact [['C', 'A', 'T'], ['A', 'C', 'T'], ['T', 'A', 'C'], ['T', 'A', 'C', 'O']]
      ⟨.Anagram, ['A', 'C', 'T'], 0, 9, [], [], [], 0⟩ (by simp [UpperWords]) rfl (by decide)
      (by simp [Plain])⟩, search_eval _ _ _ (by decide)⟩

/-- C4. Subanagram inclusion: over a graph built from upper-case words, for a
`Subanagram` query whose pattern has no `*`, with `maxLength = M` and no other
constraint, `search` returns a list whose entries upper-cased are exactly the
words `w` of `ws` with `1 ≤ |w| ≤ M` of which at most as many letters are left
over, once the letters of the pattern are taken away, as the pattern has `?`;
and every entry is at most as long as the pattern. -/
theorem C4_subanagram (ws : List QString) (spec : SearchSpec) (hws : UpperWords ws)
    (ht : spec.type = .Subanagram) (hs : '*' ∉ spec.pattern) (hp : Plain spec) :
    ∃ res, search (build ws) spec = some res ∧
      (∀ w, (∃ r ∈ res, upper r = w) ↔
        (w ∈ ws ∧ 1 ≤ w.length ∧ (w.length : Int) ≤ spec.maxLength ∧
          Multiset.card ((w : Multiset Char) - (letters spec.pattern : Multiset Char)) ≤
            spec.pattern.count '?')) ∧
      ∀ r ∈ res, r.length ≤ spec.pattern.length := by
  rw [build_upper ws hws]
  have htp : spec.type ≠ .Pattern := by rw [ht]; decide
  have hqw : ∀ w ∈ ws, ∀ x ∈ w, x ≠ '?' := fun w hw x hx => isUpper_ne_question x (hws w hw x hx)
  refine ⟨_, search_eq _ _, ?_, ?_⟩
  · intro w
    rw [anagram_search_upper ws spec hws htp hs hp w]
    constructor
    · rintro ⟨h1, h2, h3, m, u1, h4, _⟩
      refine ⟨h1, ?_, h3, (consume_isSome_iff w (hqw w h1) spec.pattern).1 ⟨m, u1, h4⟩⟩
      cases w with
      | nil => exact absurd rfl h2
      | cons x w => simp
    · rintro ⟨h1, h2, h3, h4⟩
      obtain ⟨m, u1, hm⟩ := (consume_isSome_iff w (hqw w h1) spec.pattern).2 h4
      refine ⟨h1, ?_, h3, m, u1, hm, Or.inl ht⟩
      intro h
      subst h
      simp at h2
  · intro r hr
    obtain ⟨_, _, _, u1, h4, _⟩ := anagram_entry ws spec hws htp hs r hr
    obtain ⟨h5, h6⟩ := consume_length _ _ _ _ h4
    rw [upper_length] at h5
    omega

/-- C4 at the example of the specification: the `Subanagram` query `CATS` over
the graph built from `CAT`, `AT`, `CATS` and `CATSUP` returns `AT`, `CAT` and
`CATS`, and not `CATSUP`. -/
theorem C4_subanagram_witness :
    (UpperWords [['C', 'A', 'T'], ['A', 'T'], ['C', 'A', 'T', 'S'],
        ['C', 'A', 'T', 'S', 'U', 'P']] ∧
      '*' ∉ ['C', 'A', 'T', 'S'] ∧
      Plain ⟨.Subanagram, ['C', 'A', 'T', 'S'], 0, 9, [], [], [], 0⟩ ∧
      ∃ res, search (build [['C', 'A', 'T'], ['A', 'T'], ['C', 'A', 'T', 'S'],
            ['C', 'A', 'T', 'S', 'U', 'P']])
          ⟨.Subanagram, ['C', 'A', 'T', 'S'], 0, 9, [], [], [], 0⟩ = some res ∧
        (∀ w, (∃ r ∈ res, upper r = w) ↔
          (w ∈ [['C', 'A', 'T'], ['A', 'T'], ['C', 'A', 'T', 'S'],
              ['C', 'A', 'T', 'S', 'U', 'P']] ∧ 1 ≤ w.length ∧ (w.length : Int) ≤ 9 ∧
            Multiset.card ((w : Multiset Char) - (letters ['C', 'A', 'T', 'S'] : Multiset Char)) ≤
              ['C', 'A', 'T', 'S'].count '?')) ∧
        ∀ r ∈ res, r.length ≤ ['C', 'A', 'T', 'S'].length) ∧
    search (build [['C', 'A', 'T'], ['A', 'T'], ['C', 'A', 'T', 'S'],
          ['C', 'A', 'T', 'S', 'U', 'P']])
        ⟨.Subanagram, ['C', 'A', 'T', 'S'], 0, 9, [], [], [], 0⟩ =
      some [['A', 'T'], ['C', 'A', 'T'], ['C', 'A', 'T', 'S']] :=
  ⟨⟨by simp [UpperWords], by decide, by simp [Plain],
    C4_subanagram [['C', 'A', 'T'], ['A', 'T'], ['C', 'A', 'T', 'S'],
        ['C', 'A', 'T', 'S', 'U', 'P']]
      ⟨.Subanagram, ['C', 'A', 'T', 'S'], 0, 9, [], [], [], 0⟩ (by simp [UpperWords]) rfl
      (by decide) (by simp [Plain])⟩, search_eval _ _ _ (by decide)⟩

/-- C8. Casing contract for anagram results: over a graph built from
upper-case words, for an `Anagram` or `Subanagram` query whose pattern has no
`*`, `search` returns a list, and in every entry the upper-case characters
form a sub-multiset of the letters of the pattern and the lower-case
characters are at most as many as the `?` of the pattern, exactly as many for
`Anagram`. -/
theorem C8_anagram_casing (ws : List QString) (spec : SearchSpec) (hws : UpperWords ws)
    (ht : spec.type ≠ .Pattern) (hs : '*' ∉ spec.pattern) :
    ∃ res, search (build ws) spec = some res ∧
      ∀ r ∈ res,
        ((r.filter Char.isUpper : QString) : Multiset Char) ≤
            (letters spec.pattern : Multiset Char) ∧
          (r.filter Char.isLower).length ≤ spec.pattern.count '?' ∧
          (spec.type = .Anagram → (r.filter Char.isLower).length = spec.pattern.count '?') := by
  rw [build_upper ws hws]
  refine ⟨_, search_eq _ _, ?_⟩
  intro r hr
  obtain ⟨h1, _, _, u1, h4, h5⟩ := anagram_entry ws spec hws ht hs r hr
  obtain ⟨h6, h7⟩ := consume_casing (upper r) (hws _ h1) _ _ _ h4
  refine ⟨?_, by omega, ?_⟩
  · rw [← h6]
    exact Multiset.le_add_right _ _
  · intro ha
    rw [h5 ha] at h7
    simpa using h7

/-- C8 at the `Anagram` query `T?C` over the graph built from `CAT` and `COT`:
the results are `CoT` and `CaT`. -/
theorem C8_anagram_casing_witness :
    (UpperWords [['C', 'A', 'T'], ['C', 'O', 'T']] ∧
      (⟨.Anagram, ['T', '?', 'C'], 0, 9, [], [], [], 0⟩ : SearchSpec).type ≠ .Pattern ∧
      '*' ∉ ['T', '?', 'C'] ∧
      ∃ res, search (build [['C', 'A', 'T'], ['C', 'O', 'T']])
          ⟨.Anagram, ['T', '?', 'C'], 0, 9, [], [], [], 0⟩ = some res ∧
        ∀ r ∈ res,
          ((r.filter Char.isUpper : QString) : Multiset Char) ≤
              (letters ['T', '?', 'C'] : Multiset Char) ∧
            (r.filter Char.isLower).length ≤ ['T', '?', 'C'].count '?' ∧
            ((⟨.Anagram, ['T', '?', 'C'], 0, 9, [], [], [], 0⟩ : SearchSpec).type = .Anagram →
              (r.filter Char.isLower).length = ['T', '?', 'C'].count '?')) ∧
    search (build [['C', 'A', 'T'], ['C', 'O', 'T']])
        ⟨.Anagram, ['T', '?', 'C'], 0, 9, [], [], [], 0⟩ =
      some [['C', 'o', 'T'], ['C', 'a', 'T']] :=
  ⟨⟨by simp [UpperWords], by decide, by decide,
    C8_anagram_casing [['C', 'A', 'T'], ['C', 'O', 'T']]
      ⟨.Anagram, ['T', '?', 'C'], 0, 9, [], [], [], 0⟩ (by simp [UpperWords]) (by decide)
      (by decide)⟩, search_eval _ _ _ (by decide)⟩

/-! ## `matchesSpec` -/

theorem includeLoop_cons (word : QString) (a : Char) (inc : QString) :
    includeLoop word (a :: inc) = (decide (a ∈ word) && includeLoop (word.erase a) inc) := by
  by_cases h : a ∈ word
  · have h1 : ¬ find word a < 0 := by
      have := (find_nonneg_iff word a).2 h
      omega
    simp [includeLoop, h1, h, remove_find word a h]
  · have h1 : find word a < 0 := (find_neg_iff word a).2 h
    simp [includeLoop, h1, h]

/-- The `Include Letters` loop succeeds exactly when every character occurs
in the word at least as often as among the letters to include. -/
theorem includeLoop_iff (inc : QString) :
    ∀ word : QString, includeLoop word inc = true ↔ ∀ c, inc.count c ≤ word.count c := by
  induction inc with
  | nil => intro word; simp [includeLoop]
  | cons a inc ih =>
    intro word
    rw [includeLoop_cons]
    simp only [Bool.and_eq_true, decide_eq_true_eq, ih]
    constructor
    · rintro ⟨h1, h2⟩ c
      have h3 := h2 c
      by_cases hc : a = c
      · subst hc
        have h4 : 1 ≤ word.count a := List.count_pos_iff.2 h1
        rw [List.count_erase_self] at h3
        rw [List.count_cons_self]
        omega
      · rw [List.count_erase_of_ne (Ne.symm hc)] at h3
        rw [List.count_cons_of_ne (Ne.symm hc)]
        exact h3
    · intro h
      have ha : a ∈ word := by
        have := h a
        rw [List.count_cons_self] at this
        exact List.count_pos_iff.1 (by omega)
      refine ⟨ha, fun c => ?_⟩
      have h3 := h c
      by_cases hc : a = c
      · subst hc
        rw [List.count_cons_self] at h3
        rw [List.count_erase_self]
        omega
      · rw [List.count_cons_of_ne (Ne.symm hc)] at h3
        rw [List.count_erase_of_ne (Ne.symm hc)]
        exact h3

theorem matchesSpec_include (word : QString) (spec : SearchSpec)
    (h : matchesSpec word spec = true) : includeLoop word spec.includeLetters = true := by
  unfold matchesSpec at h
  by_cases h1 : (word.length : Int) < spec.minLength
  · simp [h1] at h
  · cases h2 : includeLoop word spec.includeLetters with
    | true => rfl
    | false => simp [h1, h2] at h

theorem matchesSpec_eq_include (word : QString) (spec : SearchSpec)
    (h1 : spec.minLength ≤ (word.length : Int)) (h2 : spec.consistPercent = 0) :
    matchesSpec word spec = includeLoop word spec.includeLetters := by
  unfold matchesSpec
  have h3 : ¬ ((word.length : Int) < spec.minLength) := by omega
  cases h4 : includeLoop word spec.includeLetters <;> simp [h3, h4, h2]

theorem consistCount_eq (cl word : QString) :
    consistCount cl word = ((word.countP (fun c => decide (c ∈ cl)) : Nat) : Int) := by
  induction word with
  | nil => rfl
  | cons a word ih =>
    simp only [consistCount, ih, List.countP_cons]
    by_cases h : a ∈ cl
    · simp [h]
      omega
    · simp [h]

theorem matchesSpec_consist (word : QString) (spec : SearchSpec)
    (h1 : spec.minLength ≤ (word.length : Int)) (h2 : spec.includeLetters = []) :
    matchesSpec word spec =
      !decide (spec.consistPercent > 0 ∧
        ((word.countP (fun c => decide (c ∈ spec.consistLetters)) * 100 / word.length : Nat) : Int)
          < spec.consistPercent) := by
  unfold matchesSpec
  have h3 : ¬ ((word.length : Int) < spec.minLength) := by omega
  rw [consistCount_eq]
  have h4 : ((word.countP (fun c => decide (c ∈ spec.consistLetters)) : Nat) : Int) * 100 /
      (word.length : Int) =
      ((word.countP (fun c => decide (c ∈ spec.consistLetters)) * 100 / word.length : Nat) : Int) := by
    push_cast
    rfl
  rw [h4]
  simp only [h3, if_false, h2, includeLoop, Bool.not_true, Bool.false_eq_true]
  by_cases hcp : spec.consistPercent > 0
  · by_cases hlt : ((word.countP (fun c => decide (c ∈ spec.consistLetters)) * 100 /
        word.length : Nat) : Int) < spec.consistPercent
    · simp [hcp, hlt]
    · simp [hcp, hlt]
  · simp [hcp]

/-! ## The order of the set -/

theorem qlt_trans (a : QString) :
    ∀ b c : QString, qlt a b = true → qlt b c = true → qlt a c = true := by
  induction a with
  | nil =>
    intro b c h1 h2
    cases b with
    | nil => simp [qlt] at h1
    | cons y b =>
      cases c with
      | nil => simp [qlt] at h2
      | cons z c => simp [qlt]
  | cons x a ih =>
    intro b c h1 h2
    cases b with
    | nil => simp [qlt] at h1
    | cons y b =>
      cases c with
      | nil => simp [qlt] at h2
      | cons z c =>
        simp only [qlt] at h1 h2 ⊢
        by_cases hxy : x.toNat < y.toNat
        · by_cases hyz : y.toNat < z.toNat
          · have : x.toNat < z.toNat := by omega
            simp [this]
          · by_cases hzy : z.toNat < y.toNat
            · simp [hyz, hzy] at h2
            · have : x.toNat < z.toNat := by omega
              simp [this]
        · by_cases hyx : y.toNat < x.toNat
          · simp [hxy, hyx] at h1
          · simp only [hxy, hyx, if_false] at h1
            by_cases hyz : y.toNat < z.toNat
            · have : x.toNat < z.toNat := by omega
              simp [this]
            · by_cases hzy : z.toNat < y.toNat
              · simp [hyz, hzy] at h2
              · simp only [hyz, hzy, if_false] at h2
                have h3 : ¬ x.toNat < z.toNat := by omega
                have h4 : ¬ z.toNat < x.toNat := by omega
                simp only [h3, h4, if_false]
                exact ih b c h1 h2

theorem setInsert_sorted (w : QString) (s : List QString)
    (h : s.Pairwise (fun a b => qlt a b = true)) :
    (setInsert w s).Pairwise (fun a b => qlt a b = true) := by
  induction s with
  | nil => simp [setInsert]
  | cons x s ih =>
    rw [List.pairwise_cons] at h
    simp only [setInsert]
    by_cases h1 : qlt w x = true
    · simp only [h1, if_true]
      rw [List.pairwise_cons]
      refine ⟨?_, List.pairwise_cons.2 h⟩
      intro y hy
      rcases List.mem_cons.1 hy with rfl | hy
      · exact h1
      · exact qlt_trans _ _ _ h1 (h.1 y hy)
    · by_cases h2 : qlt x w = true
      · have h1f : qlt w x = false := by simpa using h1
        simp only [h1f, h2, if_true, Bool.false_eq_true, if_false]
        rw [List.pairwise_cons]
        refine ⟨?_, ih h.2⟩
        intro y hy
        rcases (mem_setInsert y w s).1 hy with rfl | hy
        · exact h2
        · exact h.1 y hy
      · have h1f : qlt w x = false := by simpa using h1
        have h2f : qlt x w = false := by simpa using h2
        simp only [h1f, h2f, Bool.false_eq_true, if_false]
        exact List.pairwise_cons.2 h

theorem foldl_setInsert_sorted (outs s : List QString)
    (h : s.Pairwise (fun a b => qlt a b = true)) :
    (outs.foldl (fun s w => setInsert w s) s).Pairwise (fun a b => qlt a b = true) := by
  induction outs generalizing s with
  | nil => exact h
  | cons w outs ih => exact ih _ (setInsert_sorted w s h)

/-- The list a `Pattern` search returns is strictly ascending. -/
theorem finish_sorted (spec : SearchSpec) (ht : spec.type = .Pattern) (outs : List QString) :
    (finish spec outs).Pairwise (fun a b => qlt a b = true) := by
  unfold finish
  simp only [ht, if_true]
  exact foldl_setInsert_sorted outs [] List.Pairwise.nil

/-! ## Inserting a word again -/

theorem plainAt_plainChain (c : Char) (w : QString) :
    plainAt (plainChain (c :: w)) (c :: w) = plainChain (c :: w) ∧
      addedNodes (plainChain (c :: w)) (c :: w) = 0 := by
  induction w generalizing c with
  | nil => simp [plainChain, plainAt, addedNodes]
  | cons d w ih => simp [plainChain, plainAt, addedNodes, ih d]

theorem plainAt_idem (n : Node) :
    ∀ w : QString, plainAt (plainAt n w) w = plainAt n w ∧ addedNodes (plainAt n w) w = 0 := by
  induction n with
  | null =>
    intro w
    cases w with
    | nil => simp [plainAt, addedNodes]
    | cons c w =>
      simp only [plainAt]
      exact plainAt_plainChain c w
  | mk l e nx ch ihnx ihch =>
    intro w
    cases w with
    | nil => simp [plainAt, addedNodes]
    | cons c w =>
      by_cases hlc : l = c
      · subst hlc
        cases w with
        | nil => simp [plainAt, addedNodes]
        | cons d w => simp [plainAt, addedNodes, ihch (d :: w)]
      · simp [plainAt, addedNodes, hlc, ihnx (c :: w)]

theorem plainAddWord_idem (g : Graph) (w : QString) : plainAddWord (plainAddWord g w) w = plainAddWord g w := by
  cases w with
  | nil => simp [plainAddWord]
  | cons c w =>
    simp only [plainAddWord, List.isEmpty_cons, Bool.false_eq_true, if_false]
    rw [(plainAt_idem g.top (c :: w)).1, (plainAt_idem g.top (c :: w)).2]
    rfl

/-! ## `Anagram` and `Subanagram` searches with a star -/

theorem visit_nonpattern (spec : SearchSpec) (wildcard : Bool) (c : Char) (w u : QString)
    (x : Char) (ht : spec.type ≠ .Pattern) :
    visit spec wildcard c w u x =
      if x ∈ spec.excludeLetters then none
      else if x ∈ u then some (w ++ [x], u.erase x)
      else if '?' ∈ u then some (w ++ [x.toLower], u.erase '?')
      else if wildcard then some (w ++ [x.toLower], u)
      else none := by
  have key : visit spec wildcard c w u x =
      if x ∈ spec.excludeLetters then none
      else if 0 ≤ find u x then some (w ++ [x], remove u (find u x))
      else if 0 ≤ find u '?' then some (w ++ [x.toLower], remove u (find u '?'))
      else if wildcard then some (w ++ [x.toLower], u)
      else none := by
    unfold visit
    cases h : spec.type with
    | Pattern => exact absurd h ht
    | Anagram => simp
    | Subanagram => simp
  rw [key]
  simp only [find_nonneg_iff]
  by_cases h1 : x ∈ u
  · simp [h1, remove_find u x h1]
  · by_cases h2 : '?' ∈ u
    · simp [h1, h2, remove_find u '?' h2]
    · simp [h1, h2]

theorem pushed_nonpattern (spec : SearchSpec) (wildcard : Bool) (c : Char) (u : QString)
    (ht : spec.type ≠ .Pattern) :
    pushed spec wildcard c u = if wildcard = true ∨ u ≠ [] then [u] else [] := by
  unfold pushed
  cases h : spec.type with
  | Pattern => exact absurd h ht
  | Anagram => cases u <;> cases wildcard <;> simp
  | Subanagram => cases u <;> cases wildcard <;> simp

/-- What the `for` body of an `Anagram` or `Subanagram` search leaves of the
tiles: they lose the letter, or a `?`, or nothing. -/
theorem visit_nonpattern_some (spec : SearchSpec) (wildcard : Bool) (c : Char) (w u : QString)
    (x : Char) (w1 u1 : QString) (ht : spec.type ≠ .Pattern)
    (h : visit spec wildcard c w u x = some (w1, u1)) :
    w1.length = w.length + 1 ∧
      ((x ∈ u ∧ u1 = u.erase x) ∨ ('?' ∈ u ∧ u1 = u.erase '?') ∨ u1 = u) := by
  rw [visit_nonpattern _ _ _ _ _ _ ht] at h
  split at h
  · simp at h
  · split at h
    · simp only [Option.some.injEq, Prod.mk.injEq] at h
      obtain ⟨rfl, rfl⟩ := h
      exact ⟨by simp, Or.inl ⟨by assumption, rfl⟩⟩
    · split at h
      · simp only [Option.some.injEq, Prod.mk.injEq] at h
        obtain ⟨rfl, rfl⟩ := h
        exact ⟨by simp, Or.inr (Or.inl ⟨by assumption, rfl⟩)⟩
      · split at h
        · simp only [Option.some.injEq, Prod.mk.injEq] at h
          obtain ⟨rfl, rfl⟩ := h
          exact ⟨by simp, Or.inr (Or.inr rfl)⟩
        · simp at h

/-- The derivations depend on the query only through its kind, `maxLength`,
the excluded letters and `matchesSpec`, not through its pattern. -/
theorem der_congr (spec spec2 : SearchSpec) (wildcard : Bool)
    (ht : spec2.type = spec.type) (hM : spec2.maxLength = spec.maxLength)
    (hx : spec2.excludeLetters = spec.excludeLetters)
    (hm : ∀ w, matchesSpec w spec2 = matchesSpec w spec) (w u rest r : QString)
    (h : Der spec wildcard w u rest r) : Der spec2 wildcard w u rest r := by
  have hv : ∀ c w u x, visit spec2 wildcard c w u x = visit spec wildcard c w u x := by
    intro c w u x
    unfold visit
    rw [ht, hx]
  have hp : ∀ c u, pushed spec2 wildcard c u = pushed spec wildcard c u := by
    intro c u
    unfold pushed
    rw [ht]
  have ha : ∀ e w u, accepted spec2 e w u = accepted spec e w u := by
    intro e w u
    unfold accepted
    rw [ht, hm]
  have hh : ∀ u, headChar spec2 u = headChar spec u := by
    intro u
    unfold headChar
    rw [ht]
  induction h with
  | zero h1 h2 h3 _ ih =>
    exact Der.zero (by rw [hM]; exact h1) (by rw [ht]; exact h2) (by rw [hh]; exact h3) ih
  | last h1 h2 h3 =>
    exact Der.last (by rw [hM]; exact h1) (by rw [hh, hv]; exact h2) (by rw [ha]; exact h3)
  | next h1 h2 h3 _ ih =>
    exact Der.next (by rw [hM]; exact h1) (by rw [hh, hv]; exact h2)
      (by rw [hh, hp]; exact h3) ih

/-- With the star an `Anagram` or `Subanagram` search hands over all that it
hands over without it. -/
theorem der_wildcard_mono (spec : SearchSpec) (ht : spec.type ≠ .Pattern)
    (w u rest r : QString) (h : Der spec false w u rest r) : Der spec true w u rest r := by
  have hv : ∀ c w u x p, visit spec false c w u x = some p → visit spec true c w u x = some p := by
    intro c w u x p hp
    rw [visit_nonpattern _ _ _ _ _ _ ht] at hp ⊢
    split at hp
    · simp at hp
    · rename_i h1
      simp only [h1, if_false]
      split at hp
      · rename_i h2
        simpa [h2] using hp
      · rename_i h2
        simp only [h2, if_false]
        split at hp
        · rename_i h3
          simpa [h3] using hp
        · simp at hp
  have hp : ∀ c u v, v ∈ pushed spec false c u → v ∈ pushed spec true c u := by
    intro c u v hv
    rw [pushed_nonpattern _ _ _ _ ht] at hv ⊢
    split at hv
    · simpa using hv
    · simp at hv
  induction h with
  | zero _ h2 _ _ _ => exact absurd h2 ht
  | last h1 h2 h3 => exact Der.last h1 (hv _ _ _ _ _ h2) h3
  | next h1 h2 h3 _ ih => exact Der.next h1 (hv _ _ _ _ _ h2) (hp _ _ _ h3) ih

/-- An `Anagram` search hands a word over only when the tiles are used up:
the word is at least as long as the word of the state and its tiles. -/
theorem der_anagram_length (spec : SearchSpec) (wildcard : Bool) (ht : spec.type = .Anagram)
    (w u rest r : QString) (h : Der spec wildcard w u rest r) :
    w.length + u.length ≤ r.length := by
  have htp : spec.type ≠ .Pattern := by rw [ht]; decide
  have hlen : ∀ c w u x w1 u1, visit spec wildcard c w u x = some (w1, u1) →
      w1.length = w.length + 1 ∧ u.length ≤ u1.length + 1 := by
    intro c w u x w1 u1 hv
    obtain ⟨h1, h2⟩ := visit_nonpattern_some _ _ _ _ _ _ _ _ htp hv
    refine ⟨h1, ?_⟩
    rcases h2 with ⟨hm, rfl⟩ | ⟨hm, rfl⟩ | rfl
    · rw [List.length_erase_of_mem hm]
      omega
    · rw [List.length_erase_of_mem hm]
      omega
    · omega
  induction h with
  | zero _ h2 _ _ _ => exact absurd h2 htp
  | @last w u w1 u1 x h1 h2 h3 =>
    obtain ⟨h4, h5⟩ := hlen _ _ _ _ _ _ h2
    rw [accepted_anagram _ _ _ htp] at h3
    have h6 : u1 = [] := by
      rcases h3.1 with h | h
      · rw [ht] at h
        exact absurd h (by decide)
      · exact h
    subst h6
    simp only [List.length_nil] at h5
    omega
  | @next w u w1 u1 v rest r x y h1 h2 h3 _ ih =>
    obtain ⟨h4, h5⟩ := hlen _ _ _ _ _ _ h2
    rw [pushed_nonpattern _ _ _ _ htp] at h3
    have h6 : v = u1 := by
      split at h3
      · simpa using h3
      · simp at h3
    subst h6
    omega

/-- A tile that is neither an upper-case letter nor `?` is never used up, so
an `Anagram` search from tiles holding one hands nothing over. -/
theorem der_anagram_bad (spec : SearchSpec) (wildcard : Bool) (ht : spec.type = .Anagram)
    (b : Char) (hb1 : b.isUpper = false) (hb2 : b ≠ '?')
    (w u rest r : QString) (h : Der spec wildcard w u rest r)
    (hu : ∀ x ∈ rest, x.isUpper = true) (hb : b ∈ u) : False := by
  have htp : spec.type ≠ .Pattern := by rw [ht]; decide
  have hkeep : ∀ c w u x w1 u1, x.isUpper = true → b ∈ u →
      visit spec wildcard c w u x = some (w1, u1) → b ∈ u1 := by
    intro c w u x w1 u1 hx hbu hv
    obtain ⟨_, h2⟩ := visit_nonpattern_some _ _ _ _ _ _ _ _ htp hv
    have hbx : b ≠ x := by
      intro h
      subst h
      rw [hx] at hb1
      exact absurd hb1 (by decide)
    rcases h2 with ⟨_, rfl⟩ | ⟨_, rfl⟩ | rfl
    · exact (List.mem_erase_of_ne hbx).2 hbu
    · exact (List.mem_erase_of_ne hb2).2 hbu
    · exact hbu
  induction h with
  | zero _ h2 _ _ _ => exact absurd h2 htp
  | @last w u w1 u1 x h1 h2 h3 =>
    have h4 := hkeep _ _ _ _ _ _ (hu x (by simp)) hb h2
    rw [accepted_anagram _ _ _ htp] at h3
    rcases h3.1 with h | h
    · rw [ht] at h
      exact absurd h (by decide)
    · rw [h] at h4
      simp at h4
  | @next w u w1 u1 v rest r x y h1 h2 h3 _ ih =>
    have h4 := hkeep _ _ _ _ _ _ (hu x (by simp)) hb h2
    rw [pushed_nonpattern _ _ _ _ htp] at h3
    have h6 : v = u1 := by
      split at h3
      · simpa using h3
      · simp at h3
    subst h6
    exact ih (fun z hz => hu z (by simp [hz])) h4

theorem globMatch_chars (u : QString) :
    ∀ rest : QString, globMatch u rest = true → ∀ c ∈ u, c = '*' ∨ c = '?' ∨ c ∈ rest := by
  induction u with
  | nil => intro rest _ c hc; simp at hc
  | cons p ps ih =>
    intro rest hg c hc
    by_cases hp : p = '*'
    · subst hp
      rw [globMatch_star] at hg
      obtain ⟨t, ht1, ht2⟩ := hg
      rcases List.mem_cons.1 hc with rfl | hc
      · exact Or.inl rfl
      · rcases ih t ht2 c hc with h | h | h
        · exact Or.inl h
        · exact Or.inr (Or.inl h)
        · exact Or.inr (Or.inr (ht1.subset h))
    · cases rest with
      | nil => simp [globMatch_cons_nil p ps hp] at hg
      | cons x t =>
        rw [globMatch_cons_cons _ _ _ _ hp] at hg
        rcases List.mem_cons.1 hc with rfl | hc
        · rcases hg.1 with h | h
          · exact Or.inr (Or.inl h)
          · exact Or.inr (Or.inr (by simp [h]))
        · rcases ih t hg.2 c hc with h | h | h
          · exact Or.inl h
          · exact Or.inr (Or.inl h)
          · exact Or.inr (Or.inr (by simp [h]))

theorem mem_startPattern_nonpattern (spec : SearchSpec) (ht : spec.type ≠ .Pattern) (b : Char)
    (hb : b ∈ spec.pattern) (hb3 : b ≠ '*') : b ∈ startPattern spec := by
  unfold startPattern
  cases h : spec.type with
  | Pattern => exact absurd h ht
  | Anagram =>
    simp only
    split
    · simp [removeStars, hb, hb3]
    · exact hb
  | Subanagram =>
    simp only
    split
    · simp [removeStars, hb, hb3]
    · exact hb

/-- A `Pattern` or `Anagram` search over upper-case words whose pattern holds
a character that is neither an upper-case letter nor `?` nor `*` produces
nothing. -/
theorem bad_char_search (ws : List QString) (spec : SearchSpec) (hws : UpperWords ws)
    (b : Char) (hb : b ∈ spec.pattern) (hb1 : b.isUpper = false) (hb2 : b ≠ '?')
    (hb3 : b ≠ '*') (ht : spec.type ≠ .Subanagram) :
    finish spec (searchOut (plainBuild ws) spec) = [] := by
  cases hres : finish spec (searchOut (plainBuild ws) spec) with
  | nil => rfl
  | cons r res =>
    exfalso
    have hr : r ∈ finish spec (searchOut (plainBuild ws) spec) := by simp [hres]
    rw [search_mem] at hr
    obtain ⟨rest, hpath, hd⟩ := hr
    rw [hasPath_plainBuild] at hpath
    have hu := hws rest hpath.2
    cases hty : spec.type with
    | Subanagram => exact ht hty
    | Anagram =>
      exact der_anagram_bad spec _ hty b hb1 hb2 _ _ _ _ hd hu
        (mem_startPattern_nonpattern spec (by rw [hty]; decide) b hb hb3)
    | Pattern =>
      have hg := der_globMatch spec _ hty _ _ _ _ hd hu
      rw [startPattern_glob _ hty] at hg
      have hne : spec.pattern ≠ [] := by
        intro h
        rw [h] at hb
        simp at hb
      simp only [hne, if_false] at hg
      rcases globMatch_chars _ _ hg b hb with h | h | h
      · exact hb3 h
      · exact hb2 h
      · rw [hu b h] at hb1
        exact absurd hb1 (by decide)

/-! ## Claims on `matchesSpec`, the result set, insertion and termination -/

/-- C11. Include letters are a multiset requirement: for a word and a spec
with `minLength ≤ |word|` and `consistPercent = 0`, `matchesSpec` is true if
and only if every character occurs in the word at least as many times as in
`includeLetters`; and for every graph and every query `search` returns a list
each entry of which, upper-cased, contains `includeLetters` as a
sub-multiset. -/
theorem C11_include_multiset (word : QString) (spec : SearchSpec)
    (h1 : spec.minLength ≤ (word.length : Int)) (h2 : spec.consistPercent = 0)
    (g : Graph) (spec2 : SearchSpec) :
    (matchesSpec word spec = true ↔ ∀ c, spec.includeLetters.count c ≤ word.count c) ∧
      ∃ res, search g spec2 = some res ∧
        ∀ r ∈ res, (spec2.includeLetters : Multiset Char) ≤ (upper r : Multiset Char) := by
  refine ⟨?_, _, search_eq _ _, ?_⟩
  · rw [matchesSpec_eq_include word spec h1 h2, includeLoop_iff]
  · intro r hr
    obtain ⟨_, _, _, _, h3, _⟩ := search_entry _ _ _ hr
    have h4 := (includeLoop_iff _ _).1 (matchesSpec_include _ _ h3)
    rw [Multiset.le_iff_count]
    intro a
    simpa using h4 a

/-- C11 at the word `TEE` with `includeLetters = EE`, which passes, next to
the word `TEA`, which has one `E` only and is rejected. -/
theorem C11_include_multiset_witness :
    ((⟨.Pattern, [], 0, 5, ['E', 'E'], [], [], 0⟩ : SearchSpec).minLength ≤
        ((['T', 'E', 'E'].length : Nat) : Int) ∧
      (⟨.Pattern, [], 0, 5, ['E', 'E'], [], [], 0⟩ : SearchSpec).consistPercent = 0 ∧
      ((matchesSpec ['T', 'E', 'E'] ⟨.Pattern, [], 0, 5, ['E', 'E'], [], [], 0⟩ = true ↔
          ∀ c, ['E', 'E'].count c ≤ ['T', 'E', 'E'].count c) ∧
        ∃ res, search (build [['T', 'E', 'E'], ['T', 'E', 'A']])
            ⟨.Pattern, ['T', '*'], 0, 5, ['E', 'E'], [], [], 0⟩ = some res ∧
          ∀ r ∈ res, ((['E', 'E'] : QString) : Multiset Char) ≤ (upper r : Multiset Char))) ∧
    matchesSpec ['T', 'E', 'E'] ⟨.Pattern, [], 0, 5, ['E', 'E'], [], [], 0⟩ = true ∧
    matchesSpec ['T', 'E', 'A'] ⟨.Pattern, [], 0, 5, ['E', 'E'], [], [], 0⟩ = false ∧
    search (build [['T', 'E', 'E'], ['T', 'E', 'A']])
        ⟨.Pattern, ['T', '*'], 0, 5, ['E', 'E'], [], [], 0⟩ = some [['T', 'e', 'e']] :=
  ⟨⟨by decide, rfl,
    C11_include_multiset ['T', 'E', 'E'] ⟨.Pattern, [], 0, 5, ['E', 'E'], [], [], 0⟩
      (by decide) rfl (build [['T', 'E', 'E'], ['T', 'E', 'A']])
      ⟨.Pattern, ['T', '*'], 0, 5, ['E', 'E'], [], [], 0⟩⟩,
    by decide, by decide, search_eval _ _ _ (by decide)⟩

/-- C12. The consist constraint uses the truncating integer percent: for a
non-empty word and a spec with `minLength ≤ |word|` and no letters to include,
when `consistPercent > 0` `matchesSpec` is false exactly when
`floor (count * 100 / |word|) < consistPercent`, `count` being the number of
positions of the word whose character occurs in `consistLetters`; when
`consistPercent ≤ 0` `matchesSpec` is true. -/
theorem C12_consist_percent (word : QString) (spec : SearchSpec) (_hne : word ≠ [])
    (h1 : spec.minLength ≤ (word.length : Int)) (h2 : spec.includeLetters = []) :
    (0 < spec.consistPercent →
      (matchesSpec word spec = false ↔
        ((word.countP (fun c => decide (c ∈ spec.consistLetters)) * 100 / word.length : Nat) : Int)
          < spec.consistPercent)) ∧
      (spec.consistPercent ≤ 0 → matchesSpec word spec = true) := by
  rw [matchesSpec_consist word spec h1 h2]
  constructor
  · intro hcp
    simp [hcp]
  · intro hcp
    have : ¬ spec.consistPercent > 0 := by omega
    simp [this]

/-- C12 at the example of the claim: with `consistLetters = AEIOU` and
`consistPercent = 34` the word `CAT`, one vowel in three letters, is rejected,
`33 < 34`; with `consistPercent = 33` it passes. -/
theorem C12_consist_percent_witness :
    ((['C', 'A', 'T'] : QString) ≠ [] ∧
      (⟨.Pattern, [], 0, 5, [], [], ['A', 'E', 'I', 'O', 'U'], 34⟩ : SearchSpec).minLength ≤
        ((['C', 'A', 'T'].length : Nat) : Int) ∧
      (⟨.Pattern, [], 0, 5, [], [], ['A', 'E', 'I', 'O', 'U'], 34⟩ : SearchSpec).includeLetters
        = [] ∧
      ((0 < (34 : Int) →
        (matchesSpec ['C', 'A', 'T'] ⟨.Pattern, [], 0, 5, [], [], ['A', 'E', 'I', 'O', 'U'], 34⟩
            = false ↔
          ((['C', 'A', 'T'].countP (fun c => decide (c ∈ ['A', 'E', 'I', 'O', 'U'])) * 100 /
            ['C', 'A', 'T'].length : Nat) : Int) < 34)) ∧
        ((34 : Int) ≤ 0 →
          matchesSpec ['C', 'A', 'T']
            ⟨.Pattern, [], 0, 5, [], [], ['A', 'E', 'I', 'O', 'U'], 34⟩ = true))) ∧
    matchesSpec ['C', 'A', 'T'] ⟨.Pattern, [], 0, 5, [], [], ['A', 'E', 'I', 'O', 'U'], 34⟩
      = false ∧
    matchesSpec ['C', 'A', 'T'] ⟨.Pattern, [], 0, 5, [], [], ['A', 'E', 'I', 'O', 'U'], 33⟩
      = true ∧
    ['C', 'A', 'T'].countP (fun c => decide (c ∈ ['A', 'E', 'I', 'O', 'U'])) * 100 /
      ['C', 'A', 'T'].length = 33 :=
  ⟨⟨by simp, by decide, rfl,
    C12_consist_percent ['C', 'A', 'T']
      ⟨.Pattern, [], 0, 5, [], [], ['A', 'E', 'I', 'O', 'U'], 34⟩ (by simp) (by decide) rfl⟩,
    by decide, by decide, by decide⟩

/-- C13. Pattern results are a sorted set: for every graph and every `Pattern`
query `search` returns a list that is strictly ascending in the order of the
strings, hence without two equal entries. -/
theorem C13_pattern_sorted (g : Graph) (spec : SearchSpec) (ht : spec.type = .Pattern) :
    ∃ res, search g spec = some res ∧
      res.Pairwise (fun a b => qlt a b = true) ∧ res.Nodup := by
  refine ⟨_, search_eq _ _, finish_sorted spec ht _, ?_⟩
  refine List.Pairwise.imp ?_ (finish_sorted spec ht _)
  intro a b hab h
  subst h
  rw [qlt_irrefl] at hab
  exact absurd hab (by decide)

/-- C13 at the `Pattern` query `*A*` over the graph built from `BA`, `AB` and
`AA`. -/
theorem C13_pattern_sorted_witness :
    ((⟨.Pattern, ['*', 'A', '*'], 0, 5, [], [], [], 0⟩ : SearchSpec).type = .Pattern ∧
      ∃ res, search (build [['B', 'A'], ['A', 'B'], ['A', 'A']])
          ⟨.Pattern, ['*', 'A', '*'], 0, 5, [], [], [], 0⟩ = some res ∧
        res.Pairwise (fun a b => qlt a b = true) ∧ res.Nodup) ∧
    search (build [['B', 'A'], ['A', 'B'], ['A', 'A']])
        ⟨.Pattern, ['*', 'A', '*'], 0, 5, [], [], [], 0⟩ =
      some [['A', 'a'], ['A', 'b'], ['a', 'A'], ['b', 'A']] :=
  ⟨⟨rfl, C13_pattern_sorted (build [['B', 'A'], ['A', 'B'], ['A', 'A']])
      ⟨.Pattern, ['*', 'A', '*'], 0, 5, [], [], [], 0⟩ rfl⟩, search_eval _ _ _ (by decide)⟩

/-- C14 does not hold of the code: over the graph built from `AA` the
`Pattern` query `*A*` returns the two entries `Aa` and `aA`, which spell the
same word; the set keeps a word once only for each way of writing it. -/
theorem C14_same_word_twice :
    search (build [['A', 'A']]) ⟨.Pattern, ['*', 'A', '*'], 0, 5, [], [], [], 0⟩ =
        some [['A', 'a'], ['a', 'A']] ∧
      upper ['A', 'a'] = upper ['a', 'A'] ∧ (['A', 'a'] : QString) ≠ ['a', 'A'] :=
  ⟨search_eval _ _ _ (by decide), by decide, by decide⟩

/-- C17, as stated, fails for a word with a character that does not fit in a
`char`: on the empty graph `addWord` of the one-letter word `Ω` (U+03A9)
returns, with a node that holds the character 0; the second `addWord` of the
same word never finds the letter in the chain, appends node after node and
does not return. -/
theorem C17_counterexample :
    ∃ g1, addWord Graph.empty ['Ω'] = some g1 ∧ addWord g1 ['Ω'] = none :=
  ⟨_, rfl, rfl⟩

/-- C17, amended. Insertion is idempotent for a word whose characters fit in a
`char`: on every graph `addWord` of such a word returns, a second `addWord` of
the same word returns too and leaves the graph as it is, nodes, links,
terminal flags and node count, so `containsWord` and `search` answer the same
on both. -/
theorem C17_insert_idempotent (g : Graph) (w : QString) (hw : CharWord w) :
    ∃ g1 g2, addWord g w = some g1 ∧ addWord g1 w = some g2 ∧ g2 = g1 ∧
      (∀ v, containsWord g2 v = containsWord g1 v) ∧
      ∀ spec, search g2 spec = search g1 spec := by
  refine ⟨plainAddWord g w, plainAddWord g w, addWord_char g w hw, ?_, rfl, fun _ => rfl,
    fun _ => rfl⟩
  rw [addWord_char _ w hw, plainAddWord_idem]

theorem C17_insert_idempotent_witness :
    CharWord ['C', 'A', 'T'] ∧
      ∃ g1 g2, addWord (build [['C', 'A'], ['D']]) ['C', 'A', 'T'] = some g1 ∧
        addWord g1 ['C', 'A', 'T'] = some g2 ∧ g2 = g1 ∧
        (∀ v, containsWord g2 v = containsWord g1 v) ∧
        ∀ spec, search g2 spec = search g1 spec :=
  ⟨by simp [CharWord],
    C17_insert_idempotent (build [['C', 'A'], ['D']]) ['C', 'A', 'T'] (by simp [CharWord])⟩

/-- C18. Empty word handling: `addWord` with the empty word returns the graph
unchanged, and `containsWord` is false of the empty word. -/
theorem C18_empty_word (g : Graph) :
    addWord g [] = some g ∧ containsWord g [] = false :=
  ⟨by simp [addWord], containsWord_nil g⟩

/-- C20. Search terminates: for every graph, so for every graph built by
`addWord`, and every query there is a number of iterations from which on the
loop of `search` has ended with an empty stack and `search` has returned its
list. -/
theorem C20_search_terminates (g : Graph) (spec : SearchSpec) :
    ∃ n res, ∀ fuel, n ≤ fuel →
      (∃ acc, searchLoop spec (startWildcard spec) fuel g.top [] (startPattern spec)
          ⟨[], [], []⟩ = some acc ∧ acc.states = []) ∧
        searchFuel fuel g spec = some res := by
  refine ⟨searchSteps g spec, finish spec (searchOut g spec), ?_⟩
  intro fuel hf
  obtain ⟨k, rfl⟩ := Nat.exists_eq_add_of_le hf
  refine ⟨?_, searchFuel_eq g spec k⟩
  cases htop : g.top with
  | null => exact ⟨_, searchLoop_null _ _ _ _ _ _, rfl⟩
  | mk l e nx ch =>
    have := searchLoop_eq spec (startWildcard spec) l e nx ch [] (startPattern spec)
      ⟨[], [], []⟩ k
    unfold searchSteps
    rw [htop, this]
    refine ⟨_, ?_, emit_states spec ⟨[], [], []⟩
      (expandOut spec [] (fun v => sibOut spec (startWildcard spec) (Node.mk l e nx ch) [] v)
        (startPattern spec))⟩
    simp only [runStack, emit_states]

/-! ## Claims on the star of an `Anagram` search, the star example and
unsupported characters -/

/-- C15, as stated, fails: over the graph built from `A` and `AB` the
`Subanagram` query `AB` returns `A` and `AB`, and the `Anagram` query `AB*`
returns `AB` only, not `A`, which leaves the tile `B` unused. -/
theorem C15_counterexample :
    ∃ res res0,
      search (build [['A'], ['A', 'B']]) ⟨.Anagram, ['A', 'B', '*'], 0, 5, [], [], [], 0⟩
        = some res ∧
      search (build [['A'], ['A', 'B']]) ⟨.Subanagram, ['A', 'B'], 0, 5, [], [], [], 0⟩
        = some res0 ∧
      ¬ (∀ r0 ∈ res0, ∃ r ∈ res, upper r = upper r0) :=
  ⟨[['A', 'B']], [['A'], ['A', 'B']], search_eval _ _ _ (by decide),
    search_eval _ _ _ (by decide), by decide⟩

/-- C15, amended. The star of an `Anagram` query does not relax full
consumption: for every graph and every `Anagram` query whose pattern contains
`*`, `search` returns a list each entry of which is at least as long as the
pattern without its stars, a terminal node being accepted only when no tile is
left; the star lets letters be taken that match no tile, so that every entry
returned by the `Anagram` query on the same pattern with the `*` removed is
also returned by the `Anagram` query with the `*`. -/
theorem C15_anagram_star (g : Graph) (spec : SearchSpec) (ht : spec.type = .Anagram)
    (hs : '*' ∈ spec.pattern) :
    ∃ res res0,
      search g spec = some res ∧
      search g ⟨.Anagram, removeStars spec.pattern, spec.minLength, spec.maxLength,
          spec.includeLetters, spec.excludeLetters, spec.consistLetters, spec.consistPercent⟩
        = some res0 ∧
      (∀ r ∈ res0, r ∈ res) ∧ ∀ r ∈ res, (removeStars spec.pattern).length ≤ r.length := by
  have htp : spec.type ≠ .Pattern := by rw [ht]; decide
  have hw : startWildcard spec = true := by
    unfold startWildcard
    rw [ht]
    simpa using hs
  have hp : startPattern spec = removeStars spec.pattern := by
    unfold startPattern
    rw [ht]
    simp [hs]
  have hns : '*' ∉ removeStars spec.pattern := by
    simp [removeStars]
  refine ⟨_, _, search_eq _ _, search_eq _ _, ?_, ?_⟩
  · intro r hr
    rw [search_mem, startWildcard_of_no_star _ hns,
      startPattern_of_no_star _ (fun h => SearchType.noConfusion h) hns] at hr
    obtain ⟨rest, hpath, hd⟩ := hr
    rw [search_mem, hw, hp]
    refine ⟨rest, hpath, der_wildcard_mono spec htp _ _ _ _ ?_⟩
    exact der_congr
      ⟨.Anagram, removeStars spec.pattern, spec.minLength, spec.maxLength,
        spec.includeLetters, spec.excludeLetters, spec.consistLetters, spec.consistPercent⟩
      spec false ht rfl rfl (fun _ => rfl) _ _ _ _ hd
  · intro r hr
    rw [search_mem, hw, hp] at hr
    obtain ⟨rest, _, hd⟩ := hr
    have := der_anagram_length spec true ht _ _ _ _ hd
    simpa using this

/-- C15, amended, at the `Anagram` query `AB*` over the graph built from `A`,
`AB` and `CAB`: it returns `cAB` and `AB`, the query `AB` returns `AB`. -/
theorem C15_anagram_star_witness :
    ((⟨.Anagram, ['A', 'B', '*'], 0, 5, [], [], [], 0⟩ : SearchSpec).type = .Anagram ∧
      '*' ∈ ['A', 'B', '*'] ∧
      ∃ res res0,
        search (build [['A'], ['A', 'B'], ['C', 'A', 'B']])
          ⟨.Anagram, ['A', 'B', '*'], 0, 5, [], [], [], 0⟩ = some res ∧
        search (build [['A'], ['A', 'B'], ['C', 'A', 'B']])
          ⟨.Anagram, removeStars ['A', 'B', '*'], 0, 5, [], [], [], 0⟩ = some res0 ∧
        (∀ r ∈ res0, r ∈ res) ∧ ∀ r ∈ res, (removeStars ['A', 'B', '*']).length ≤ r.length) ∧
    search (build [['A'], ['A', 'B'], ['C', 'A', 'B']])
        ⟨.Anagram, ['A', 'B', '*'], 0, 5, [], [], [], 0⟩ = some [['c', 'A', 'B'], ['A', 'B']] ∧
    search (build [['A'], ['A', 'B'], ['C', 'A', 'B']])
        ⟨.Anagram, ['A', 'B'], 0, 5, [], [], [], 0⟩ = some [['A', 'B']] :=
  ⟨⟨rfl, by decide,
    C15_anagram_star (build [['A'], ['A', 'B'], ['C', 'A', 'B']])
      ⟨.Anagram, ['A', 'B', '*'], 0, 5, [], [], [], 0⟩ rfl (by decide)⟩,
    search_eval _ _ _ (by decide), search_eval _ _ _ (by decide)⟩

/-- C16, as stated, fails: the `Pattern` query `CA*` with `maxLength = 4` over
the graph built from `CAT`, `CARS`, `CA` and `CAP` does not return `caT` or
`caP`, and it does return an entry for `CARS`, which has four letters. -/
theorem C16_counterexample :
    ∃ res, search (build [['C', 'A', 'T'], ['C', 'A', 'R', 'S'], ['C', 'A'], ['C', 'A', 'P']])
        ⟨.Pattern, ['C', 'A', '*'], 0, 4, [], [], [], 0⟩ = some res ∧
      ¬ (['c', 'a', 'T'] ∈ res ∧ ['c', 'a', 'P'] ∈ res ∧ (∃ r ∈ res, upper r = ['C', 'A']) ∧
        ∀ r ∈ res, upper r ≠ ['C', 'A', 'R', 'S']) :=
  ⟨[['C', 'A'], ['C', 'A', 'p'], ['C', 'A', 'r', 's'], ['C', 'A', 't']],
    search_eval _ _ _ (by decide), by decide⟩

/-- C16, amended. Star semantics example: the `Pattern` query `CA*` with
`maxLength = 4` and no other constraint over the graph built from `CAT`,
`CARS`, `CA` and `CAP` returns `CA`, `CAp`, `CArs` and `CAt`, the letters the
star stands for in lower case, `CARS` with its four letters included; with
`maxLength = 3` the entry for `CARS` is cut off. -/
theorem C16_star_example :
    search (build [['C', 'A', 'T'], ['C', 'A', 'R', 'S'], ['C', 'A'], ['C', 'A', 'P']])
        ⟨.Pattern, ['C', 'A', '*'], 0, 4, [], [], [], 0⟩ =
      some [['C', 'A'], ['C', 'A', 'p'], ['C', 'A', 'r', 's'], ['C', 'A', 't']] ∧
    search (build [['C', 'A', 'T'], ['C', 'A', 'R', 'S'], ['C', 'A'], ['C', 'A', 'P']])
        ⟨.Pattern, ['C', 'A', '*'], 0, 3, [], [], [], 0⟩ =
      some [['C', 'A'], ['C', 'A', 'p'], ['C', 'A', 't']] :=
  ⟨search_eval _ _ _ (by decide), search_eval _ _ _ (by decide)⟩

/-- C19, as stated, fails for `Subanagram`: over the graph built from `A` the
`Subanagram` query `Aa`, whose pattern holds the lower-case `a`, returns `A`:
the tile `a` is left unused and a `Subanagram` search accepts with tiles
left. -/
theorem C19_counterexample :
    'a' ∈ ['A', 'a'] ∧ 'a'.isUpper = false ∧ 'a' ≠ '?' ∧ 'a' ≠ '*' ∧
      search (build [['A']]) ⟨.Subanagram, ['A', 'a'], 0, 5, [], [], [], 0⟩ = some [['A']] :=
  ⟨by decide, by decide, by decide, by decide, search_eval _ _ _ (by decide)⟩

/-- C19, amended. Unsupported pattern characters mean no match for `Pattern`
and `Anagram` queries: over a graph built from upper-case words, for a query
of kind `Pattern` or `Anagram` whose pattern contains a character that is
neither an upper-case letter nor `?` nor `*`, `search` returns the empty
list. -/
theorem C19_unsupported_chars (ws : List QString) (spec : SearchSpec) (hws : UpperWords ws)
    (b : Char) (hb : b ∈ spec.pattern) (hb1 : b.isUpper = false) (hb2 : b ≠ '?')
    (hb3 : b ≠ '*') (ht : spec.type ≠ .Subanagram) :
    search (build ws) spec = some [] := by
  rw [build_upper ws hws]
  exact
    search_eval _ _ _ (bad_char_search ws spec hws b hb hb1 hb2 hb3 ht)

/-- C19, amended, at the `Anagram` query `a*` over the graph built from `A`
and `AB`. -/
theorem C19_unsupported_chars_witness :
    UpperWords [['A'], ['A', 'B']] ∧ 'a' ∈ ['a', '*'] ∧ 'a'.isUpper = false ∧ 'a' ≠ '?' ∧
      'a' ≠ '*' ∧
      (⟨.Anagram, ['a', '*'], 0, 5, [], [], [], 0⟩ : SearchSpec).type ≠ .Subanagram ∧
      search (build [['A'], ['A', 'B']]) ⟨.Anagram, ['a', '*'], 0, 5, [], [], [], 0⟩ = some [] :=
  ⟨by simp [UpperWords], by decide, by decide, by decide, by decide, by decide,
    C19_unsupported_chars [['A'], ['A', 'B']] ⟨.Anagram, ['a', '*'], 0, 5, [], [], [], 0⟩
      (by simp [UpperWords]) 'a' (by decide) (by decide) (by decide) (by decide) (by decide)⟩

/-! ## The sibling chains of a built graph -/

theorem chainLetters_plainChain (c : Char) (w : QString) : chainLetters (plainChain (c :: w)) = [c] := by
  cases w <;> simp [plainChain, chainLetters]

theorem chainLetters_plainAt (n : Node) (c : Char) (w : QString) :
    chainLetters (plainAt n (c :: w)) =
      if c ∈ chainLetters n then chainLetters n else chainLetters n ++ [c] := by
  induction n with
  | null => simp [plainAt, chainLetters_plainChain, chainLetters]
  | mk l e nx ch ihnx _ =>
    by_cases hlc : l = c
    · subst hlc
      cases w <;> simp [plainAt, chainLetters]
    · have hcl : ¬ c = l := fun h => hlc h.symm
      simp only [plainAt, hlc, if_false, chainLetters, ihnx, List.mem_cons, hcl, false_or]
      split <;> simp

theorem uniqueChains_plainChain (w : QString) : uniqueChains (plainChain w) = true := by
  induction w with
  | nil => rfl
  | cons c w ih =>
    cases w with
    | nil => simp [plainChain, uniqueChains, chainLetters]
    | cons d w => simpa [plainChain, uniqueChains, chainLetters] using ih

/-- The walk of `addWord` keeps the letters of every sibling chain distinct. -/
theorem uniqueChains_plainAt (n : Node) :
    ∀ w : QString, uniqueChains n = true → uniqueChains (plainAt n w) = true := by
  induction n with
  | null =>
    intro w _
    cases w with
    | nil => rfl
    | cons c w => exact uniqueChains_plainChain _
  | mk l e nx ch ihnx ihch =>
    intro w h
    cases w with
    | nil => exact h
    | cons c w =>
      simp only [uniqueChains, Bool.and_eq_true, decide_eq_true_eq] at h
      obtain ⟨⟨h1, h2⟩, h3⟩ := h
      by_cases hlc : l = c
      · subst hlc
        cases w with
        | nil => simp [plainAt, uniqueChains, h1, h2, h3]
        | cons d w => simp [plainAt, uniqueChains, h1, h2, ihch (d :: w) h3]
      · simp only [plainAt, hlc, if_false, uniqueChains, Bool.and_eq_true, decide_eq_true_eq]
        refine ⟨⟨?_, ihnx (c :: w) h2⟩, h3⟩
        rw [chainLetters_plainAt]
        split
        · exact h1
        · simp [h1, hlc]

theorem uniqueChains_plainAddWord (g : Graph) (w : QString) (h : uniqueChains g.top = true) :
    uniqueChains (plainAddWord g w).top = true := by
  unfold plainAddWord
  split
  · exact h
  · exact uniqueChains_plainAt _ _ h

theorem uniqueChains_foldl (ws : List QString) (g : Graph) (h : uniqueChains g.top = true) :
    uniqueChains (ws.foldl plainAddWord g).top = true := by
  induction ws generalizing g with
  | nil => exact h
  | cons w ws ih => exact ih _ (uniqueChains_plainAddWord g w h)

/-- The sibling chains of a built graph hold each letter at most once. -/
theorem uniqueChains_plainBuild (ws : List QString) : uniqueChains (plainBuild ws).top = true :=
  uniqueChains_foldl ws Graph.empty rfl

theorem lettersUpper_plainChain (w : QString) (hw : ∀ x ∈ w, x.isUpper = true) :
    lettersUpper (plainChain w) = true := by
  induction w with
  | nil => rfl
  | cons c w ih =>
    have hc := hw c (by simp)
    have ih2 := ih (fun x hx => hw x (by simp [hx]))
    cases w with
    | nil => simp [plainChain, lettersUpper, hc]
    | cons d w => simp [plainChain, lettersUpper, hc, ih2]

theorem lettersUpper_plainAt (n : Node) :
    ∀ w : QString, (∀ x ∈ w, x.isUpper = true) → lettersUpper n = true →
      lettersUpper (plainAt n w) = true := by
  induction n with
  | null =>
    intro w hw _
    cases w with
    | nil => rfl
    | cons c w => exact lettersUpper_plainChain _ hw
  | mk l e nx ch ihnx ihch =>
    intro w hw h
    cases w with
    | nil => exact h
    | cons c w =>
      simp only [lettersUpper, Bool.and_eq_true] at h
      obtain ⟨⟨h1, h2⟩, h3⟩ := h
      by_cases hlc : l = c
      · subst hlc
        cases w with
        | nil => simp [plainAt, lettersUpper, h1, h2, h3]
        | cons d w =>
          simp [plainAt, lettersUpper, h1, h2,
            ihch (d :: w) (fun x hx => hw x (List.mem_cons_of_mem _ hx)) h3]
      · simp [plainAt, hlc, lettersUpper, h1, h3, ihnx (c :: w) hw h2]

theorem lettersUpper_foldl (ws : List QString) (hws : UpperWords ws) (g : Graph)
    (h : lettersUpper g.top = true) : lettersUpper (ws.foldl plainAddWord g).top = true := by
  induction ws generalizing g with
  | nil => exact h
  | cons w ws ih =>
    apply ih (fun v hv => hws v (List.mem_cons_of_mem _ hv))
    unfold plainAddWord
    split
    · exact h
    · exact lettersUpper_plainAt _ _ (hws w (by simp)) h

/-- The nodes of a graph built from upper-case words hold upper-case
letters. -/
theorem lettersUpper_plainBuild (ws : List QString) (hws : UpperWords ws) :
    lettersUpper (plainBuild ws).top = true :=
  lettersUpper_foldl ws hws Graph.empty rfl

/-! ## The paths of a graph -/

theorem mem_paths (n : Node) : ∀ rest : QString, rest ∈ paths n ↔ hasPath n rest = true := by
  induction n with
  | null => intro rest; simp [paths, hasPath]
  | mk l e nx ch ihnx ihch =>
    intro rest
    cases rest with
    | nil =>
      simp only [paths, List.mem_append, List.mem_map, hasPath_nil]
      have := ihnx []
      rw [hasPath_nil] at this
      cases e <;> simp [this]
    | cons c rest =>
      rw [hasPath_cons_mk]
      simp only [paths, List.mem_append, List.mem_map, ihnx, ihch, List.cons.injEq]
      constructor
      · rintro ((h | h) | ⟨p, hp, rfl, rfl⟩)
        · cases e with
          | false => simp at h
          | true =>
            simp only [if_true, List.mem_singleton, List.cons.injEq] at h
            exact Or.inl ⟨h.1.symm, Or.inl ⟨h.2, rfl⟩⟩
        · exact Or.inr h
        · exact Or.inl ⟨rfl, Or.inr ⟨hasPath_ne_nil _ _ hp, hp⟩⟩
      · rintro (⟨rfl, ⟨rfl, rfl⟩ | ⟨_, hp⟩⟩ | h)
        · simp
        · exact Or.inr ⟨rest, hp, rfl, rfl⟩
        · exact Or.inl (Or.inr h)

theorem paths_head (n : Node) (p : QString) (h : p ∈ paths n) :
    ∃ x t, p = x :: t ∧ x ∈ chainLetters n := by
  induction n with
  | null => simp [paths] at h
  | mk l e nx ch ihnx _ =>
    simp only [paths, List.mem_append, List.mem_map] at h
    rcases h with (h | h) | ⟨q, _, rfl⟩
    · cases e with
      | false => simp at h
      | true =>
        simp only [if_true, List.mem_singleton] at h
        exact ⟨l, [], h, by simp [chainLetters]⟩
    · obtain ⟨x, t, h1, h2⟩ := ihnx h
      exact ⟨x, t, h1, by simp [chainLetters, h2]⟩
    · exact ⟨l, q, rfl, by simp [chainLetters]⟩

/-- No word is spelled by two paths of a graph whose sibling chains hold each
letter once. -/
theorem paths_nodup (n : Node) (h : uniqueChains n = true) : (paths n).Nodup := by
  induction n with
  | null => simp [paths]
  | mk l e nx ch ihnx ihch =>
    simp only [uniqueChains, Bool.and_eq_true, decide_eq_true_eq] at h
    obtain ⟨⟨h1, h2⟩, h3⟩ := h
    simp only [paths]
    rw [List.nodup_append, List.nodup_append]
    refine ⟨⟨?_, ihnx h2, ?_⟩, ?_, ?_⟩
    · cases e <;> simp
    · intro a ha hb
      obtain ⟨x, t, rfl, hx⟩ := paths_head nx a hb
      cases e with
      | false => simp at ha
      | true =>
        simp only [if_true, List.mem_singleton, List.cons.injEq] at ha
        exact h1 (ha.1 ▸ hx)
    · exact (ihch h3).map (fun a b hab => by simpa using hab)
    · intro a ha hb
      simp only [List.mem_map] at hb
      obtain ⟨q, hq, rfl⟩ := hb
      rcases List.mem_append.1 ha with ha | ha
      · cases e with
        | false => simp at ha
        | true =>
          simp only [if_true, List.mem_singleton, List.cons.injEq] at ha
          have := (mem_paths ch q).1 hq
          rw [ha.2, hasPath_nil] at this
          exact absurd this (by decide)
      · obtain ⟨x, t, hxt, hx⟩ := paths_head nx _ ha
        simp only [List.cons.injEq] at hxt
        exact h1 (hxt.1 ▸ hx)

theorem paths_upper (n : Node) (h : lettersUpper n = true) :
    ∀ p ∈ paths n, ∀ x ∈ p, x.isUpper = true := by
  induction n with
  | null => intro p hp; simp [paths] at hp
  | mk l e nx ch ihnx ihch =>
    simp only [lettersUpper, Bool.and_eq_true] at h
    obtain ⟨⟨h1, h2⟩, h3⟩ := h
    intro p hp x hx
    simp only [paths, List.mem_append, List.mem_map] at hp
    rcases hp with (hp | hp) | ⟨q, hq, rfl⟩
    · cases e with
      | false => simp at hp
      | true =>
        simp only [if_true, List.mem_singleton] at hp
        subst hp
        simp only [List.mem_singleton] at hx
        rw [hx]
        exact h1
    · exact ihnx h2 p hp x hx
    · rcases List.mem_cons.1 hx with rfl | hx
      · exact h1
      · exact ihch h3 q hq x hx

/-! ## Ascending lists and the closed form of the `Anagram` traversal -/

/-- Two strictly ascending lists with the same elements are the same list. -/
theorem sorted_ext (l1 l2 : List QString) (h1 : l1.Pairwise (fun a b => qlt a b = true))
    (h2 : l2.Pairwise (fun a b => qlt a b = true)) (h : ∀ r, r ∈ l1 ↔ r ∈ l2) : l1 = l2 := by
  haveI : IsAntisymm QString (fun a b => qlt a b = true) :=
    ⟨fun a b hab hba => by
      have := qlt_trans a b a hab hba
      rw [qlt_irrefl] at this
      exact absurd this (by decide)⟩
  have nd : ∀ l : List QString, l.Pairwise (fun a b => qlt a b = true) → l.Nodup := by
    intro l hl
    refine hl.imp ?_
    intro a b hab heq
    subst heq
    rw [qlt_irrefl] at hab
    exact absurd hab (by decide)
  exact List.eq_of_perm_of_sorted ((List.perm_ext_iff_of_nodup (nd l1 h1) (nd l2 h2)).2 h) h1 h2

theorem accepted_false (spec : SearchSpec) (w u : QString) : accepted spec false w u = false := by
  unfold accepted
  cases spec.type <;> simp

theorem expandOut_nonpattern (spec : SearchSpec) (ht : spec.type ≠ .Pattern) (w : QString)
    (F : QString → List QString) (u : QString) :
    expandOut spec w F u = if (w.length : Int) < spec.maxLength then F u else [] := by
  cases u <;> simp [expandOut, ht]

theorem paths_ne_nil (n : Node) (p : QString) (h : p ∈ paths n) : p ≠ [] :=
  hasPath_ne_nil n p ((mem_paths n p).1 h)

theorem runSib_single (spec : SearchSpec) (wildcard : Bool) (w u : QString) (x : Char) :
    runSib spec wildcard w u [x] =
      (visit spec wildcard (headChar spec u) w u x).bind
        (fun q => if accepted spec true q.1 q.2 then some q.1 else none) := by
  rw [runSib]
  cases visit spec wildcard (headChar spec u) w u x <;> rfl

theorem runSib_cons (spec : SearchSpec) (wildcard : Bool) (w u : QString) (x y : Char)
    (rest : QString) :
    runSib spec wildcard w u (x :: y :: rest) =
      (visit spec wildcard (headChar spec u) w u x).bind
        (fun q =>
          if q.2 ∈ pushed spec wildcard (headChar spec u) q.2 ∧
              (q.1.length : Int) < spec.maxLength
          then runSib spec wildcard q.1 q.2 (y :: rest) else none) := by
  rw [runSib]
  cases visit spec wildcard (headChar spec u) w u x <;> rfl

/-- An `Anagram` or `Subanagram` search hands over at most one word for each
path of the graph, in the order of `paths`. -/
theorem sibOut_paths (spec : SearchSpec) (wildcard : Bool) (ht : spec.type ≠ .Pattern)
    (n : Node) :
    ∀ w u : QString,
      sibOut spec wildcard n w u = (paths n).filterMap (runSib spec wildcard w u) := by
  induction n with
  | null => intro w u; simp [sibOut, paths]
  | mk l e nx ch ihnx ihch =>
    intro w u
    simp only [sibOut, paths, List.filterMap_append, ihnx, List.filterMap_map]
    have hrun1 := runSib_single spec wildcard w u l
    have hrun2 : ∀ p ∈ paths ch, (runSib spec wildcard w u ∘ fun p => l :: p) p =
        (visit spec wildcard (headChar spec u) w u l).bind
          (fun q =>
            if q.2 ∈ pushed spec wildcard (headChar spec u) q.2 ∧
                (q.1.length : Int) < spec.maxLength
            then runSib spec wildcard q.1 q.2 p else none) := by
      intro p hp
      cases p with
      | nil => exact absurd rfl (paths_ne_nil ch [] hp)
      | cons y rest1 => exact runSib_cons spec wildcard w u l y rest1
    rw [List.filterMap_congr hrun2]
    generalize hv : visit spec wildcard (headChar spec u) w u l = v at hrun1
    congr 1
    · congr 1
      cases v with
      | none => cases e <;> simp [hrun1]
      | some p =>
        obtain ⟨w1, u1⟩ := p
        cases e with
        | false => simp [accepted_false]
        | true =>
          simp only [if_true, List.filterMap_cons, List.filterMap_nil, hrun1, Option.some_bind]
          split <;> simp
    · cases v with
      | none => simp
      | some p =>
        obtain ⟨w1, u1⟩ := p
        simp only [Option.some_bind]
        by_cases hch : ch.isNull = true
        · cases ch with
          | null => simp [paths, Node.isNull]
          | mk _ _ _ _ => simp [Node.isNull] at hch
        · rw [if_neg hch, pushed_nonpattern spec wildcard _ u1 ht]
          by_cases hc : wildcard = true ∨ u1 ≠ []
          · simp only [if_pos hc, List.map_cons, List.map_nil, List.flatten_cons,
              List.flatten_nil, List.append_nil, List.mem_singleton, true_and]
            rw [expandOut_nonpattern spec ht]
            by_cases hM : (w1.length : Int) < spec.maxLength
            · simp only [if_pos hM]
              exact ihch w1 u1
            · simp [if_neg hM]
          · simp [if_neg hc]

/-- The list produced by an `Anagram` or `Subanagram` search. -/
theorem searchOut_paths (g : Graph) (spec : SearchSpec) (ht : spec.type ≠ .Pattern) :
    finish spec (searchOut g spec) =
      if (0 : Int) < spec.maxLength then
        (paths g.top).filterMap (runSib spec (startWildcard spec) [] (startPattern spec))
      else [] := by
  have hf : ∀ outs, finish spec outs = outs := by
    intro outs
    simp [finish, ht]
  rw [hf, searchOut, expandOut_nonpattern spec ht, sibOut_paths spec _ ht]
  simp

theorem upper_append (a b : QString) : upper (a ++ b) = upper a ++ upper b := by
  simp [upper]

/-- Along a path of upper-case letters the word handed over spells the path
after the word of the state, letter case apart. -/
theorem runSib_upper (spec : SearchSpec) (wildcard : Bool) (p : QString) :
    ∀ (w u r : QString), (∀ x ∈ p, x.isUpper = true) →
      runSib spec wildcard w u p = some r → upper r = upper w ++ p := by
  induction p with
  | nil => intro w u r _ h; simp [runSib] at h
  | cons x rest ih =>
    intro w u r hp h
    have hx := hp x (by simp)
    cases hv : visit spec wildcard (headChar spec u) w u x with
    | none => cases rest <;> simp [runSib_single, runSib_cons, hv] at h
    | some q =>
      obtain ⟨w1, u1⟩ := q
      obtain ⟨_, y, hy, hw1⟩ := visit_some spec wildcard _ w u x w1 u1 hv
      have hyu : y.toUpper = x := by
        rcases hy with rfl | rfl
        · exact toUpper_of_isUpper _ hx
        · exact toUpper_toLower_of_isUpper _ hx
      have hw1u : upper w1 = upper w ++ [x] := by
        rw [hw1, upper_append]
        simp [upper, hyu]
      cases rest with
      | nil =>
        simp only [runSib_single, hv, Option.some_bind] at h
        split at h
        · simp only [Option.some.injEq] at h
          rw [← h, hw1u]
        · exact absurd h (by simp)
      | cons y2 rest1 =>
        simp only [runSib_cons, hv, Option.some_bind] at h
        split at h
        · have := ih w1 u1 r (fun z hz => hp z (List.mem_cons_of_mem _ hz)) h
          rw [this, hw1u]
          simp
        · exact absurd h (by simp)

/-- Over a graph whose nodes hold upper-case letters and whose sibling chains
hold each letter once, no two words of the list of an `Anagram` or
`Subanagram` search are equal after upper-casing. -/
theorem nonpattern_nodup (g : Graph) (spec : SearchSpec) (ht : spec.type ≠ .Pattern)
    (hu : lettersUpper g.top = true) (hc : uniqueChains g.top = true) :
    ((finish spec (searchOut g spec)).map upper).Nodup := by
  rw [searchOut_paths g spec ht]
  split
  · rw [List.map_filterMap]
    have hnd := paths_nodup g.top hc
    have hup := paths_upper g.top hu
    have hpw : (paths g.top).Pairwise
        (fun a b => a ≠ b ∧ (∀ x ∈ a, x.isUpper = true) ∧ (∀ x ∈ b, x.isUpper = true)) := by
      refine List.Pairwise.imp_of_mem ?_ hnd
      intro a b ha hb hab
      exact ⟨hab, hup a ha, hup b hb⟩
    refine List.Pairwise.filterMap _ ?_ hpw
    rintro a a2 ⟨hne, hua, hua2⟩ b hb b2 hb2 heq
    simp only [Option.mem_def, Option.map_eq_some'] at hb hb2
    obtain ⟨r, hr, rfl⟩ := hb
    obtain ⟨r2, hr2, rfl⟩ := hb2
    have e1 := runSib_upper spec _ a [] _ r hua hr
    have e2 := runSib_upper spec _ a2 [] _ r2 hua2 hr2
    apply hne
    rw [e1] at heq
    rw [e2] at heq
    simpa [upper] using heq
  · simp

/-! ## Claims on the sibling chains, on repeated words and on the set of
inserted words -/

theorem uniqueChains_nodup (n : Node) (h : uniqueChains n = true) : (chainLetters n).Nodup := by
  induction n with
  | null => simp [chainLetters]
  | mk l e nx ch ihnx _ =>
    simp only [uniqueChains, Bool.and_eq_true, decide_eq_true_eq] at h
    simp only [chainLetters, List.nodup_cons]
    exact ⟨h.1.1, ihnx h.1.2⟩

/-- C21, as stated, fails for a word with a character that does not fit in a
`char`: in the graph built from `A` the root chain holds each letter once, and
`addWord` of the one-letter word `Ω` (U+03A9) does not return: the `while`
appends to the root chain node after node holding the character 0. -/
theorem C21_counterexample :
    uniqueChains (build [['A']]).top = true ∧ addWord (build [['A']]) ['Ω'] = none :=
  ⟨by decide, rfl⟩

/-- C21, amended. Sibling-chain invariant for words whose characters fit in a
`char`: the letters of every sibling chain (the root chain and each child
chain, followed through `next`) are distinct in the empty graph; `addWord` of
such a word returns and keeps them distinct, in particular those of the root
chain; hence they are distinct in every graph built by `addWord` from such
words. -/
theorem C21_sibling_chain_invariant (g : Graph) (w : QString)
    (h : uniqueChains g.top = true) (hw : CharWord w) :
    uniqueChains Graph.empty.top = true ∧
      (∃ g1, addWord g w = some g1 ∧ uniqueChains g1.top = true ∧
        (chainLetters g1.top).Nodup) ∧
      ∀ ws : List QString, CharWords ws → uniqueChains (build ws).top = true := by
  refine ⟨rfl, ⟨_, addWord_char g w hw, uniqueChains_plainAddWord g w h,
    uniqueChains_nodup _ (uniqueChains_plainAddWord g w h)⟩, ?_⟩
  intro ws hws
  rw [build_char ws hws]
  exact uniqueChains_plainBuild ws

theorem C21_sibling_chain_invariant_witness :
    uniqueChains (build [['A', 'B'], ['C']]).top = true ∧ CharWord ['A', 'C'] ∧
      (uniqueChains Graph.empty.top = true ∧
        (∃ g1, addWord (build [['A', 'B'], ['C']]) ['A', 'C'] = some g1 ∧
          uniqueChains g1.top = true ∧ (chainLetters g1.top).Nodup) ∧
        ∀ ws : List QString, CharWords ws → uniqueChains (build ws).top = true) :=
  ⟨by decide, by simp [CharWord],
    C21_sibling_chain_invariant (build [['A', 'B'], ['C']]) ['A', 'C'] (by decide)
      (by simp [CharWord])⟩

/-- C24, as stated, fails for a graph holding a word in both letter cases:
over the graph built from `a` and `A` the `Subanagram` query `?` returns the
entry `a` twice, once for each of the two nodes. -/
theorem C24_counterexample :
    ∃ res, search (build [['a'], ['A']]) ⟨.Subanagram, ['?'], 0, 5, [], [], [], 0⟩ = some res ∧
      res = [['a'], ['a']] ∧ ¬ res.Nodup :=
  ⟨[['a'], ['a']], search_eval _ _ _ (by decide), rfl, by decide⟩

/-- C24, amended. `Anagram` and `Subanagram` results never repeat a word over
upper-case words: for every graph built by `addWord` from upper-case words and
every `Anagram` or `Subanagram` query, `search` returns a list no two entries
of which are equal after upper-casing, and so no two of which are equal. -/
theorem C24_no_repeats (ws : List QString) (hws : UpperWords ws) (spec : SearchSpec)
    (ht : spec.type = .Anagram ∨ spec.type = .Subanagram) :
    ∃ res, search (build ws) spec = some res ∧ (res.map upper).Nodup ∧ res.Nodup := by
  rw [build_upper ws hws]
  have htp : spec.type ≠ .Pattern := by
    rcases ht with h | h <;> rw [h] <;> exact fun h2 => SearchType.noConfusion h2
  have hnd := nonpattern_nodup (plainBuild ws) spec htp (lettersUpper_plainBuild ws hws)
    (uniqueChains_plainBuild ws)
  exact ⟨_, search_eq _ _, hnd, List.Nodup.of_map _ hnd⟩

theorem C24_no_repeats_witness :
    UpperWords [['A', 'B'], ['B', 'A'], ['A']] ∧
      ((⟨.Anagram, ['?', '?', '*'], 0, 5, [], [], [], 0⟩ : SearchSpec).type = .Anagram ∨
        (⟨.Anagram, ['?', '?', '*'], 0, 5, [], [], [], 0⟩ : SearchSpec).type = .Subanagram) ∧
      ∃ res, search (build [['A', 'B'], ['B', 'A'], ['A']])
          ⟨.Anagram, ['?', '?', '*'], 0, 5, [], [], [], 0⟩ = some res ∧
        (res.map upper).Nodup ∧ res.Nodup :=
  ⟨by simp [UpperWords], Or.inl rfl,
    C24_no_repeats [['A', 'B'], ['B', 'A'], ['A']] (by simp [UpperWords])
      ⟨.Anagram, ['?', '?', '*'], 0, 5, [], [], [], 0⟩ (Or.inl rfl)⟩

/-- C25, as stated, fails for a word with a character that does not fit in a
`char`: the lists `Ω`, `A` and `A`, `Ω` hold the same words; from the first the
calls of `addWord` return and leave a graph that contains `A`; from the second
the call for `Ω` (U+03A9), made on the chain that holds `A`, does not return,
so no graph is built. -/
theorem C25_counterexample :
    (∀ w : QString, w ≠ [] → (w ∈ [['Ω'], ['A']] ↔ w ∈ [['A'], ['Ω']])) ∧
      (∃ g1, addWords Graph.empty [['Ω'], ['A']] = some g1 ∧ containsWord g1 ['A'] = true) ∧
      addWords Graph.empty [['A'], ['Ω']] = none :=
  ⟨by intro w hw; simp; tauto, ⟨_, rfl, by decide⟩, rfl⟩

/-- C25, amended. Answers depend only on the set of inserted words, for words
whose characters fit in a `char`: for two lists of such words with the same
non-empty elements, the calls of `addWord` return, the graphs built give the
same `containsWord` answer for every word, and for every query `search`
returns on both a list, the same list for a `Pattern` query and lists that are
permutations of one another for an `Anagram` or `Subanagram` query. -/
theorem C25_set_of_words (ws1 ws2 : List QString) (hc1 : CharWords ws1) (hc2 : CharWords ws2)
    (h : ∀ w : QString, w ≠ [] → (w ∈ ws1 ↔ w ∈ ws2)) (spec : SearchSpec) :
    addWords Graph.empty ws1 = some (build ws1) ∧
      addWords Graph.empty ws2 = some (build ws2) ∧
      (∀ w : QString, containsWord (build ws1) w = containsWord (build ws2) w) ∧
      ∃ res1 res2, search (build ws1) spec = some res1 ∧ search (build ws2) spec = some res2 ∧
        (spec.type = .Pattern → res1 = res2) ∧
        (spec.type = .Anagram ∨ spec.type = .Subanagram → res1.Perm res2) := by
  refine ⟨addWords_build ws1 hc1, addWords_build ws2 hc2, ?_⟩
  rw [build_char ws1 hc1, build_char ws2 hc2]
  have hpath : ∀ v, hasPath (plainBuild ws1).top v = true ↔
      hasPath (plainBuild ws2).top v = true := by
    intro v
    rw [hasPath_plainBuild, hasPath_plainBuild]
    constructor
    · rintro ⟨h1, h2⟩
      exact ⟨h1, (h v h1).1 h2⟩
    · rintro ⟨h1, h2⟩
      exact ⟨h1, (h v h1).2 h2⟩
  refine ⟨?_, _, _, search_eq _ _, search_eq _ _, ?_, ?_⟩
  · intro w
    rw [Bool.eq_iff_iff, ← hasPath_iff_containsWord, ← hasPath_iff_containsWord]
    exact hpath w
  · intro ht
    apply sorted_ext _ _ (finish_sorted spec ht _) (finish_sorted spec ht _)
    intro r
    rw [search_mem, search_mem]
    constructor
    · rintro ⟨rest, h1, h2⟩
      exact ⟨rest, (hpath rest).1 h1, h2⟩
    · rintro ⟨rest, h1, h2⟩
      exact ⟨rest, (hpath rest).2 h1, h2⟩
  · intro ht
    have htp : spec.type ≠ .Pattern := by
      rcases ht with h | h <;> rw [h] <;> exact fun h2 => SearchType.noConfusion h2
    rw [searchOut_paths _ spec htp, searchOut_paths _ spec htp]
    split
    · apply List.Perm.filterMap
      rw [List.perm_ext_iff_of_nodup (paths_nodup _ (uniqueChains_plainBuild ws1))
        (paths_nodup _ (uniqueChains_plainBuild ws2))]
      intro p
      rw [mem_paths, mem_paths]
      exact hpath p
    · exact List.Perm.refl _

theorem C25_set_of_words_witness :
    CharWords [['A'], ['B'], ['A']] ∧ CharWords [['B'], [], ['A']] ∧
      (∀ w : QString, w ≠ [] →
        (w ∈ [['A'], ['B'], ['A']] ↔ w ∈ [['B'], [], ['A']])) ∧
      (addWords Graph.empty [['A'], ['B'], ['A']] = some (build [['A'], ['B'], ['A']]) ∧
        addWords Graph.empty [['B'], [], ['A']] = some (build [['B'], [], ['A']]) ∧
        (∀ w : QString, containsWord (build [['A'], ['B'], ['A']]) w =
          containsWord (build [['B'], [], ['A']]) w) ∧
        ∃ res1 res2,
          search (build [['A'], ['B'], ['A']]) ⟨.Subanagram, ['?'], 0, 5, [], [], [], 0⟩
            = some res1 ∧
          search (build [['B'], [], ['A']]) ⟨.Subanagram, ['?'], 0, 5, [], [], [], 0⟩
            = some res2 ∧
          ((⟨.Subanagram, ['?'], 0, 5, [], [], [], 0⟩ : SearchSpec).type = .Pattern →
            res1 = res2) ∧
          ((⟨.Subanagram, ['?'], 0, 5, [], [], [], 0⟩ : SearchSpec).type = .Anagram ∨
            (⟨.Subanagram, ['?'], 0, 5, [], [], [], 0⟩ : SearchSpec).type = .Subanagram →
            res1.Perm res2)) :=
  ⟨by simp [CharWords, CharWord], by simp [CharWords, CharWord],
    by intro w hw; simp [hw]; tauto,
    C25_set_of_words [['A'], ['B'], ['A']] [['B'], [], ['A']] (by simp [CharWords, CharWord])
      (by simp [CharWords, CharWord]) (by intro w hw; simp [hw]; tauto)
      ⟨.Subanagram, ['?'], 0, 5, [], [], [], 0⟩⟩

/-! ## The empty pattern, and pruning by `excludeLetters` -/

theorem isUpper_ne_star (x : Char) (h : x.isUpper = true) : x ≠ '*' := by
  rintro rfl
  exact absurd h (by decide)

/-- Under the pattern `*`, or what is left of it, a `Pattern` search writes
every letter of the path in lower case. -/
theorem der_star_lower (spec : SearchSpec) (wildcard : Bool) (ht : spec.type = .Pattern)
    (w u rest r : QString) (h : Der spec wildcard w u rest r)
    (hu : u = ['*'] ∨ u = []) (hr : ∀ x ∈ rest, x.isUpper = true) :
    r = w ++ rest.map Char.toLower := by
  induction h with
  | zero hM _ hc _ ih =>
    rcases hu with rfl | rfl
    · exact ih (Or.inr rfl) hr
    · rw [headChar_pattern spec _ ht] at hc
      exact absurd hc (by decide)
  | @last w u w1 u1 x hM hv ha =>
    obtain ⟨hc, hw1, _⟩ := visit_pattern_some spec wildcard _ w u x w1 u1 ht hv
    have hx := hr x (by simp)
    rw [headChar_pattern spec _ ht] at hc hw1
    rcases hu with rfl | rfl
    · have : ¬ qat ['*'] 0 = x := fun h => isUpper_ne_star x hx h.symm
      rw [if_neg this] at hw1
      simp [hw1]
    · rcases hc with hc | hc | hc
      · exact absurd hc.symm (isUpper_ne_qnull x hx)
      · exact absurd hc (by decide)
      · exact absurd hc (by decide)
  | @next w u w1 u1 v rest r x y hM hv hmem _ ih =>
    obtain ⟨hc, hw1, hu1⟩ := visit_pattern_some spec wildcard _ w u x w1 u1 ht hv
    have hx := hr x (by simp)
    rw [headChar_pattern spec _ ht] at hc hw1
    rcases hu with rfl | rfl
    · have : ¬ qat ['*'] 0 = x := fun h => isUpper_ne_star x hx h.symm
      rw [if_neg this] at hw1
      rw [pushed_pattern spec wildcard _ _ ht, hu1] at hmem
      have hv2 : v = ['*'] ∨ v = [] := by
        simp only [List.tail_cons, List.mem_cons] at hmem
        rcases hmem with h | h
        · exact Or.inr h
        · split at h
          · simp only [List.mem_singleton] at h
            exact Or.inl h
          · simp at h
      rw [ih hv2 (fun z hz => hr z (List.mem_cons_of_mem _ hz)), hw1]
      simp
    · rcases hc with hc | hc | hc
      · exact absurd hc.symm (isUpper_ne_qnull x hx)
      · exact absurd hc (by decide)
      · exact absurd hc (by decide)

theorem sorted_nodup (l : List QString) (hl : l.Pairwise (fun a b => qlt a b = true)) :
    l.Nodup := by
  refine hl.imp ?_
  intro a b hab heq
  subst heq
  rw [qlt_irrefl] at hab
  exact absurd hab (by decide)

/-- C22. Empty pattern means everything: over a graph built from upper-case
words, the `Pattern` query with the empty pattern, `maxLength = M` and no
other constraint, and the same query with the pattern `*`, return the same
list; the list is strictly ascending, so without repetition, and its entries
are exactly the lower-cased forms of the non-empty words of `ws` of length at
most `M`. -/
theorem C22_empty_pattern (ws : List QString) (hws : UpperWords ws) (spec : SearchSpec)
    (ht : spec.type = .Pattern) (hpat : spec.pattern = []) (hp : Plain spec) :
    ∃ res, search (build ws) spec = some res ∧
      search (build ws) (withPattern spec ['*']) = some res ∧
      res.Pairwise (fun a b => qlt a b = true) ∧ res.Nodup ∧
      ∀ r, r ∈ res ↔
        ∃ w ∈ ws, w ≠ [] ∧ (w.length : Int) ≤ spec.maxLength ∧ r = w.map Char.toLower := by
  rw [build_upper ws hws]
  obtain ⟨hmin, hinc, hexc, hcp⟩ := hp
  have hsorted := finish_sorted spec ht (searchOut (plainBuild ws) spec)
  have hstart : startPattern spec = ['*'] := by
    rw [startPattern_pattern spec ht, if_pos hpat]
  have hwild : startWildcard spec = false := by
    simp [startWildcard, ht]
  have hmem : ∀ r, r ∈ finish spec (searchOut (plainBuild ws) spec) ↔
      ∃ w ∈ ws, w ≠ [] ∧ (w.length : Int) ≤ spec.maxLength ∧ r = w.map Char.toLower := by
    intro r
    rw [search_mem, hstart, hwild]
    constructor
    · rintro ⟨rest, hpath, hder⟩
      obtain ⟨hne, hin⟩ := (hasPath_plainBuild ws rest).1 hpath
      have hr := der_star_lower spec false ht [] ['*'] rest r hder (Or.inl rfl) (hws rest hin)
      have hlen := (der_facts spec false [] ['*'] rest r hder).2.1
      refine ⟨rest, hin, hne, ?_, by simpa using hr⟩
      rw [hr] at hlen
      simpa using hlen
    · rintro ⟨w, hin, hne, hlen, rfl⟩
      have hg : globMatch ['*'] w = true :=
        (globMatch_star [] w).2 ⟨[], List.nil_suffix, rfl⟩
      obtain ⟨r, hder⟩ := globMatch_der spec false ht hexc hinc (le_of_eq hcp) w ['*'] []
        (by simp [NoAdjStars]) hne (by simpa using hlen)
        (le_trans hmin (by simp)) hg
      have hr := der_star_lower spec false ht [] ['*'] w r hder (Or.inl rfl) (hws w hin)
      refine ⟨w, (hasPath_plainBuild ws w).2 ⟨hne, hin⟩, ?_⟩
      rw [hr] at hder
      simpa using hder
  have hstart2 : startPattern (withPattern spec ['*']) = ['*'] := by
    simp [startPattern, withPattern, ht, collapseStars]
  have hwild2 : startWildcard (withPattern spec ['*']) = false := by
    simp [startWildcard, withPattern, ht]
  have heq : finish (withPattern spec ['*']) (searchOut (plainBuild ws) (withPattern spec ['*'])) =
      finish spec (searchOut (plainBuild ws) spec) := by
    apply sorted_ext _ _ (finish_sorted (withPattern spec ['*']) ht _) hsorted
    intro r
    rw [search_mem (plainBuild ws) (withPattern spec ['*']) r, search_mem (plainBuild ws) spec r, hstart,
      hwild, hstart2, hwild2]
    constructor
    · rintro ⟨rest, h1, h2⟩
      exact ⟨rest, h1,
        der_congr (withPattern spec ['*']) spec false rfl rfl rfl (fun _ => rfl) _ _ _ _ h2⟩
    · rintro ⟨rest, h1, h2⟩
      exact ⟨rest, h1,
        der_congr spec (withPattern spec ['*']) false rfl rfl rfl (fun _ => rfl) _ _ _ _ h2⟩
  refine ⟨_, search_eq _ _, ?_, hsorted, sorted_nodup _ hsorted, hmem⟩
  rw [search_eq, heq]

theorem C22_empty_pattern_witness :
    UpperWords [['B'], ['A', 'B'], [], ['B'], ['A', 'B', 'C']] ∧
      (⟨.Pattern, [], 0, 2, [], [], [], 0⟩ : SearchSpec).type = .Pattern ∧
      (⟨.Pattern, [], 0, 2, [], [], [], 0⟩ : SearchSpec).pattern = [] ∧
      Plain ⟨.Pattern, [], 0, 2, [], [], [], 0⟩ ∧
      ∃ res, search (build [['B'], ['A', 'B'], [], ['B'], ['A', 'B', 'C']])
            ⟨.Pattern, [], 0, 2, [], [], [], 0⟩ = some res ∧
        search (build [['B'], ['A', 'B'], [], ['B'], ['A', 'B', 'C']])
            (withPattern ⟨.Pattern, [], 0, 2, [], [], [], 0⟩ ['*']) = some res ∧
        res.Pairwise (fun a b => qlt a b = true) ∧ res.Nodup ∧
        ∀ r, r ∈ res ↔
          ∃ w ∈ [['B'], ['A', 'B'], [], ['B'], ['A', 'B', 'C']],
            w ≠ [] ∧ (w.length : Int) ≤ 2 ∧ r = w.map Char.toLower :=
  ⟨by simp [UpperWords], rfl, rfl, by simp [Plain],
    C22_empty_pattern [['B'], ['A', 'B'], [], ['B'], ['A', 'B', 'C']] (by simp [UpperWords])
      ⟨.Pattern, [], 0, 2, [], [], [], 0⟩ rfl rfl (by simp [Plain])⟩

/-! ### Pruning equals post-filtering -/

theorem visit_withoutExclude (spec : SearchSpec) (wildcard : Bool) (c : Char) (w u : QString)
    (l : Char) :
    visit spec wildcard c w u l =
      if l ∈ spec.excludeLetters then none else visit (withoutExclude spec) wildcard c w u l := by
  unfold visit
  by_cases h : l ∈ spec.excludeLetters
  · simp [h]
  · simp only [h, if_false, withoutExclude, List.not_mem_nil]

theorem noneExcluded_append (excl a b : QString) :
    noneExcluded excl (a ++ b) = (noneExcluded excl a && noneExcluded excl b) := by
  simp [noneExcluded, upper]

theorem noneExcluded_visit (spec spec2 : SearchSpec) (wildcard : Bool) (c : Char)
    (w u w1 u1 : QString) (l : Char) (hl : l.isUpper = true)
    (hv : visit spec2 wildcard c w u l = some (w1, u1))
    (hw : noneExcluded spec.excludeLetters w = true) :
    noneExcluded spec.excludeLetters w1 = decide (l ∉ spec.excludeLetters) := by
  obtain ⟨_, y, hy, hw1⟩ := visit_some spec2 wildcard c w u l w1 u1 hv
  have hyu : y.toUpper = l := by
    rcases hy with rfl | rfl
    · exact toUpper_of_isUpper _ hl
    · exact toUpper_toLower_of_isUpper _ hl
  rw [hw1, noneExcluded_append, hw]
  simp [noneExcluded, upper, hyu]

theorem flatten_map_filter (P : QString → Bool) (L : List QString)
    (f g : QString → List QString) (h : ∀ v, f v = (g v).filter P) :
    (L.map f).flatten = ((L.map g).flatten).filter P := by
  induction L with
  | nil => simp
  | cons a L ih => simp [List.filter_append, h a, ih]

theorem expandOut_filter (spec : SearchSpec) (P : QString → Bool) (w : QString)
    (F G : QString → List QString) (h : ∀ v, F v = (G v).filter P) (u : QString) :
    expandOut spec w F u = (expandOut (withoutExclude spec) w G u).filter P := by
  induction u with
  | nil =>
    simp only [expandOut]
    show (if (w.length : Int) < spec.maxLength then F [] else []) =
      (if (w.length : Int) < spec.maxLength then G [] else []).filter P
    split <;> simp [h]
  | cons a rest ih =>
    simp only [expandOut]
    show (if (w.length : Int) < spec.maxLength then
        F (a :: rest) ++ (if spec.type = .Pattern ∧ a = '*' then expandOut spec w F rest else [])
      else []) =
      (if (w.length : Int) < spec.maxLength then
        G (a :: rest) ++ (if spec.type = .Pattern ∧ a = '*' then
          expandOut (withoutExclude spec) w G rest else [])
      else []).filter P
    split
    · rw [List.filter_append, h]
      split
      · rw [ih]
      · simp
    · simp

/-- The words a run of the `for` loop hands over begin with the word of the
state. -/
theorem expandOut_begins (spec : SearchSpec) (wildcard : Bool) (n : Node) (w u r : QString)
    (h : r ∈ expandOut spec w (fun v => sibOut spec wildcard n w v) u) : ∃ m, r = w ++ m := by
  obtain ⟨rest, _, hder⟩ := (expandOut_mem_of spec wildcard n (sibMem_all spec wildcard n) w u r).1 h
  obtain ⟨⟨m, hm, _⟩, _⟩ := der_facts spec wildcard w u rest r hder
  exact ⟨m, hm⟩

/-- Skipping the nodes whose letter is excluded removes from the words handed
over exactly those that contain an excluded letter. -/
theorem sibOut_filter (spec : SearchSpec) (wildcard : Bool) (n : Node) :
    lettersUpper n = true → ∀ w u : QString, noneExcluded spec.excludeLetters w = true →
      sibOut spec wildcard n w u =
        (sibOut (withoutExclude spec) wildcard n w u).filter
          (noneExcluded spec.excludeLetters) := by
  induction n with
  | null => intro _ w u _; simp [sibOut]
  | mk l e nx ch ihnx ihch =>
    intro hn w u hw
    simp only [lettersUpper, Bool.and_eq_true] at hn
    obtain ⟨⟨hl, hnx⟩, hch⟩ := hn
    rw [sibOut, sibOut, List.filter_append, List.filter_append, ← ihnx hnx w u hw]
    rw [show headChar (withoutExclude spec) u = headChar spec u from rfl]
    rw [visit_withoutExclude spec wildcard (headChar spec u) w u l]
    cases hv : visit (withoutExclude spec) wildcard (headChar spec u) w u l with
    | none => simp
    | some q =>
      obtain ⟨w1, u1⟩ := q
      have hP := noneExcluded_visit spec (withoutExclude spec) wildcard _ w u w1 u1 l hl hv hw
      by_cases hlx : l ∈ spec.excludeLetters
      · have hP1 : noneExcluded spec.excludeLetters w1 = false := by simp [hP, hlx]
        simp only [if_pos hlx, List.nil_append, List.append_nil]
        have hA : List.filter (noneExcluded spec.excludeLetters)
            (if accepted (withoutExclude spec) e w1 u1 = true then [w1] else []) = [] := by
          split <;> simp [hP1]
        have hC : List.filter (noneExcluded spec.excludeLetters)
            (if ch.isNull = true then []
              else (List.map (fun v => expandOut (withoutExclude spec) w1
                (fun v1 => sibOut (withoutExclude spec) wildcard ch w1 v1) v)
                (pushed (withoutExclude spec) wildcard (headChar spec u) u1)).flatten) = [] := by
          rw [List.filter_eq_nil_iff]
          intro r hr
          split at hr
          · simp at hr
          · simp only [List.mem_flatten, List.mem_map] at hr
            obtain ⟨_, ⟨v, _, rfl⟩, hr⟩ := hr
            obtain ⟨m, rfl⟩ := expandOut_begins _ wildcard ch w1 v r hr
            simp [noneExcluded_append, hP1]
        rw [hA, hC]
        simp
      · have hP1 : noneExcluded spec.excludeLetters w1 = true := by simp [hP, hlx]
        simp only [if_neg hlx]
        congr 1
        · congr 1
          rw [show accepted (withoutExclude spec) e w1 u1 = accepted spec e w1 u1 from rfl]
          split <;> simp [hP1]
        · split
          · simp
          · rw [show pushed (withoutExclude spec) wildcard (headChar spec u) u1 =
              pushed spec wildcard (headChar spec u) u1 from rfl]
            apply flatten_map_filter
            intro v
            exact expandOut_filter spec _ w1 _ _ (fun v1 => ihch hch w1 v1 hP1) v

theorem foldl_setInsert_filter (P : QString → Bool) (outs : List QString) :
    (outs.filter P).foldl (fun s w => setInsert w s) [] =
      (outs.foldl (fun s w => setInsert w s) []).filter P := by
  apply sorted_ext
  · exact foldl_setInsert_sorted _ _ List.Pairwise.nil
  · exact (foldl_setInsert_sorted _ _ List.Pairwise.nil).filter _
  · intro r
    simp [mem_foldl_setInsert, List.mem_filter]

/-- The list of a search is the list of the search without `excludeLetters`,
filtered. -/
theorem search_filter (g : Graph) (spec : SearchSpec) (hg : lettersUpper g.top = true) :
    finish spec (searchOut g spec) =
      (finish (withoutExclude spec) (searchOut g (withoutExclude spec))).filter
        (noneExcluded spec.excludeLetters) := by
  have hout : searchOut g spec =
      (searchOut g (withoutExclude spec)).filter (noneExcluded spec.excludeLetters) := by
    unfold searchOut
    rw [show startPattern (withoutExclude spec) = startPattern spec from rfl,
      show startWildcard (withoutExclude spec) = startWildcard spec from rfl]
    exact expandOut_filter spec _ [] _ _
      (fun v => sibOut_filter spec _ g.top hg [] v (by simp [noneExcluded, upper])) _
  rw [hout]
  unfold finish
  rw [show (withoutExclude spec).type = spec.type from rfl]
  split
  · exact foldl_setInsert_filter _ _
  · rfl

/-- C23. Pruning equals post-filtering: over a graph built from upper-case
words, for a query of any kind, `search` returns the list obtained from the
list of the same query with `excludeLetters` emptied by keeping, in order,
exactly the entries whose upper-casing contains no character of
`excludeLetters`. -/
theorem C23_pruning_is_filtering (ws : List QString) (hws : UpperWords ws) (spec : SearchSpec) :
    ∃ res res0, search (build ws) spec = some res ∧
      search (build ws) (withoutExclude spec) = some res0 ∧
      res = res0.filter (noneExcluded spec.excludeLetters) := by
  rw [build_upper ws hws]
  exact
    ⟨_, _, search_eq _ _, search_eq _ _, search_filter _ spec (lettersUpper_plainBuild ws hws)⟩

theorem C23_pruning_is_filtering_witness :
    UpperWords [['A', 'B'], ['B', 'C'], ['C']] ∧
      ∃ res res0,
        search (build [['A', 'B'], ['B', 'C'], ['C']])
          ⟨.Pattern, ['*'], 0, 5, [], ['A'], [], 0⟩ = some res ∧
        search (build [['A', 'B'], ['B', 'C'], ['C']])
          (withoutExclude ⟨.Pattern, ['*'], 0, 5, [], ['A'], [], 0⟩) = some res0 ∧
        res = res0.filter (noneExcluded
          (⟨.Pattern, ['*'], 0, 5, [], ['A'], [], 0⟩ : SearchSpec).excludeLetters) :=
  ⟨by simp [UpperWords],
    C23_pruning_is_filtering [['A', 'B'], ['B', 'C'], ['C']] (by simp [UpperWords])
      ⟨.Pattern, ['*'], 0, 5, [], ['A'], [], 0⟩⟩

/-! ## The star of an `Anagram` search -/

theorem leftover_cons_mem (u : QString) (x : Char) (rest : QString) (h : x ∈ u) :
    leftover u (x :: rest) = leftover (u.erase x) rest := by
  simp [leftover, h]

theorem leftover_cons_blank (u : QString) (x : Char) (rest : QString) (h : x ∉ u)
    (hq : '?' ∈ u) : leftover u (x :: rest) = leftover (u.erase '?') rest := by
  simp [leftover, h, hq]

theorem leftover_cons_free (u : QString) (x : Char) (rest : QString) (h : x ∉ u)
    (hq : '?' ∉ u) : leftover u (x :: rest) = leftover u rest := by
  simp [leftover, h, hq]

/-- One step of the `for` body of a search with a star is one step of
`leftover`. -/
theorem visit_leftover (spec : SearchSpec) (c : Char) (w u : QString) (x : Char)
    (w1 u1 : QString) (ht : spec.type ≠ .Pattern)
    (hv : visit spec true c w u x = some (w1, u1)) (rest : QString) :
    leftover u (x :: rest) = leftover u1 rest := by
  rw [visit_nonpattern spec true c w u x ht] at hv
  by_cases hx : x ∈ spec.excludeLetters
  · simp [hx] at hv
  · rw [if_neg hx] at hv
    by_cases h1 : x ∈ u
    · simp only [if_pos h1, Option.some.injEq, Prod.mk.injEq] at hv
      rw [leftover_cons_mem _ _ _ h1, hv.2]
    · rw [if_neg h1] at hv
      by_cases h2 : '?' ∈ u
      · simp only [if_pos h2, Option.some.injEq, Prod.mk.injEq] at hv
        rw [leftover_cons_blank _ _ _ h1 h2, hv.2]
      · simp only [if_neg h2, if_true, Option.some.injEq, Prod.mk.injEq] at hv
        rw [leftover_cons_free _ _ _ h1 h2, hv.2]

/-- An `Anagram` search with a star hands over a word only at the end of a
path that uses up the tiles. -/
theorem der_leftover (spec : SearchSpec) (ht : spec.type = .Anagram)
    (w u rest r : QString) (h : Der spec true w u rest r) : leftover u rest = [] := by
  have htp : spec.type ≠ .Pattern := by
    rw [ht]
    exact fun h2 => SearchType.noConfusion h2
  induction h with
  | zero _ hp _ _ _ => exact absurd hp htp
  | @last w u w1 u1 x _ hv ha =>
    rw [visit_leftover spec _ w u x w1 u1 htp hv []]
    have := ((accepted_anagram spec w1 u1 htp).1 ha).1
    rcases this with h | h
    · rw [ht] at h
      exact SearchType.noConfusion h
    · simpa [leftover] using h
  | @next w u w1 u1 v rest r x y _ hv hmem _ ih =>
    rw [visit_leftover spec _ w u x w1 u1 htp hv (y :: rest)]
    rw [pushed_nonpattern spec true _ u1 htp] at hmem
    simp only [true_or, if_true, List.mem_singleton] at hmem
    rw [← hmem]
    exact ih

theorem visit_star_some (spec : SearchSpec) (c : Char) (w u : QString) (x : Char)
    (ht : spec.type ≠ .Pattern) (hx : spec.excludeLetters = []) :
    ∃ w1 u1, visit spec true c w u x = some (w1, u1) := by
  rw [visit_nonpattern spec true c w u x ht, hx]
  simp only [List.not_mem_nil, if_false, if_true]
  split
  · exact ⟨_, _, rfl⟩
  · split
    · exact ⟨_, _, rfl⟩
    · exact ⟨_, _, rfl⟩

/-- A path that uses up the tiles ends in a word handed over, when nothing
but the length bound constrains the search. -/
theorem leftover_der (spec : SearchSpec) (ht : spec.type ≠ .Pattern)
    (hx : spec.excludeLetters = []) (hi : spec.includeLetters = [])
    (hcp : spec.consistPercent ≤ 0) (rest : QString) :
    ∀ (u w : QString), rest ≠ [] →
      ((w.length + rest.length : Nat) : Int) ≤ spec.maxLength →
      spec.minLength ≤ ((w.length + rest.length : Nat) : Int) →
      leftover u rest = [] → ∃ r, Der spec true w u rest r := by
  induction rest with
  | nil => intro u w h; exact absurd rfl h
  | cons x rest ih =>
    intro u w _ hM hm hl
    obtain ⟨w1, u1, hv⟩ := visit_star_some spec (headChar spec u) w u x ht hx
    have hlen := (visit_nonpattern_some spec true _ w u x w1 u1 ht hv).1
    rw [visit_leftover spec _ w u x w1 u1 ht hv rest] at hl
    have hwM : (w.length : Int) < spec.maxLength := by
      simp only [List.length_cons] at hM
      push_cast at hM
      omega
    cases rest with
    | nil =>
      refine ⟨w1, Der.last hwM hv ?_⟩
      rw [accepted_anagram spec w1 u1 ht]
      refine ⟨Or.inr (by simpa [leftover] using hl), ?_⟩
      apply matchesSpec_plain _ _ _ hi hcp
      rw [upper_length, hlen]
      simpa using hm
    | cons y rest1 =>
      have hmem : u1 ∈ pushed spec true (headChar spec u) u1 := by
        rw [pushed_nonpattern spec true _ u1 ht]
        simp
      obtain ⟨r, hr⟩ := ih u1 w1 (by simp)
        (by rw [hlen]; simp only [List.length_cons] at hM ⊢; push_cast at hM ⊢; omega)
        (by rw [hlen]; simp only [List.length_cons] at hm ⊢; push_cast at hm ⊢; omega) hl
      exact ⟨r, Der.next hwM hv hmem hr⟩

theorem letters_length (u : QString) : (letters u).length + u.count '?' = u.length := by
  induction u with
  | nil => rfl
  | cons a u ih =>
    by_cases ha : a = '?'
    · subst ha
      have h1 : letters ('?' :: u) = letters u := by simp [letters]
      rw [h1, List.count_cons_self, List.length_cons]
      omega
    · have h1 : letters (a :: u) = a :: letters u := by simp [letters, ha]
      have h2 : (a :: u).count '?' = u.count '?' := by simp [List.count_cons, ha]
      rw [h1, h2, List.length_cons, List.length_cons]
      omega

/-- When the greedy taking of tiles uses them all up: the path contains the
letters of the tiles and is long enough for the blanks too. -/
theorem leftover_nil_iff (rest : QString) (hr : ∀ x ∈ rest, x ≠ '?') :
    ∀ u : QString, leftover u rest = [] ↔
      (letters u : Multiset Char) ≤ (rest : Multiset Char) ∧
        (letters u).length + u.count '?' ≤ rest.length := by
  induction rest with
  | nil =>
    intro u
    rw [letters_length]
    simp only [leftover, List.length_nil, Nat.le_zero_eq, List.length_eq_zero]
    constructor
    · rintro rfl
      simp [letters]
    · exact fun h => h.2
  | cons x rest ih =>
    intro u
    have hx : x ≠ '?' := hr x (by simp)
    have ih2 := ih (fun z hz => hr z (by simp [hz]))
    by_cases h1 : x ∈ u
    · have hxl : x ∈ letters u := (mem_letters _ _).2 ⟨h1, hx⟩
      rw [leftover_cons_mem _ _ _ h1, ih2, letters_erase_ne _ _ hx,
        count_question_erase_ne _ _ hx, List.length_erase_of_mem hxl]
      have hpos : 1 ≤ (letters u).length := List.length_pos_of_mem hxl
      have hm : ((((letters u).erase x : QString) : Multiset Char) ≤ (rest : Multiset Char)) ↔
          ((letters u : Multiset Char) ≤ ((x :: rest : QString) : Multiset Char)) := by
        rw [← Multiset.coe_erase, ← Multiset.cons_coe, Multiset.erase_le_iff_le_cons]
      rw [hm]
      simp only [List.length_cons]
      constructor
      · rintro ⟨h3, h4⟩
        exact ⟨h3, by omega⟩
      · rintro ⟨h3, h4⟩
        exact ⟨h3, by omega⟩
    · have h1l : x ∉ letters u := fun h => h1 ((mem_letters _ _).1 h).1
      have hm : ((letters u : Multiset Char) ≤ ((x :: rest : QString) : Multiset Char)) ↔
          ((letters u : Multiset Char) ≤ (rest : Multiset Char)) := by
        rw [← Multiset.cons_coe]
        exact Multiset.le_cons_of_not_mem (by simpa using h1l)
      rw [hm]
      by_cases h2 : '?' ∈ u
      · rw [leftover_cons_blank _ _ _ h1 h2, ih2, letters_erase_question,
          List.count_erase_self]
        have := count_question_pos u h2
        simp only [List.length_cons]
        constructor
        · rintro ⟨h3, h4⟩
          exact ⟨h3, by omega⟩
        · rintro ⟨h3, h4⟩
          exact ⟨h3, by omega⟩
      · rw [leftover_cons_free _ _ _ h1 h2, ih2]
        have h3 : u.count '?' = 0 := List.count_eq_zero_of_not_mem h2
        simp only [List.length_cons, h3, Nat.add_zero]
        constructor
        · rintro ⟨h4, h5⟩
          exact ⟨h4, by omega⟩
        · rintro ⟨h4, _⟩
          refine ⟨h4, ?_⟩
          have := Multiset.card_le_card h4
          simpa using this

theorem count_question_removeStars (p : QString) :
    (removeStars p).count '?' = p.count '?' := by
  induction p with
  | nil => rfl
  | cons a p ih =>
    simp only [removeStars] at ih ⊢
    by_cases ha : a = '*'
    · subst ha
      simp [List.filter_cons]
    · simp [List.filter_cons, ha, List.count_cons, ih]

/-- C26, as stated, fails when the list holds the empty word: `addWord`
ignores it, the graph is empty and the `Anagram` query `*` returns nothing,
while the empty word is in the list, is no longer than `maxLength`, contains
the letters of the pattern, of which there are none, and is long enough. -/
theorem C26_counterexample :
    ∃ res, search (build [[]]) ⟨.Anagram, ['*'], 0, 5, [], [], [], 0⟩ = some res ∧
      ¬ ((∃ r ∈ res, upper r = []) ↔
        (([] : QString) ∈ [([] : QString)] ∧ ((([] : QString).length : Nat) : Int) ≤ 5 ∧
          (letters (removeStars ['*']) : Multiset Char) ≤ (([] : QString) : Multiset Char) ∧
          (letters (removeStars ['*'])).length + (['*'] : QString).count '?' ≤
            ([] : QString).length)) :=
  ⟨[], search_eval _ _ _ (by decide), by simp [letters, removeStars]⟩

/-- C26, amended. Actual meaning of `*` in an `Anagram` query, for non-empty
words: over a graph built from upper-case words, for an `Anagram` query whose
pattern contains `*`, with `maxLength = M` and no other constraint, `search`
returns a list whose entries upper-cased are exactly the non-empty words `w`
of `ws` with `|w| ≤ M` whose letters contain the letters `L` of the pattern
(its characters other than `?` and `*`), as multisets, and with
`|w| ≥ |L| + b`, where `b` is the number of `?` of the pattern. -/
theorem C26_anagram_star_meaning (ws : List QString) (hws : UpperWords ws) (spec : SearchSpec)
    (ht : spec.type = .Anagram) (hs : '*' ∈ spec.pattern) (hp : Plain spec) :
    ∃ res, search (build ws) spec = some res ∧
      ∀ w, (∃ r ∈ res, upper r = w) ↔
        w ∈ ws ∧ w ≠ [] ∧ (w.length : Int) ≤ spec.maxLength ∧
          (letters (removeStars spec.pattern) : Multiset Char) ≤ (w : Multiset Char) ∧
          (letters (removeStars spec.pattern)).length + spec.pattern.count '?' ≤ w.length := by
  rw [build_upper ws hws]
  obtain ⟨hmin, hinc, hexc, hcp⟩ := hp
  have htp : spec.type ≠ .Pattern := by
    rw [ht]
    exact fun h2 => SearchType.noConfusion h2
  have hstart : startPattern spec = removeStars spec.pattern := by
    simp [startPattern, ht, hs]
  have hwild : startWildcard spec = true := by
    simp [startWildcard, ht, hs]
  refine ⟨_, search_eq _ _, ?_⟩
  intro w
  rw [← count_question_removeStars]
  constructor
  · rintro ⟨r, hr, rfl⟩
    rw [search_mem, hstart, hwild] at hr
    obtain ⟨rest, hpath, hder⟩ := hr
    obtain ⟨hne, hin⟩ := (hasPath_plainBuild ws rest).1 hpath
    obtain ⟨⟨m, hm, hmark⟩, hlen, _, _⟩ := der_facts spec true [] _ rest r hder
    have hup : upper r = rest := by
      rw [hm, List.nil_append]
      exact upper_of_marked rest m (hws rest hin) hmark
    rw [hup]
    have hq : ∀ x ∈ rest, x ≠ '?' := fun x hx => isUpper_ne_question x (hws rest hin x hx)
    have hl := (leftover_nil_iff rest hq _).1 (der_leftover spec ht [] _ rest r hder)
    refine ⟨hin, hne, ?_, hl⟩
    rw [← hup, upper_length]
    exact hlen
  · rintro ⟨hin, hne, hlen, hl⟩
    have hq : ∀ x ∈ w, x ≠ '?' := fun x hx => isUpper_ne_question x (hws w hin x hx)
    have hleft := (leftover_nil_iff w hq _).2 hl
    obtain ⟨r, hder⟩ := leftover_der spec htp hexc hinc (le_of_eq hcp) w
      (removeStars spec.pattern) [] hne (by simpa using hlen) (le_trans hmin (by simp)) hleft
    obtain ⟨⟨m, hm, hmark⟩, _⟩ := der_facts spec true [] _ w r hder
    refine ⟨r, ?_, ?_⟩
    · rw [search_mem, hstart, hwild]
      exact ⟨w, (hasPath_plainBuild ws w).2 ⟨hne, hin⟩, hder⟩
    · rw [hm, List.nil_append]
      exact upper_of_marked w m (hws w hin) hmark

theorem C26_anagram_star_meaning_witness :
    UpperWords [['A', 'B'], ['B'], ['C', 'A', 'B'], ['A', 'C']] ∧
      (⟨.Anagram, ['B', '?', '*'], 0, 5, [], [], [], 0⟩ : SearchSpec).type = .Anagram ∧
      '*' ∈ (⟨.Anagram, ['B', '?', '*'], 0, 5, [], [], [], 0⟩ : SearchSpec).pattern ∧
      Plain ⟨.Anagram, ['B', '?', '*'], 0, 5, [], [], [], 0⟩ ∧
      ∃ res, search (build [['A', 'B'], ['B'], ['C', 'A', 'B'], ['A', 'C']])
            ⟨.Anagram, ['B', '?', '*'], 0, 5, [], [], [], 0⟩ = some res ∧
        ∀ w, (∃ r ∈ res, upper r = w) ↔
          w ∈ [['A', 'B'], ['B'], ['C', 'A', 'B'], ['A', 'C']] ∧ w ≠ [] ∧
            (w.length : Int) ≤ 5 ∧
            (letters (removeStars ['B', '?', '*']) : Multiset Char) ≤ (w : Multiset Char) ∧
            (letters (removeStars ['B', '?', '*'])).length +
              (['B', '?', '*'] : QString).count '?' ≤ w.length :=
  ⟨by simp [UpperWords], rfl, by decide, by simp [Plain],
    C26_anagram_star_meaning [['A', 'B'], ['B'], ['C', 'A', 'B'], ['A', 'C']]
      (by simp [UpperWords]) ⟨.Anagram, ['B', '?', '*'], 0, 5, [], [], [], 0⟩ rfl (by decide)
      (by simp [Plain])⟩

/-! ## The words handed to `matchesSpec` -/

theorem visitArgs_form (spec : SearchSpec) (wildcard : Bool) (c : Char) (w u : QString)
    (l : Char) (e : Bool) :
    visitArgs spec wildcard c w u l e = [] ∨
      ∃ y, visitArgs spec wildcard c w u l e = [upper (w ++ [y])] := by
  unfold visitArgs
  cases spec.type <;> simp only <;> split_ifs <;>
    first | exact Or.inl rfl | exact Or.inr ⟨_, rfl⟩

theorem visitArgs_length (spec : SearchSpec) (wildcard : Bool) (c : Char) (w u : QString)
    (l : Char) (e : Bool) :
    ∀ a ∈ visitArgs spec wildcard c w u l e, a.length = w.length + 1 := by
  intro a ha
  rcases visitArgs_form spec wildcard c w u l e with h | ⟨y, h⟩
  · rw [h] at ha
    simp at ha
  · rw [h, List.mem_singleton] at ha
    rw [ha, upper_length]
    simp

theorem siblingsArgs_length (spec : SearchSpec) (wildcard : Bool) (c : Char) (w u : QString)
    (n : Node) : ∀ a ∈ siblingsArgs spec wildcard c w u n, a.length = w.length + 1 := by
  induction n with
  | null => intro a ha; simp [siblingsArgs] at ha
  | mk l e nx ch ihnx _ =>
    intro a ha
    simp only [siblingsArgs, List.mem_append] at ha
    rcases ha with ha | ha
    · exact visitArgs_length spec wildcard c w u l e a ha
    · exact ihnx a ha

/-- Whenever the loop of `search` ends within its fuel, the words it has
handed to `matchesSpec` are listed and none of them is empty. -/
theorem searchLoopArgs_ok (spec : SearchSpec) (wildcard : Bool) :
    ∀ (fuel : Nat) (node : Node) (w u : QString) (acc : Acc),
      (searchLoop spec wildcard fuel node w u acc).isSome = true →
      ∃ args, searchLoopArgs spec wildcard fuel node w u acc = some args ∧
        ∀ a ∈ args, 1 ≤ a.length := by
  intro fuel
  induction fuel with
  | zero =>
    intro node w u acc h
    cases node with
    | null => exact ⟨[], by simp [searchLoopArgs, Node.isNull], by simp⟩
    | mk l e nx ch => simp [searchLoop, Node.isNull] at h
  | succ f ih =>
    intro node w u acc h
    cases node with
    | null => exact ⟨[], by simp [searchLoopArgs, Node.isNull], by simp⟩
    | mk l e nx ch =>
      have hargs : ∀ c : Char, ∀ a ∈ (if (w.length : Int) < spec.maxLength then
          siblingsArgs spec wildcard c w u (.mk l e nx ch) else []), 1 ≤ a.length := by
        intro c a ha
        split at ha
        · rw [siblingsArgs_length spec wildcard _ w u _ a ha]
          omega
        · simp at ha
      rw [searchLoop] at h
      rw [searchLoopArgs]
      simp only [Node.isNull, Bool.false_eq_true, if_false] at h ⊢
      split at h
      · rename_i heq
        try simp only [heq]
        exact ⟨_, rfl, hargs _⟩
      · rename_i st rest heq
        try simp only [heq]
        obtain ⟨more, hm, hlen⟩ := ih _ _ _ _ h
        rw [hm]
        refine ⟨_, rfl, ?_⟩
        intro a ha
        rcases List.mem_append.1 ha with ha | ha
        · exact hargs _ a ha
        · exact hlen a ha

theorem guarded_write (b m : Bool) (x : QString) (f : QString → Bool) (A B : List QString)
    (h : ∀ a ∈ (if b = true then [x] else []), f a = false) (hm : m = f x) :
    (if (b && m) = true then A else B) = B := by
  cases b
  · simp
  · have := h x (by simp)
    simp [hm, this]

/-- The `for` body writes to the result only after a call of `matchesSpec`
listed by `visitArgs` has returned true. -/
theorem visitNode_args (spec : SearchSpec) (wildcard : Bool) (c : Char) (w u : QString)
    (l : Char) (e : Bool) (ch : Node) (acc : Acc)
    (h : ∀ a ∈ visitArgs spec wildcard c w u l e, matchesSpec a spec = false) :
    (visitNode spec wildcard c w u l e ch acc).wordSet = acc.wordSet ∧
      (visitNode spec wildcard c w u l e ch acc).wordList = acc.wordList := by
  unfold visitNode
  unfold visitArgs at h
  by_cases hx : l ∈ spec.excludeLetters
  · simp only [hx, if_true, and_self]
  · simp only [hx, if_false] at h ⊢
    cases hty : spec.type with
    | Pattern =>
      simp only [hty] at h ⊢
      by_cases hc : c = l ∨ c = '*' ∨ c = '?'
      · simp only [hc, if_true] at h ⊢
        constructor <;>
          first
          | rfl
          | trivial
          | exact guarded_write _ _ _ (fun a => matchesSpec a spec) _ _ h rfl
      · simp only [hc, if_false, and_self]
    | Anagram =>
      simp only [hty] at h ⊢
      by_cases hm : (decide ((if find u l < 0 then find u '?' else find u l) ≥ 0) ||
          wildcard) = true
      · simp only [hm, if_true] at h ⊢
        constructor <;>
          first
          | rfl
          | trivial
          | exact guarded_write _ _ _ (fun a => matchesSpec a spec) _ _ h rfl
      · simp only [hm, if_false, and_self]
        trivial
    | Subanagram =>
      simp only [hty] at h ⊢
      by_cases hm : (decide ((if find u l < 0 then find u '?' else find u l) ≥ 0) ||
          wildcard) = true
      · simp only [hm, if_true] at h ⊢
        constructor <;>
          first
          | rfl
          | trivial
          | exact guarded_write _ _ _ (fun a => matchesSpec a spec) _ _ h rfl
      · simp only [hm, if_false, and_self]
        trivial

/-- C27. The consist-percent division is guarded inside `search`: for every
graph and every query, whatever `minLength` and `consistPercent`, the run of
`search` ends and every word it has handed to `matchesSpec` has length at
least 1, so the word length `matchesSpec` divides by is never zero. -/
theorem C27_division_guarded (g : Graph) (spec : SearchSpec) :
    ∃ res args, search g spec = some res ∧ searchArgs g spec = some args ∧
      ∀ a ∈ args, 1 ≤ a.length ∧ (a.length : Int) ≠ 0 := by
  have hs := search_eq g spec
  have hargs : ∃ args, searchArgs g spec = some args ∧ ∀ a ∈ args, 1 ≤ a.length := by
    unfold searchArgs
    by_cases htop : g.top.isNull = true
    · exact ⟨[], by simp [htop], by simp⟩
    · rw [if_neg htop]
      have hsome : (searchLoop spec (startWildcard spec) (searchSteps g spec) g.top []
          (startPattern spec) ⟨[], [], []⟩).isSome = true := by
        unfold search searchFuel at hs
        rw [if_neg htop] at hs
        cases hl : searchLoop spec (startWildcard spec) (searchSteps g spec) g.top []
            (startPattern spec) ⟨[], [], []⟩ with
        | none => simp [hl] at hs
        | some acc => rfl
      exact searchLoopArgs_ok spec _ _ _ _ _ _ hsome
  obtain ⟨args, h1, h2⟩ := hargs
  refine ⟨_, args, hs, h1, ?_⟩
  intro a ha
  have := h2 a ha
  exact ⟨this, by omega⟩

end WordGraph
